import Mathlib

/-!
# goproc: the windowed rate engine and the /proc/net table reader

A shallow embedding of

* `procnet/tcpstat/circbuf.go` (`CircBuf`, the fixed-capacity ring of samples),
* the bucket loop of `init` and the per-tick append loop of `printStats`
  in `procnet/nwstat/main.go` and `procnet/tcpstat/main.go`,
* `net.go` (`NetStats`, the reader of the two-line labelled tables),
* `get`, the lookup of a tracked counter, of both `main.go`,
* `disk.go` (`Mounts`, the reader of `/proc/mounts`),

together with the properties of these functions.

Conventions of the embedding.

* Go's `int`, `int64` and `time.Duration` are 64-bit two's-complement integers
  (the programs read `/proc`, so the platform is 64-bit Linux).  They are
  modelled by `Int`; every arithmetic operation of the source that can leave the
  range is followed by `wrap64`.
* A run-time panic (index out of range, integer division by zero, `make` with a
  length out of range) is the value `none` of an `Option`, or `Outcome.panic`.
* `make([]int64, n)` panics for a negative `n` and for an `n` whose `8 * n` bytes
  exceed the `maxAlloc` of the runtime (`1 << 48` on 64-bit Linux).  For every
  other `n` it is taken to succeed: exhaustion of memory is not modelled.
* A Go `string` is modelled by the list of its characters.
* A file is its content, read to the end: a read error other than the end of
  the file is not modelled.  The limit of `bufio.Scanner` on the length of a
  line is.
-/

/-! ## Machine integers -/

/-- Two's-complement reduction of an exact integer to the range of `int64`. -/
def wrap64 (x : Int) : Int := (x + 2 ^ 63) % 2 ^ 64 - 2 ^ 63

/-- Indexing `s[i]` of a Go slice: a run-time panic (`none`) unless `0 ≤ i < len(s)`. -/
def sliceIndex (s : List Int) (i : Int) : Option Int :=
  if 0 ≤ i then s[i.toNat]? else none

/-! ## `circbuf.go` -/

/-- The struct `CircBuf` of `circbuf.go`. -/
structure CircBuf where
  buf : List Int
  size : Int
  full : Bool
  cur : Int
deriving DecidableEq, Repr

/-- The constant `maxAlloc` of the Go runtime, the number of bytes above which no allocation
is attempted: `1 << 48` on 64-bit Linux. -/
def maxAlloc : Int := 281474976710656

/-- The call `make([]int64, n)`: the runtime panics ("makeslice: len out of range") when `n` is
negative or the `8 * n` bytes of the elements exceed `maxAlloc`; otherwise the slice holds `n`
zeros. -/
def makeSlice (n : Int) : Option (List Int) :=
  if n < 0 ∨ maxAlloc < 8 * n then none else some (List.replicate n.toNat 0)

/-- The function `NewCircBuf(size)`: a panic of `make([]int64, size)` ends it; otherwise `buf`
is the zero-filled slice of length `size`, and `full`, `cur` keep their zero values. -/
def NewCircBuf (size : Int) : Option CircBuf :=
  match makeSlice size with
  | none => none
  | some buf => some { buf := buf, size := size, full := false, cur := 0 }

/-- The method `(*CircBuf).Full`. -/
def CircBuf.Full (b : CircBuf) : Bool := b.full

/-- The method `(*CircBuf).Len`. -/
def CircBuf.Len (b : CircBuf) : Int :=
  if b.full then b.size else b.cur

/-- The method `(*CircBuf).Append`: `b.buf[b.cur] = v` panics when `cur` is out of range, and
`(b.cur + 1) % b.size` panics when `size` is zero (`%` is Go's truncated remainder). -/
def CircBuf.Append (b : CircBuf) (v : Int) : Option CircBuf :=
  if 0 ≤ b.cur ∧ b.cur < b.buf.length then
    if b.size = 0 then none
    else
      let cur := Int.tmod (wrap64 (b.cur + 1)) b.size
      some { buf := b.buf.set b.cur.toNat v
             size := b.size
             full := if cur = 0 then true else b.full
             cur := cur }
  else none

/-- The method `(*CircBuf).Delta`: `b.cur % b.size` panics when `size` is zero, each of the two index
expressions panics when out of range, and the subtraction is that of `int64`. -/
def CircBuf.Delta (b : CircBuf) : Option Int :=
  if b.full = true ∧ b.size = 0 then none
  else
    let first := if b.full then Int.tmod b.cur b.size else 0
    let last := if wrap64 (b.cur - 1) < 0 then wrap64 (b.size - 1) else wrap64 (b.cur - 1)
    match sliceIndex b.buf last, sliceIndex b.buf first with
    | some l, some f => some (wrap64 (l - f))
    | _, _ => none

/-- A sequence of `Append` calls, in order, on one buffer. -/
def CircBuf.appends (b : CircBuf) : List Int → Option CircBuf
  | [] => some b
  | v :: vs => (b.Append v).bind (fun b1 => b1.appends vs)

/-- The buffer obtained from `NewCircBuf(size)` followed by one `Append` per value. -/
def appendsNew (size : Int) (vs : List Int) : Option CircBuf :=
  (NewCircBuf size).bind (fun b => b.appends vs)

/-- The ring layout: the state of a buffer of capacity `c` that has received the values `vs`. -/
structure RingInv (c : Nat) (vs : List Int) (b : CircBuf) : Prop where
  size_eq : b.size = c
  len_eq : b.buf.length = c
  cur_eq : b.cur = ((vs.length % c : Nat) : Int)
  full_eq : b.full = decide (c ≤ vs.length)
  recent : ∀ i, i < vs.length → vs.length ≤ i + c → b.buf[i % c]? = vs[i]?
  untouched : ∀ j, vs.length ≤ j → j < c → b.buf[j]? = some 0

/-! ## The bucket loop of `init` and the append loop of `printStats` -/

/-- The two configuration errors the bucket code of `init` reports through `fatal` and
`fatalf` (a message on the error stream, then `os.Exit(1)`). -/
inductive ConfigError where
  /-- The call `fatal("Require at least one bucket")`. -/
  | noBuckets
  /-- The call `fatalf("Bucket size (%v) is not a multiple of frequency (%v)\n", bucket, freq)`. -/
  | notMultiple (bucket freq : Int)
deriving DecidableEq, Repr

/-- How a piece of start-up code ends: normally, by a fatal configuration error, or by a
run-time panic. -/
inductive Outcome (α : Type) where
  | ok (a : α)
  | fatal (e : ConfigError)
  | panic

/-- The start-up code ended normally. -/
def Outcome.isOk {α : Type} : Outcome α → Bool
  | Outcome.ok _ => true
  | _ => false

/-- The start-up code ended with a fatal configuration error. -/
def Outcome.isFatal {α : Type} : Outcome α → Bool
  | Outcome.fatal _ => true
  | _ => false

/-- The start-up code ended with a run-time panic. -/
def Outcome.isPanic {α : Type} : Outcome α → Bool
  | Outcome.panic => true
  | _ => false

/-- A tracked counter, `[2]string` in the source: group label and field name. -/
abbrev Key := List Char × List Char

/-- One `for _, buf := range bufs { buf.Append(value) }` loop of `printStats`: the same value
is appended to every buffer of a counter, in window order; a panic ends the loop. -/
def recordAll : List CircBuf → Int → Option (List CircBuf)
  | [], _ => some []
  | b :: bs, value =>
    match b.Append value with
    | none => none
    | some b1 => (recordAll bs value).map (fun bs1 => b1 :: bs1)

/-- The append loops of successive ticks on the buffers of one counter, one value per tick. -/
def ticks (bufs : List CircBuf) : List Int → Option (List CircBuf)
  | [] => some bufs
  | value :: rest => (recordAll bufs value).bind (fun bufs1 => ticks bufs1 rest)

namespace Nwstat

/-- The variable `deltaKeys` of `nwstat/main.go`. -/
def deltaKeys : List Key :=
  [("Tcp".toList, "ActiveOpens".toList),
   ("Tcp".toList, "PassiveOpens".toList),
   ("Tcp".toList, "InErrs".toList),
   ("Udp".toList, "InDatagrams".toList),
   ("Udp".toList, "OutDatagrams".toList)]

/-- The variable `bucketBufs`, a `map[[2]string][]*CircBuf`: reading an absent key gives the
nil slice. -/
abbrev BucketBufs := Key → List CircBuf

/-- The inner loop `for _, key := range deltaKeys` of `init`, for one bucket:
`bucketBufs[key] = append(bucketBufs[key], NewCircBuf(mul+1))`. -/
def addBuckets (mul : Int) : List Key → BucketBufs → Option BucketBufs
  | [], bb => some bb
  | key :: keys, bb =>
    match NewCircBuf (wrap64 (mul + 1)) with
    | none => none
    | some b => addBuckets mul keys (fun k => if k = key then bb key ++ [b] else bb k)

/-- The loop `for _, bucket := range buckets` of `init`: `bucket%freq` panics for a zero
`freq`, `bucket / freq` is Go's truncated quotient on `int64`. -/
def bucketLoop (freq : Int) : List Int → BucketBufs → Outcome BucketBufs
  | [], bb => Outcome.ok bb
  | bucket :: rest, bb =>
    if freq = 0 then Outcome.panic
    else if Int.tmod bucket freq ≠ 0 then Outcome.fatal (ConfigError.notMultiple bucket freq)
    else
      match addBuckets (wrap64 (Int.tdiv bucket freq)) deltaKeys bb with
      | none => Outcome.panic
      | some bb1 => bucketLoop freq rest bb1

/-- The part of `init` of `nwstat/main.go` that follows the parsing of the flags (lines
50 to 64), on the parsed `freq` and `buckets`; `bucketBufs` starts as the empty map. -/
def init (freq : Int) (buckets : List Int) : Outcome BucketBufs :=
  if buckets.length = 0 then Outcome.fatal ConfigError.noBuckets
  else bucketLoop freq buckets (fun _ => [])

end Nwstat

namespace Tcpstat

/-- The loop `for _, bucket := range buckets` of `init` of `tcpstat/main.go`, on the pair
`(activeOpensBufs, passiveOpensBufs)`. -/
def bucketLoop (freq : Int) :
    List Int → List CircBuf × List CircBuf → Outcome (List CircBuf × List CircBuf)
  | [], bufs => Outcome.ok bufs
  | bucket :: rest, bufs =>
    if freq = 0 then Outcome.panic
    else if Int.tmod bucket freq ≠ 0 then Outcome.fatal (ConfigError.notMultiple bucket freq)
    else
      let mul := wrap64 (Int.tdiv bucket freq)
      match NewCircBuf (wrap64 (mul + 1)), NewCircBuf (wrap64 (mul + 1)) with
      | some b1, some b2 => bucketLoop freq rest (bufs.1 ++ [b1], bufs.2 ++ [b2])
      | _, _ => Outcome.panic

/-- The part of `init` of `tcpstat/main.go` that follows the parsing of the flags (lines
42 to 53); both slices start nil. -/
def init (freq : Int) (buckets : List Int) : Outcome (List CircBuf × List CircBuf) :=
  if buckets.length = 0 then Outcome.fatal ConfigError.noBuckets
  else bucketLoop freq buckets ([], [])

end Tcpstat

/-- The bucket loop builds the buffers of the window `w`: `w` is an exact multiple of the
frequency `f`, and `make` accepts the capacity `w / f + 1`. -/
def Buildable (f w : Int) : Prop := w % f = 0 ∧ 8 * (w / f + 1) ≤ maxAlloc

instance (f w : Int) : Decidable (Buildable f w) := by
  unfold Buildable
  infer_instance

/-! ## `net.go` -/

/-- A Go `string`, as the list of its characters. -/
abbrev Str := List Char

/-- The predicate `unicode.IsSpace`: the Latin-1 spaces `'\t'`, `'\n'`, `'\v'`, `'\f'`, `'\r'`,
`' '`, U+0085, U+00A0, and the other characters of category `White_Space`. -/
def IsSpace (c : Char) : Bool :=
  decide ((9 ≤ c.toNat ∧ c.toNat ≤ 13) ∨ c.toNat = 32 ∨ c.toNat = 0x85 ∨ c.toNat = 0xA0 ∨
    c.toNat = 0x1680 ∨ (0x2000 ≤ c.toNat ∧ c.toNat ≤ 0x200a) ∨ c.toNat = 0x2028 ∨
    c.toNat = 0x2029 ∨ c.toNat = 0x202f ∨ c.toNat = 0x205f ∨ c.toNat = 0x3000)

/-- The scan of `strings.Fields`: `cur` is the field being read, empty between fields. -/
def fieldsFrom : List Char → Str → List Str
  | [], cur => if cur = [] then [] else [cur]
  | c :: cs, cur =>
    if IsSpace c then (if cur = [] then fieldsFrom cs [] else cur :: fieldsFrom cs [])
    else fieldsFrom cs (cur ++ [c])

/-- The function `strings.Fields`: the maximal runs of non-space characters, in order. -/
def Fields (s : Str) : List Str := fieldsFrom s []

/-- The call `strings.HasSuffix(s, ":")`. -/
def HasSuffixColon (s : Str) : Bool := s.getLast? = some ':'

/-- The digits of `strconv.ParseUint(s, 10, 64)`, accumulated in `n`; `none` is the syntax
error for a character that is not a decimal digit. -/
def parseDigits : List Char → Nat → Option Nat
  | [], n => some n
  | c :: cs, n =>
    if 48 ≤ c.toNat ∧ c.toNat ≤ 57 then parseDigits cs (n * 10 + (c.toNat - 48)) else none

/-- The call `strconv.ParseInt(s, 10, 64)`; `none` stands for both of its errors (syntax and
range): an optional sign, at least one decimal digit, and a value in the range of `int64`. -/
def ParseInt (s : Str) : Option Int :=
  match s with
  | [] => none
  | c :: cs =>
    let neg := decide (c = '-')
    let digits := if c = '+' ∨ c = '-' then cs else c :: cs
    if digits = [] then none
    else
      match parseDigits digits 0 with
      | none => none
      | some un =>
        if neg = false ∧ 2 ^ 63 ≤ un then none
        else if neg = true ∧ 2 ^ 63 < un then none
        else some (if neg then -(un : Int) else (un : Int))

/-- A Go `map[string]V`, as an association list with at most one entry for a key. -/
abbrev GoMap (V : Type) := List (Str × V)

/-- The assignment `m[k] = v`. -/
def mapSet {V : Type} (m : GoMap V) (k : Str) (v : V) : GoMap V :=
  (k, v) :: m.filter (fun p => decide (p.1 ≠ k))

/-- The lookup `v, ok := m[k]`. -/
def mapGet {V : Type} : GoMap V → Str → Option V
  | [], _ => none
  | (k1, v) :: m, k => if k = k1 then some v else mapGet m k

/-- The value `map[string]map[string]int64` that `NetStats` builds. -/
abbrev Stats := GoMap (GoMap Int)

/-- The errors `NetStats` returns, one for each `fmt.Errorf` of its body. -/
inductive NetError where
  /-- The text "Read a header line without a following data line." -/
  | headerWithoutData
  /-- The text "Found a value line of a different length than the header line". -/
  | lengthMismatch
  /-- The text "Header or value lines don't match or don't start with a label". -/
  | labelMismatch
  /-- The text "Could not parse value." -/
  | badValue
  /-- The text "None of the required /proc/net/ files could be found." -/
  | noFiles
deriving DecidableEq, Repr

deriving instance DecidableEq for Except

/-- The loop `for i, key := range keys` of `NetStats` past `i == 0`: every further key is
paired with the value of the same index, parsed by `strconv.ParseInt`. -/
def parseValues : List Str → List Str → GoMap Int → Except NetError (GoMap Int)
  | key :: keys, value :: values, lineMap =>
    match ParseInt value with
    | none => Except.error NetError.badValue
    | some v => parseValues keys values (mapSet lineMap key v)
  | _, _, lineMap => Except.ok lineMap

/-- The body of the read loop of `NetStats` for one line (lines 36 to 60): with no pending
header the fields of the line become `keys`; otherwise the line is the value line of the
pending header.  Returns the new `keys` and `result`. -/
def processLine (line : Str) (keys : List Str) (result : Stats) :
    Except NetError (List Str × Stats) :=
  match keys with
  | [] => Except.ok (Fields line, result)
  | key0 :: keys1 =>
    match Fields line with
    | [] => Except.error NetError.lengthMismatch
    | value0 :: values1 =>
      if values1.length ≠ keys1.length then Except.error NetError.lengthMismatch
      else if key0 ≠ value0 ∨ HasSuffixColon key0 = false then
        Except.error NetError.labelMismatch
      else
        match parseValues keys1 values1 [] with
        | Except.error e => Except.error e
        | Except.ok lineMap => Except.ok ([], mapSet result key0.dropLast lineMap)

/-- The variables of the read loop: the part of the current line that `ReadString` has read,
the pending header `keys`, and `result`. -/
structure LoopState where
  line : Str
  keys : List Str
  result : Stats
deriving DecidableEq

/-- The read loop of `NetStats` over the characters that are available: `ReadString('\n')`
returns a line at every `'\n'`, and the body of the loop processes it. -/
def feed : List Char → LoopState → Except NetError LoopState
  | [], s => Except.ok s
  | c :: rest, s =>
    if c = '\n' then
      match processLine (s.line ++ [c]) s.keys s.result with
      | Except.error e => Except.error e
      | Except.ok (keys, result) => feed rest { line := [], keys := keys, result := result }
    else feed rest { line := s.line ++ [c], keys := s.keys, result := s.result }

/-- The end of the input: `ReadString` returns `io.EOF` (and the unterminated rest of the
input, which the loop discards); a pending header is an error, otherwise the loop ends. -/
def atEOF (s : LoopState) : Except NetError Stats :=
  if s.keys.length > 0 then Except.error NetError.headerWithoutData
  else Except.ok s.result

/-- The read loop of `NetStats` on one opened file with content `text` (lines 23 to 61); `keys`
starts empty, `result` is shared by the files.  The content is read to its end: a read error
other than `io.EOF` is outside the model. -/
def parseFile (text : Str) (result : Stats) : Except NetError Stats :=
  match feed text { line := [], keys := [], result := result } with
  | Except.error e => Except.error e
  | Except.ok s => atEOF s

/-- The variable `procNetFiles`. -/
def procNetFiles : List Str := ["netstat".toList, "snmp".toList]

/-- The loop `for _, filename := range procNetFiles`: `fsys path` is the content of the file
at `path`, or `none` when `os.Open` fails, in which case the file is skipped. -/
def parseFiles (fsys : Str → Option Str) : List Str → Stats → Except NetError Stats
  | [], result => Except.ok result
  | filename :: rest, result =>
    match fsys ("/proc/net/".toList ++ filename) with
    | none => parseFiles fsys rest result
    | some text =>
      match parseFile text result with
      | Except.error e => Except.error e
      | Except.ok result1 => parseFiles fsys rest result1

/-- The function `NetStats`, as the pair it returns: the map (`none` for `nil`) and the
error (`none` for `nil`). -/
def NetStats (fsys : Str → Option Str) : Option Stats × Option NetError :=
  match parseFiles fsys procNetFiles [] with
  | Except.error e => (none, some e)
  | Except.ok result =>
    if result.length = 0 then (none, some NetError.noFiles) else (some result, none)

/-! ## Well-formed tables -/

/-- One (header line, value line) pair of a table: the two lines without their newlines, and
what they are to consist of: the label, the field names, the value tokens and their values. -/
structure TablePair where
  header : Str
  values : Str
  label : Str
  names : List Str
  tokens : List Str
  vals : List Int
deriving DecidableEq

/-- The pair is well formed: the header is the token `label:` followed by the field names, the
value line is the same token followed by as many tokens, each a base-10 `int64`, and the field
names are distinct. -/
def TablePair.WellFormed (p : TablePair) : Prop :=
  '\n' ∉ p.header ∧ '\n' ∉ p.values ∧
  Fields p.header = (p.label ++ [':']) :: p.names ∧
  Fields p.values = (p.label ++ [':']) :: p.tokens ∧
  p.tokens.map ParseInt = p.vals.map some ∧
  p.names.length = p.tokens.length ∧ p.names.Nodup

instance (p : TablePair) : Decidable p.WellFormed := by
  unfold TablePair.WellFormed
  infer_instance

/-- The text of a pair: both lines, newline-terminated. -/
def TablePair.text (p : TablePair) : Str :=
  p.header ++ ['\n'] ++ (p.values ++ ['\n'])

/-- The text of a table: its pairs one after the other. -/
def tableText (ps : List TablePair) : Str := (ps.map TablePair.text).flatten

/-- The map the value line of a pair produces: the assignments `lineMap[key] = v` in order. -/
def TablePair.lineMap (p : TablePair) : GoMap Int :=
  (p.names.zip p.vals).foldl (fun m e => mapSet m e.1 e.2) []

/-- Tokens written on one line, separated by single blanks. -/
def unwords : List Str → Str
  | [] => []
  | [t] => t
  | t :: ts => t ++ ' ' :: unwords ts

/-- The pair whose lines are written from the tokens with single blanks. -/
def TablePair.render (label : Str) (names tokens : List Str) (vals : List Int) : TablePair :=
  { header := unwords ((label ++ [':']) :: names)
    values := unwords ((label ++ [':']) :: tokens)
    label := label
    names := names
    tokens := tokens
    vals := vals }

/-! ## The lookup of a tracked counter -/

/-- How `get` ends: it returns a value, or it calls `fatal` with a message (the message goes
to the error stream and the process exits with status 1). -/
inductive GetResult where
  | value (v : Int)
  | fatal (msg : Str)
deriving DecidableEq, Repr

namespace Nwstat

/-- The function `name` of `nwstat/main.go`: `key[0] + "." + key[1]`. -/
def name (key : Key) : Str := key.1 ++ ".".toList ++ key.2

/-- The function `get` of `nwstat/main.go`: both lookups use the comma-ok form, and `fatal`
does not return. -/
def get (m : Stats) (key : Key) : GetResult :=
  match mapGet m key.1 with
  | some m1 =>
    match mapGet m1 key.2 with
    | some v => GetResult.value v
    | none => GetResult.fatal ("Cannot find key ".toList ++ name key)
  | none => GetResult.fatal ("Cannot find key ".toList ++ name key)

end Nwstat

namespace Tcpstat

/-- The function `name` of `tcpstat/main.go`: `key[0] + "." + key[1]`. -/
def name (key : Key) : Str := key.1 ++ ".".toList ++ key.2

/-- The function `get` of `tcpstat/main.go`, of the same text as the one of `nwstat`. -/
def get (m : Stats) (key : Key) : GetResult :=
  match mapGet m key.1 with
  | some m1 =>
    match mapGet m1 key.2 with
    | some v => GetResult.value v
    | none => GetResult.fatal ("Cannot find key ".toList ++ name key)
  | none => GetResult.fatal ("Cannot find key ".toList ++ name key)

end Tcpstat

/-- The pair parses: as `WellFormed`, except that a field name may occur more than once in
the header. -/
def TablePair.Accepted (p : TablePair) : Prop :=
  '\n' ∉ p.header ∧ '\n' ∉ p.values ∧
  Fields p.header = (p.label ++ [':']) :: p.names ∧
  Fields p.values = (p.label ++ [':']) :: p.tokens ∧
  p.tokens.map ParseInt = p.vals.map some ∧
  p.names.length = p.tokens.length

instance (p : TablePair) : Decidable p.Accepted := by
  unfold TablePair.Accepted
  infer_instance

/-! ## The groups of one source -/

/-- The groups of one source of `NetStats`, parsed on its own: the per-file parse of its text
from the empty map, and no group for a file that cannot be opened. -/
def sourceGroups (fsys : Str → Option Str) (filename : Str) : Except NetError Stats :=
  match fsys ("/proc/net/".toList ++ filename) with
  | none => Except.ok []
  | some text => parseFile text []

/-! ## Sources that parse -/

/-- One item of a source, read while the loop awaits a header: a blank line (a line without a
field, given without its newline) or a (header line, value line) pair. -/
inductive TableItem where
  | blank (ws : Str)
  | pair (p : TablePair)
deriving DecidableEq

/-- The item parses: a blank line has no field, a pair parses. -/
def TableItem.Accepted : TableItem → Prop
  | TableItem.blank ws => '\n' ∉ ws ∧ Fields ws = []
  | TableItem.pair p => p.Accepted

instance (i : TableItem) : Decidable i.Accepted := by
  cases i <;> unfold TableItem.Accepted <;> infer_instance

/-- The text of an item: its lines, newline-terminated. -/
def TableItem.text : TableItem → Str
  | TableItem.blank ws => ws ++ ['\n']
  | TableItem.pair p => p.text

/-- The pairs among the items, in order. -/
def itemPairs : List TableItem → List TablePair
  | [] => []
  | TableItem.blank _ :: items => itemPairs items
  | TableItem.pair p :: items => p :: itemPairs items

/-- The content of a source: items one after the other, and the unterminated rest of the
input after the last newline. -/
structure Source where
  items : List TableItem
  rest : Str
deriving DecidableEq

/-- The source parses: its items do, and the rest holds no newline. -/
def Source.Accepted (s : Source) : Prop :=
  (∀ i ∈ s.items, i.Accepted) ∧ '\n' ∉ s.rest

instance (s : Source) : Decidable s.Accepted := by
  unfold Source.Accepted
  infer_instance

/-- The text of a source. -/
def Source.text (s : Source) : Str := (s.items.map TableItem.text).flatten ++ s.rest

/-- The pairs of a source that may be missing: none for a file that cannot be opened. -/
def sourcePairs (o : Option Source) : List TablePair :=
  match o with
  | none => []
  | some s => itemPairs s.items

/-- The files of `NetStats` hold the sources `s1` (`netstat`) and `s2` (`snmp`), `none` being
a file that cannot be opened, and both sources parse. -/
def FilesHold (fsys : Str → Option Str) (s1 s2 : Option Source) : Prop :=
  fsys "/proc/net/netstat".toList = s1.map Source.text ∧
  fsys "/proc/net/snmp".toList = s2.map Source.text ∧
  (∀ s ∈ s1, s.Accepted) ∧ (∀ s ∈ s2, s.Accepted)

/-! ## `disk.go` -/

/-- The struct `FSTabEntry` of `disk.go`. -/
structure FSTabEntry where
  Spec : Str
  File : Str
  Vfstype : Str
  Mntops : List Str
  Freq : Int
  Passno : Int
deriving DecidableEq, Repr

/-- The errors `Mounts` returns. -/
inductive MountsError where
  /-- The error of `os.Open`. -/
  | openError
  /-- The variable `mountsErr`, "Cannot parse /proc/mounts". -/
  | cannotParse
  /-- The error of `strconv.Atoi` on the given field. -/
  | atoi (field : Str)
  /-- The error `bufio.ErrTooLong` of the scanner, returned through `scanner.Err()`. -/
  | tooLong
deriving DecidableEq, Repr

/-- The scan of `strings.Split(s, sep)` for a separator of one character: `cur` is the piece
being read. -/
def splitFrom (sep : Char) : List Char → Str → List Str
  | [], cur => [cur]
  | c :: cs, cur => if c = sep then cur :: splitFrom sep cs [] else splitFrom sep cs (cur ++ [c])

/-- The function `strings.Split(s, sep)` for a separator of one character. -/
def Split (s : Str) (sep : Char) : List Str := splitFrom sep s []

/-- The function `strconv.Atoi`: `ParseInt(s, 10, 0)`, with `int` of 64 bits. -/
def Atoi (s : Str) : Option Int := ParseInt s

/-- The number of bytes of a string (its characters are encoded in UTF-8). -/
def byteLen (s : Str) : Nat := (s.map Char.utf8Size).sum

/-- The constant `bufio.MaxScanTokenSize`, the largest buffer of a `Scanner`: a line whose
first `64 * 1024` bytes hold no newline stops the scan with `bufio.ErrTooLong`. -/
def MaxScanTokenSize : Nat := 64 * 1024

/-- The function `dropCR` of `bufio.ScanLines`: one trailing `'\r'` is dropped. -/
def dropCR (data : Str) : Str :=
  if data.getLast? = some '\r' then data.dropLast else data

/-- The body of the scan loop of `Mounts` for one line (lines 35 to 55). -/
def mountLine (line : Str) : Except MountsError FSTabEntry :=
  match Fields line with
  | [f0, f1, f2, f3, f4, f5] =>
    match Atoi f4 with
    | none => Except.error (MountsError.atoi f4)
    | some freq =>
      match Atoi f5 with
      | none => Except.error (MountsError.atoi f5)
      | some passno =>
        Except.ok { Spec := f0, File := f1, Vfstype := f2, Mntops := Split f3 ',',
                    Freq := freq, Passno := passno }
  | _ => Except.error MountsError.cannotParse

/-- The loop `for scanner.Scan()` of `Mounts` with the split function `bufio.ScanLines`, and
the check of `scanner.Err()` after it: `cur` is the line being read and `results` the entries
so far.  The scanner returns every newline-terminated line and a non-empty unterminated last
line, each without its trailing `'\r'`, and stops with `bufio.ErrTooLong` at a line of
`MaxScanTokenSize` bytes or more. -/
def scanLoop : List Char → Str → List FSTabEntry → Except MountsError (List FSTabEntry)
  | [], cur, results =>
    if cur = [] then Except.ok results
    else if MaxScanTokenSize ≤ byteLen cur then Except.error MountsError.tooLong
    else
      match mountLine (dropCR cur) with
      | Except.error e => Except.error e
      | Except.ok entry => Except.ok (results ++ [entry])
  | c :: cs, cur, results =>
    if c = '\n' then
      if MaxScanTokenSize ≤ byteLen cur then Except.error MountsError.tooLong
      else
        match mountLine (dropCR cur) with
        | Except.error e => Except.error e
        | Except.ok entry => scanLoop cs [] (results ++ [entry])
    else scanLoop cs (cur ++ [c]) results

/-- The function `Mounts`, as the pair it returns, on the content of `/proc/mounts` (`none`
when `os.Open` fails).  The content is read to its end: a read error is outside the model. -/
def Mounts (file : Option Str) : Option (List FSTabEntry) × Option MountsError :=
  match file with
  | none => (none, some MountsError.openError)
  | some text =>
    match scanLoop text [] [] with
    | Except.error e => (none, some e)
    | Except.ok results => (some results, none)

/-- The text of the lines `ls`, each newline-terminated, followed by `rest`. -/
def unlines (ls : List Str) (rest : Str) : Str :=
  (ls.map (fun l => l ++ ['\n'])).flatten ++ rest

/-- The lines the scanner finds in `unlines ls rest`: the lines `ls`, and `rest` when it is
not empty. -/
def scannedLines (ls : List Str) (rest : Str) : List Str :=
  ls ++ (if rest = [] then [] else [rest])

/-- The line stands for the entry: it has exactly six fields, the first three are `Spec`,
`File` and `Vfstype`, the fourth split at the commas is `Mntops`, and the fifth and sixth
are the decimal integers `Freq` and `Passno`. -/
def LineEntry (l : Str) (e : FSTabEntry) : Prop :=
  ∃ f3 f4 f5, Fields l = [e.Spec, e.File, e.Vfstype, f3, f4, f5] ∧
    e.Mntops = Split f3 ',' ∧ Atoi f4 = some e.Freq ∧ Atoi f5 = some e.Passno

/-- What the scan loop does with one scanned line: the scanner's length check, then the body
of the loop. -/
def scanStep (l : Str) : Except MountsError FSTabEntry :=
  if MaxScanTokenSize ≤ byteLen l then Except.error MountsError.tooLong else mountLine l

/-- The scan loop over the scanned lines, one after the other, up to the first error. -/
def scanAll : List Str → List FSTabEntry → Except MountsError (List FSTabEntry)
  | [], results => Except.ok results
  | l :: ls, results =>
    match scanStep l with
    | Except.error e => Except.error e
    | Except.ok entry => scanAll ls (results ++ [entry])

/-! # Theorems -/

/-! ## Lemmas on machine integers -/

theorem wrap64_of_range {x : Int} (h1 : -2 ^ 63 ≤ x) (h2 : x < 2 ^ 63) : wrap64 x = x := by
  unfold wrap64
  have h : (x + 2 ^ 63) % 2 ^ 64 = x + 2 ^ 63 :=
    Int.emod_eq_of_lt (by omega) (by omega)
  omega

theorem wrap64_zero : wrap64 0 = 0 := by decide

theorem wrap64_sub_self (x : Int) : wrap64 (x - x) = 0 := by
  rw [sub_self]; exact wrap64_zero

/-! ## Lengths that `make` accepts -/

theorem makeSlice_some {n : Int} (h0 : 0 ≤ n) (h1 : 8 * n ≤ maxAlloc) :
    makeSlice n = some (List.replicate n.toNat 0) := by
  have h : ¬ (n < 0 ∨ maxAlloc < 8 * n) := by omega
  rw [makeSlice, if_neg h]

theorem makeSlice_none {n : Int} (h : n < 0 ∨ maxAlloc < 8 * n) : makeSlice n = none := by
  rw [makeSlice, if_pos h]

/-- A length that `make` accepts is far inside the range of `int`. -/
theorem lt_of_le_maxAlloc {n : Int} (h : 8 * n ≤ maxAlloc) : n < 2 ^ 63 := by
  unfold maxAlloc at h
  omega

theorem newCircBuf_some {c : Int} (hc : 0 ≤ c) (hlen : 8 * c ≤ maxAlloc) :
    NewCircBuf c
      = some { buf := List.replicate c.toNat 0, size := c, full := false, cur := 0 } := by
  simp only [NewCircBuf, makeSlice_some hc hlen]

theorem newCircBuf_none {c : Int} (h : c < 0 ∨ maxAlloc < 8 * c) : NewCircBuf c = none := by
  simp only [NewCircBuf, makeSlice_none h]

/-- A buffer that `NewCircBuf` returned: its length was accepted by `make`. -/
theorem newCircBuf_some_inv {c : Int} {b : CircBuf} (h : NewCircBuf c = some b) :
    0 ≤ c ∧ 8 * c ≤ maxAlloc ∧
      b = { buf := List.replicate c.toNat 0, size := c, full := false, cur := 0 } := by
  by_cases hbad : c < 0 ∨ maxAlloc < 8 * c
  · rw [newCircBuf_none hbad] at h
    cases h
  · have h0 : 0 ≤ c := by omega
    have h1 : 8 * c ≤ maxAlloc := by omega
    rw [newCircBuf_some h0 h1] at h
    exact ⟨h0, h1, (Option.some.inj h).symm⟩

/-! ## The ring layout after a sequence of appends -/

theorem CircBuf.appends_append (b : CircBuf) (xs ys : List Int) :
    b.appends (xs ++ ys) = (b.appends xs).bind (fun b1 => b1.appends ys) := by
  induction xs generalizing b with
  | nil => simp [CircBuf.appends]
  | cons x xs ih =>
    simp only [List.cons_append, CircBuf.appends]
    cases h : b.Append x with
    | none => simp
    | some b1 => simp [ih]

theorem mod_ne_of_close {c i n : Nat} (h1 : i < n) (h2 : n < i + c) : i % c ≠ n % c := by
  intro h
  have hd : c ∣ n - i := (Nat.modEq_iff_dvd' (le_of_lt h1)).mp h
  have hz : n - i = 0 := Nat.eq_zero_of_dvd_of_lt hd (by omega)
  omega

theorem ringInv_new {c : Nat} (hc : 1 ≤ c) (hlen : 8 * (c : Int) ≤ maxAlloc) :
    ∃ b, NewCircBuf (c : Int) = some b ∧ RingInv c [] b := by
  refine ⟨{ buf := List.replicate c 0, size := c, full := false, cur := 0 }, ?_, ?_⟩
  · rw [newCircBuf_some (by omega) hlen, Int.toNat_natCast]
  · constructor
    · rfl
    · simp
    · simp
    · have : ¬ (c ≤ 0) := by omega
      simp [this]
    · intro i hi; simp at hi
    · intro j _ hj
      simp [List.getElem?_replicate, hj]

theorem ringInv_append {c : Nat} (hc : 1 ≤ c) (hmax : (c : Int) < 2 ^ 63) {vs : List Int}
    {b : CircBuf} (h : RingInv c vs b) (v : Int) :
    ∃ b1, b.Append v = some b1 ∧ RingInv c (vs ++ [v]) b1 := by
  obtain ⟨hsize, hlen, hcur, hfull, hrec, hunt⟩ := h
  have hcpos : 0 < c := hc
  have hlt : vs.length % c < c := Nat.mod_lt _ hcpos
  have hcur0 : 0 ≤ b.cur := by rw [hcur]; exact Int.natCast_nonneg _
  have hcur1 : b.cur < b.buf.length := by rw [hcur, hlen]; exact_mod_cast hlt
  have hsz : b.size ≠ 0 := by rw [hsize]; exact_mod_cast (by omega : c ≠ 0)
  have hw : wrap64 (b.cur + 1) = b.cur + 1 := by
    apply wrap64_of_range <;> rw [hcur] <;> omega
  have hnext : Int.tmod (b.cur + 1) b.size = (((vs.length + 1) % c : Nat) : Int) := by
    rw [Int.tmod_eq_emod (by omega) (by rw [hsize]; omega), hcur, hsize]
    have : ((vs.length % c : Nat) : Int) + 1 = ((vs.length % c + 1 : Nat) : Int) := by push_cast; rfl
    rw [this, ← Int.natCast_mod, Nat.mod_add_mod]
  have htoNat : b.cur.toNat = vs.length % c := by rw [hcur]; exact Int.toNat_natCast _
  refine ⟨{ buf := b.buf.set b.cur.toNat v
            size := b.size
            full := if Int.tmod (wrap64 (b.cur + 1)) b.size = 0 then true else b.full
            cur := Int.tmod (wrap64 (b.cur + 1)) b.size }, ?_, ?_⟩
  · simp only [CircBuf.Append, hcur0, hcur1, and_self, if_true, hsz, if_false]
  · constructor
    · exact hsize
    · simp [hlen]
    · simp only [hw, hnext, List.length_append, List.length_singleton]
    · simp only [hw, hnext, List.length_append, List.length_singleton, hfull]
      by_cases hz : (vs.length + 1) % c = 0
      · have : c ≤ vs.length + 1 := Nat.le_of_dvd (by omega) (Nat.dvd_of_mod_eq_zero hz)
        simp [hz, this]
      · have hz1 : ¬ ((((vs.length + 1) % c : Nat) : Int) = 0) := by exact_mod_cast hz
        simp only [hz1, if_false]
        by_cases hf : c ≤ vs.length
        · have : c ≤ vs.length + 1 := by omega
          simp [hf, this]
        · have hne : ¬ (c ≤ vs.length + 1) := by
            intro hle
            have heq : vs.length + 1 = c := by omega
            apply hz; rw [heq]; exact Nat.mod_self c
          simp [hf, hne]
    · intro i hi hic
      simp only [List.length_append, List.length_singleton] at hi hic
      rw [htoNat]
      by_cases hin : i = vs.length
      · subst hin
        rw [List.getElem?_set]
        simp [hlen, hlt]
      · have hi1 : i < vs.length := by omega
        have hne : vs.length % c ≠ i % c := fun e => mod_ne_of_close hi1 (by omega) e.symm
        rw [List.getElem?_set, if_neg hne, hrec i hi1 (by omega)]
        rw [List.getElem?_append_left hi1]
    · intro j hj hjc
      simp only [List.length_append, List.length_singleton] at hj
      rw [htoNat]
      have hmod : vs.length % c = vs.length := Nat.mod_eq_of_lt (by omega)
      have hne : vs.length % c ≠ j := by omega
      rw [List.getElem?_set, if_neg hne]
      exact hunt j (by omega) hjc

theorem ringInv_appends {c : Nat} (hc : 1 ≤ c) (hlen : 8 * (c : Int) ≤ maxAlloc)
    (vs : List Int) :
    ∃ b, appendsNew (c : Int) vs = some b ∧ RingInv c vs b := by
  have hmax : (c : Int) < 2 ^ 63 := lt_of_le_maxAlloc hlen
  induction vs using List.reverseRecOn with
  | nil =>
    obtain ⟨b, hb, hinv⟩ := ringInv_new hc hlen
    exact ⟨b, by simp [appendsNew, hb, CircBuf.appends], hinv⟩
  | append_singleton vs v ih =>
    obtain ⟨b, hb, hinv⟩ := ih
    obtain ⟨b1, hb1, hinv1⟩ := ringInv_append hc hmax hinv v
    refine ⟨b1, ?_, hinv1⟩
    unfold appendsNew at hb ⊢
    cases hn : NewCircBuf (c : Int) with
    | none => simp [hn] at hb
    | some b0 =>
      simp only [hn, Option.some_bind] at hb ⊢
      rw [CircBuf.appends_append, hb]
      simp [CircBuf.appends, hb1]

theorem pred_mod {c n : Nat} (hc : 1 ≤ c) (hn : 1 ≤ n) :
    (n - 1) % c = if n % c = 0 then c - 1 else n % c - 1 := by
  have hdm : c * (n / c) + n % c = n := Nat.div_add_mod n c
  have hlt : n % c < c := Nat.mod_lt _ hc
  by_cases hz : n % c = 0
  · rw [if_pos hz]
    have hq : 1 ≤ n / c := by
      rcases Nat.eq_zero_or_pos (n / c) with h0 | h0
      · rw [h0, hz] at hdm; omega
      · exact h0
    have hn1 : n - 1 = c - 1 + c * (n / c - 1) := by
      have hmul : c * (n / c) = c * (n / c - 1) + c := by
        have hsplit : n / c = (n / c - 1) + 1 := by omega
        conv_lhs => rw [hsplit]
        rw [Nat.mul_add, Nat.mul_one]
      omega
    rw [hn1, Nat.add_mul_mod_self_left]
    exact Nat.mod_eq_of_lt (by omega)
  · rw [if_neg hz]
    have hn1 : n - 1 = n % c - 1 + c * (n / c) := by omega
    rw [hn1, Nat.add_mul_mod_self_left]
    exact Nat.mod_eq_of_lt (by omega)

/-- With at least `c` values received, `Delta` is the `int64` difference of the last value
and the value `c - 1` positions before it. -/
theorem ringInv_delta {c : Nat} (hc : 1 ≤ c) (hmax : (c : Int) < 2 ^ 63) {vs : List Int}
    {b : CircBuf} (h : RingInv c vs b) (hn : c ≤ vs.length) :
    ∃ newest oldest, vs[vs.length - 1]? = some newest ∧ vs[vs.length - c]? = some oldest ∧
      b.Delta = some (wrap64 (newest - oldest)) := by
  obtain ⟨hsize, hlen, hcur, hfull, hrec, _⟩ := h
  have hlt : vs.length % c < c := Nat.mod_lt _ hc
  have hn1 : 1 ≤ vs.length := by omega
  have hi1 : vs.length - 1 < vs.length := by omega
  have hi2 : vs.length - c < vs.length := by omega
  refine ⟨vs[vs.length - 1], vs[vs.length - c], List.getElem?_eq_getElem hi1,
    List.getElem?_eq_getElem hi2, ?_⟩
  have hfull1 : b.full = true := by rw [hfull]; simpa using hn
  have hsz : b.size ≠ 0 := by rw [hsize]; exact_mod_cast (by omega : c ≠ 0)
  have hfirst : Int.tmod b.cur b.size = ((vs.length % c : Nat) : Int) := by
    rw [Int.tmod_eq_emod (by rw [hcur]; omega) (by rw [hsize]; omega), hcur, hsize,
      ← Int.natCast_mod, Nat.mod_mod]
  have hw1 : wrap64 (b.cur - 1) = b.cur - 1 := by
    apply wrap64_of_range <;> rw [hcur] <;> omega
  have hw2 : wrap64 (b.size - 1) = b.size - 1 := by
    apply wrap64_of_range <;> rw [hsize] <;> omega
  have hlast : (if wrap64 (b.cur - 1) < 0 then wrap64 (b.size - 1) else wrap64 (b.cur - 1))
      = (((vs.length - 1) % c : Nat) : Int) := by
    rw [hw1, hw2, hcur, hsize, pred_mod hc hn1]
    by_cases hz : vs.length % c = 0
    · rw [if_pos hz, hz]
      have : ((0 : Nat) : Int) - 1 < 0 := by omega
      rw [if_pos this]; omega
    · rw [if_neg hz]
      have : ¬ (((vs.length % c : Nat) : Int) - 1 < 0) := by omega
      rw [if_neg this]; omega
  have hnew : b.buf[(vs.length - 1) % c]? = some vs[vs.length - 1] := by
    rw [hrec (vs.length - 1) hi1 (by omega)]; exact List.getElem?_eq_getElem hi1
  have hold : b.buf[vs.length % c]? = some vs[vs.length - c] := by
    have hmod : (vs.length - c) % c = vs.length % c := by
      conv_rhs => rw [← Nat.sub_add_cancel hn]
      rw [Nat.add_mod_right]
    rw [← hmod, hrec (vs.length - c) hi2 (by omega)]; exact List.getElem?_eq_getElem hi2
  unfold CircBuf.Delta
  have hguard : ¬ (b.full = true ∧ b.size = 0) := fun hh => hsz hh.2
  rw [if_neg hguard]
  simp only [hfull1, if_true, hfirst, hlast, sliceIndex, Int.natCast_nonneg, Int.toNat_natCast,
    hnew, hold]

/-! ## Properties of `CircBuf` -/

/-- C1. For every capacity `c ≥ 1` (a length `make` accepts, `8 * c ≤ maxAlloc`) and every
sequence of `n ≥ c` values appended to `NewCircBuf(c)`, `Delta()` returns `v_{n-1} - v_{n-c}`, the newest sample minus the oldest of
the `c` most recent ones.  The subtraction is the one `Delta` performs, on `int64`; it is the
exact difference whenever that difference is an `int64`.  For `c = 1` the result is `0`. -/
theorem C1_delta_sliding_window (c : Int) (hc : 1 ≤ c) (hlen : 8 * c ≤ maxAlloc) (vs : List Int)
    (hn : c ≤ vs.length) :
    ∃ b newest oldest, appendsNew c vs = some b ∧
      vs[vs.length - 1]? = some newest ∧ vs[vs.length - c.toNat]? = some oldest ∧
      b.Delta = some (wrap64 (newest - oldest)) ∧
      (-2 ^ 63 ≤ newest - oldest → newest - oldest < 2 ^ 63 →
        b.Delta = some (newest - oldest)) ∧
      (c = 1 → b.Delta = some 0) := by
  lift c to ℕ using (by omega) with k
  have hint : (k : Int) < 2 ^ 63 := lt_of_le_maxAlloc hlen
  have hk : 1 ≤ k := by exact_mod_cast hc
  have hnk : k ≤ vs.length := by exact_mod_cast hn
  obtain ⟨b, hb, hinv⟩ := ringInv_appends hk hlen vs
  obtain ⟨newest, oldest, h1, h2, h3⟩ := ringInv_delta hk hint hinv hnk
  refine ⟨b, newest, oldest, hb, h1, by simpa using h2, h3, ?_, ?_⟩
  · intro hlo hhi
    rw [h3, wrap64_of_range hlo hhi]
  · intro hone
    have hk1 : k = 1 := by exact_mod_cast hone
    subst hk1
    rw [h1] at h2
    cases h2
    rw [h3, wrap64_sub_self]

theorem C1_delta_sliding_window_witness :
    ∃ b newest oldest, appendsNew 3 [100, 105, 110, 120] = some b ∧
      [100, 105, 110, (120 : Int)][4 - 1]? = some newest ∧
      [100, 105, 110, (120 : Int)][4 - (3 : Int).toNat]? = some oldest ∧
      b.Delta = some (wrap64 (newest - oldest)) ∧
      (-2 ^ 63 ≤ newest - oldest → newest - oldest < 2 ^ 63 →
        b.Delta = some (newest - oldest)) ∧
      ((3 : Int) = 1 → b.Delta = some 0) :=
  C1_delta_sliding_window 3 (by decide) (by decide) [100, 105, 110, 120] (by decide)

/-- C2, the claim as written, fails: in a buffer of capacity 2 that received 1, 2, 4 the
value `v_0 = 1` has been overwritten, and `Delta()` is `4 - 2 = 2`, not `v_2 - v_0 = 3`. -/
theorem C2_counterexample :
    ∃ b, appendsNew 2 [1, 2, 4] = some b ∧ b.Delta = some 2 ∧
      b.Delta ≠ some (wrap64 (4 - 1)) :=
  ⟨{ buf := [4, 2], size := 2, full := true, cur := 1 }, by decide, by decide, by decide⟩

/-- C2, amended. For every capacity `c ≥ 1` (a length `make` accepts, `8 * c ≤ maxAlloc`) and
every sequence of `c + 1` values `v_0..v_c`
appended to a new `CircBuf` of capacity `c`, immediately after appending `v_c`,
`Delta() == v_c - v_1` (`int64` subtraction): `v_0` is no longer in the buffer. -/
theorem C2_delta_after_one_more (c : Int) (hc : 1 ≤ c) (hlen : 8 * c ≤ maxAlloc) (vs : List Int)
    (hn : (vs.length : Int) = c + 1) :
    ∃ b vc v1, appendsNew c vs = some b ∧ vs[c.toNat]? = some vc ∧ vs[1]? = some v1 ∧
      b.Delta = some (wrap64 (vc - v1)) := by
  lift c to ℕ using (by omega) with k
  have hint : (k : Int) < 2 ^ 63 := lt_of_le_maxAlloc hlen
  have hk : 1 ≤ k := by exact_mod_cast hc
  have hvl : vs.length = k + 1 := by exact_mod_cast hn
  obtain ⟨b, hb, hinv⟩ := ringInv_appends hk hlen vs
  obtain ⟨newest, oldest, h1, h2, h3⟩ := ringInv_delta hk hint hinv (by omega)
  refine ⟨b, newest, oldest, hb, ?_, ?_, h3⟩
  · have : vs.length - 1 = k := by omega
    rw [this] at h1
    simpa using h1
  · have : vs.length - k = 1 := by omega
    rw [this] at h2
    exact h2

theorem C2_delta_after_one_more_witness :
    ∃ b vc v1, appendsNew 2 [1, 2, 4] = some b ∧ [1, 2, (4 : Int)][(2 : Int).toNat]? = some vc ∧
      [1, 2, (4 : Int)][1]? = some v1 ∧ b.Delta = some (wrap64 (vc - v1)) :=
  C2_delta_after_one_more 2 (by decide) (by decide) [1, 2, 4] (by decide)

/-- The method `Append` never clears the `full` flag. -/
theorem append_keeps_full {b b1 : CircBuf} {v : Int} (h : b.Append v = some b1)
    (hf : b.Full = true) : b1.Full = true := by
  unfold CircBuf.Append at h
  split at h
  · split at h
    · cases h
    · cases h
      simp only [CircBuf.Full] at hf ⊢
      simp [hf]
  · cases h

/-- C4. For every capacity `c ≥ 1` (a length `make` accepts, `8 * c ≤ maxAlloc`) and every
`n ≥ 0`, after `n` appends to `NewCircBuf(c)`, `Full()` is true iff `n ≥ c`; once true it stays true under every later
`Append`, which succeeds and never resets the flag. -/
theorem C4_full_iff (c : Int) (hc : 1 ≤ c) (hlen : 8 * c ≤ maxAlloc) (vs : List Int) :
    ∃ b, appendsNew c vs = some b ∧ (b.Full = true ↔ c ≤ vs.length) ∧
      (b.Full = true → ∀ ws : List Int, ∃ b1, b.appends ws = some b1 ∧ b1.Full = true) ∧
      (∀ (b0 b1 : CircBuf) (v : Int), b0.Append v = some b1 → b0.Full = true →
        b1.Full = true) := by
  lift c to ℕ using (by omega) with k
  have hint : (k : Int) < 2 ^ 63 := lt_of_le_maxAlloc hlen
  have hk : 1 ≤ k := by exact_mod_cast hc
  obtain ⟨b, hb, hinv⟩ := ringInv_appends hk hlen vs
  have hiff : b.Full = true ↔ (k : Int) ≤ vs.length := by
    simp only [CircBuf.Full, hinv.full_eq, decide_eq_true_eq]
    exact Nat.cast_le.symm
  refine ⟨b, hb, hiff, ?_, fun b0 b1 v h hf => append_keeps_full h hf⟩
  intro hfull ws
  obtain ⟨b1, hb1, hinv1⟩ := ringInv_appends hk hlen (vs ++ ws)
  refine ⟨b1, ?_, ?_⟩
  · unfold appendsNew at hb hb1
    cases hn : NewCircBuf (k : Int) with
    | none => simp [hn] at hb
    | some b0 =>
      simp only [hn, Option.some_bind] at hb hb1
      rw [CircBuf.appends_append, hb] at hb1
      simpa using hb1
  · have hle : k ≤ vs.length := by exact_mod_cast hiff.mp hfull
    simp only [CircBuf.Full, hinv1.full_eq, decide_eq_true_eq, List.length_append]
    omega

theorem C4_full_iff_witness :
    ∃ b, appendsNew 3 [7, 8, 9] = some b ∧ (b.Full = true ↔ (3 : Int) ≤ [7, 8, (9 : Int)].length) ∧
      (b.Full = true → ∀ ws : List Int, ∃ b1, b.appends ws = some b1 ∧ b1.Full = true) ∧
      (∀ (b0 b1 : CircBuf) (v : Int), b0.Append v = some b1 → b0.Full = true →
        b1.Full = true) :=
  C4_full_iff 3 (by decide) (by decide) [7, 8, 9]

/-- C5. For every capacity `c ≥ 1` (a length `make` accepts, `8 * c ≤ maxAlloc`) and every
`n ≥ 0`, after `n` appends to `NewCircBuf(c)`, `Len() = min(n, c)`. -/
theorem C5_len_min (c : Int) (hc : 1 ≤ c) (hlen : 8 * c ≤ maxAlloc) (vs : List Int) :
    ∃ b, appendsNew c vs = some b ∧ b.Len = min (vs.length : Int) c := by
  lift c to ℕ using (by omega) with k
  have hint : (k : Int) < 2 ^ 63 := lt_of_le_maxAlloc hlen
  have hk : 1 ≤ k := by exact_mod_cast hc
  obtain ⟨b, hb, hinv⟩ := ringInv_appends hk hlen vs
  refine ⟨b, hb, ?_⟩
  unfold CircBuf.Len
  rw [hinv.full_eq, hinv.size_eq, hinv.cur_eq]
  by_cases hle : k ≤ vs.length
  · have : min (vs.length : Int) (k : Int) = k := min_eq_right (by exact_mod_cast hle)
    simp [hle, this]
  · have hlt : vs.length < k := by omega
    have : min (vs.length : Int) (k : Int) = vs.length :=
      min_eq_left (by exact_mod_cast (le_of_lt hlt))
    simp [hle, this, Nat.mod_eq_of_lt hlt]

theorem C5_len_min_witness :
    ∃ b, appendsNew 3 [7, 8] = some b ∧ b.Len = min ([7, (8 : Int)].length : Int) 3 :=
  C5_len_min 3 (by decide) (by decide) [7, 8]

/-- C8, the claim as written, fails in both directions: `make([]int64, 0)` does not panic, so
`NewCircBuf(0)` returns a buffer with no slot; and for the positive size `2^45 + 1` the
`8 * size` bytes exceed `maxAlloc`, so `make` panics and no buffer is returned. -/
theorem C8_counterexample :
    NewCircBuf 0 = some { buf := [], size := 0, full := false, cur := 0 } ∧
      (0 : Int) < 35184372088833 ∧ NewCircBuf 35184372088833 = none := by
  decide

/-- C8, amended. `NewCircBuf(size)` returns a buffer exactly for the sizes `make` accepts,
`0 ≤ size ≤ 2^45` (`8 * size ≤ maxAlloc`): a buffer of exactly `size` zero samples with `size`
recorded, `full = false` and `cur = 0` (so for `size = 0` a buffer without any slot).  It panics
exactly when `size < 0` or `size > 2^45`. -/
theorem C8_new_circbuf (size : Int) :
    (NewCircBuf size = none ↔ size < 0 ∨ 2 ^ 45 < size) ∧
    ((∃ b, NewCircBuf size = some b) ↔ 0 ≤ size ∧ size ≤ 2 ^ 45) ∧
    (size ≤ 2 ^ 45 ↔ 8 * size ≤ maxAlloc) ∧
    (∀ b, NewCircBuf size = some b →
      (b.buf.length : Int) = size ∧ (∀ x ∈ b.buf, x = 0) ∧ b.size = size ∧
      b.full = false ∧ b.cur = 0 ∧ b.Len = 0 ∧ b.Full = false) := by
  have hlim : size ≤ 2 ^ 45 ↔ 8 * size ≤ maxAlloc := by
    unfold maxAlloc
    omega
  by_cases hbad : size < 0 ∨ maxAlloc < 8 * size
  · have hnone := newCircBuf_none hbad
    refine ⟨?_, ?_, hlim, ?_⟩
    · constructor
      · intro _
        rcases hbad with h | h
        · exact Or.inl h
        · right
          by_contra hle
          have := hlim.mp (by omega)
          omega
      · intro _; exact hnone
    · constructor
      · rintro ⟨b, hb⟩
        rw [hnone] at hb
        cases hb
      · rintro ⟨h0, h1⟩
        have := hlim.mp h1
        omega
    · intro b hb
      rw [hnone] at hb
      cases hb
  · have h0 : 0 ≤ size := by omega
    have h1 : 8 * size ≤ maxAlloc := by omega
    have hsome := newCircBuf_some h0 h1
    refine ⟨?_, ?_, hlim, ?_⟩
    · constructor
      · intro h
        rw [hsome] at h
        cases h
      · intro h
        have := hlim.mpr h1
        omega
    · constructor
      · intro _; exact ⟨h0, hlim.mpr h1⟩
      · intro _; exact ⟨_, hsome⟩
    · intro b hb
      rw [hsome] at hb
      cases hb
      refine ⟨?_, ?_, rfl, rfl, rfl, rfl, rfl⟩
      · simp only [List.length_replicate]
        exact Int.toNat_of_nonneg h0
      · intro x hx
        exact (List.mem_replicate.mp hx).2

/-! ## The bucket loop of `init` -/

theorem tdiv_tmod_of_nonneg {w f : Int} (hw : 0 ≤ w) (hf : 0 < f) :
    Int.tmod w f = w % f ∧ Int.tdiv w f = w / f :=
  ⟨Int.tmod_eq_emod hw (le_of_lt hf), Int.tdiv_eq_ediv hw (le_of_lt hf)⟩

theorem quot_bounds {w f : Int} (hw : 0 ≤ w) (hw2 : w < 2 ^ 63) (hf : 0 < f) :
    0 ≤ w / f ∧ w / f < 2 ^ 63 := by
  constructor
  · exact Int.ediv_nonneg hw (le_of_lt hf)
  · have h1 : w / f ≤ w := Int.ediv_le_self f hw
    omega

/-- The capacity `int(bucket / freq) + 1` as the source computes it, when it does not
overflow. -/
theorem capacity_eq {w f : Int} (hw : 0 ≤ w) (hw2 : w < 2 ^ 63) (hf : 0 < f)
    (hcap : w / f + 1 < 2 ^ 63) :
    wrap64 (wrap64 (Int.tdiv w f) + 1) = w / f + 1 := by
  obtain ⟨h0, h1⟩ := quot_bounds hw hw2 hf
  rw [(tdiv_tmod_of_nonneg hw hf).2, wrap64_of_range (by omega) h1,
    wrap64_of_range (by omega) hcap]

/-- The buffer of a window: `NewCircBuf(mul+1)` returns the fresh buffer of capacity
`w / f + 1` when `make` accepts that length, and panics otherwise (also when `mul+1`
overflows). -/
theorem newCircBuf_capacity {w f : Int} (hw : 0 ≤ w) (hw2 : w < 2 ^ 63) (hf : 0 < f) :
    (8 * (w / f + 1) ≤ maxAlloc →
      NewCircBuf (wrap64 (wrap64 (Int.tdiv w f) + 1)) = NewCircBuf (w / f + 1) ∧
      NewCircBuf (w / f + 1) = some { buf := List.replicate (w / f + 1).toNat 0
                                      size := w / f + 1, full := false, cur := 0 }) ∧
    (maxAlloc < 8 * (w / f + 1) →
      NewCircBuf (wrap64 (wrap64 (Int.tdiv w f) + 1)) = none) := by
  obtain ⟨h0, h1⟩ := quot_bounds hw hw2 hf
  constructor
  · intro hlen
    rw [capacity_eq hw hw2 hf (lt_of_le_maxAlloc hlen)]
    exact ⟨rfl, newCircBuf_some (by omega) hlen⟩
  · intro hbig
    by_cases hcap : w / f + 1 < 2 ^ 63
    · rw [capacity_eq hw hw2 hf hcap]
      exact newCircBuf_none (Or.inr hbig)
    · have hq : w / f + 1 = 2 ^ 63 := by omega
      rw [(tdiv_tmod_of_nonneg hw hf).2, wrap64_of_range (by omega) h1, hq]
      exact newCircBuf_none (Or.inl (by decide))

/-- How a bucket loop ends, from what it does with its first window: it reports the first
window that is not a multiple of the frequency, panics at the first window whose capacity
`make` rejects, and otherwise goes on. -/
theorem loop_outcome {S : Type} {f : Int} (loop : List Int → S → Outcome S)
    (hnil : ∀ s, loop [] s = Outcome.ok s)
    (hcons : ∀ (w : Int) (rest : List Int) (s : S), 0 ≤ w → w < 2 ^ 63 →
      (w % f ≠ 0 → loop (w :: rest) s = Outcome.fatal (ConfigError.notMultiple w f)) ∧
      (w % f = 0 → maxAlloc < 8 * (w / f + 1) → loop (w :: rest) s = Outcome.panic) ∧
      (w % f = 0 → 8 * (w / f + 1) ≤ maxAlloc → ∃ s1, loop (w :: rest) s = loop rest s1)) :
    ∀ (ws : List Int) (s : S), (∀ w ∈ ws, 0 ≤ w ∧ w < 2 ^ 63) →
      ((loop ws s).isOk = true ↔ ∀ w ∈ ws, Buildable f w) ∧
      ((loop ws s).isFatal = true ↔ ∃ pre w post, ws = pre ++ w :: post ∧ w % f ≠ 0 ∧
        ∀ u ∈ pre, Buildable f u) ∧
      ((loop ws s).isPanic = true ↔ ∃ pre w post, ws = pre ++ w :: post ∧ w % f = 0 ∧
        maxAlloc < 8 * (w / f + 1) ∧ ∀ u ∈ pre, Buildable f u) := by
  intro ws
  induction ws with
  | nil =>
    intro s _
    rw [hnil]
    refine ⟨by simp [Outcome.isOk], ?_, ?_⟩
    · constructor
      · intro h; simp [Outcome.isFatal] at h
      · rintro ⟨pre, w, post, h, _⟩; simp at h
    · constructor
      · intro h; simp [Outcome.isPanic] at h
      · rintro ⟨pre, w, post, h, _⟩; simp at h
  | cons w0 rest ih =>
    intro s hws
    obtain ⟨hw0, hw1⟩ := hws w0 (List.mem_cons_self _ _)
    have hrest : ∀ w ∈ rest, 0 ≤ w ∧ w < 2 ^ 63 :=
      fun x hx => hws x (List.mem_cons_of_mem _ hx)
    obtain ⟨hfat, hpan, hstep⟩ := hcons w0 rest s hw0 hw1
    by_cases hm : w0 % f = 0
    · by_cases hlen : 8 * (w0 / f + 1) ≤ maxAlloc
      · obtain ⟨s1, hs1⟩ := hstep hm hlen
        rw [hs1]
        obtain ⟨i1, i2, i3⟩ := ih s1 hrest
        have hb0 : Buildable f w0 := ⟨hm, hlen⟩
        have hpre : ∀ (pre : List Int), (∀ u ∈ pre, Buildable f u) →
            ∀ u ∈ w0 :: pre, Buildable f u := by
          intro pre h u hu
          rcases List.mem_cons.mp hu with rfl | hu
          · exact hb0
          · exact h u hu
        refine ⟨?_, ?_, ?_⟩
        · rw [i1]
          constructor
          · intro h; exact hpre rest h
          · intro h u hu; exact h u (List.mem_cons_of_mem _ hu)
        · rw [i2]
          constructor
          · rintro ⟨pre, w, post, h, hw, hp⟩
            exact ⟨w0 :: pre, w, post, by rw [h]; rfl, hw, hpre pre hp⟩
          · rintro ⟨pre, w, post, h, hw, hp⟩
            cases pre with
            | nil =>
              simp only [List.nil_append, List.cons.injEq] at h
              rw [h.1] at hm
              exact absurd hm hw
            | cons p pre =>
              simp only [List.cons_append, List.cons.injEq] at h
              exact ⟨pre, w, post, h.2, hw, fun u hu => hp u (List.mem_cons_of_mem _ hu)⟩
        · rw [i3]
          constructor
          · rintro ⟨pre, w, post, h, hw, hbig, hp⟩
            exact ⟨w0 :: pre, w, post, by rw [h]; rfl, hw, hbig, hpre pre hp⟩
          · rintro ⟨pre, w, post, h, hw, hbig, hp⟩
            cases pre with
            | nil =>
              simp only [List.nil_append, List.cons.injEq] at h
              rw [h.1] at hlen
              omega
            | cons p pre =>
              simp only [List.cons_append, List.cons.injEq] at h
              exact ⟨pre, w, post, h.2, hw, hbig,
                fun u hu => hp u (List.mem_cons_of_mem _ hu)⟩
      · have hbig : maxAlloc < 8 * (w0 / f + 1) := by omega
        rw [hpan hm hbig]
        refine ⟨?_, ?_, ?_⟩
        · constructor
          · intro h; simp [Outcome.isOk] at h
          · intro h; exact absurd (h w0 (List.mem_cons_self _ _)).2 hlen
        · constructor
          · intro h; simp [Outcome.isFatal] at h
          · rintro ⟨pre, w, post, h, hw, hp⟩
            cases pre with
            | nil =>
              simp only [List.nil_append, List.cons.injEq] at h
              rw [h.1] at hm
              exact absurd hm hw
            | cons p pre =>
              simp only [List.cons_append, List.cons.injEq] at h
              have := (hp p (List.mem_cons_self _ _)).2
              rw [← h.1] at this
              exact absurd this hlen
        · constructor
          · intro _; exact ⟨[], w0, rest, rfl, hm, hbig, by simp⟩
          · intro _; rfl
    · rw [hfat hm]
      refine ⟨?_, ?_, ?_⟩
      · constructor
        · intro h; simp [Outcome.isOk] at h
        · intro h; exact absurd (h w0 (List.mem_cons_self _ _)).1 hm
      · constructor
        · intro _; exact ⟨[], w0, rest, rfl, hm, by simp⟩
        · intro _; rfl
      · constructor
        · intro h; simp [Outcome.isPanic] at h
        · rintro ⟨pre, w, post, h, hw, _, hp⟩
          cases pre with
          | nil =>
            simp only [List.nil_append, List.cons.injEq] at h
            rw [← h.1] at hw
            exact absurd hw hm
          | cons p pre =>
            simp only [List.cons_append, List.cons.injEq] at h
            have := (hp p (List.mem_cons_self _ _)).1
            rw [← h.1] at this
            exact absurd this hm

/-- The first window that is not a multiple of the frequency. -/
theorem first_non_multiple {f : Int} :
    ∀ (ws : List Int), (∃ w ∈ ws, w % f ≠ 0) →
      ∃ pre w post, ws = pre ++ w :: post ∧ w % f ≠ 0 ∧ ∀ u ∈ pre, u % f = 0 := by
  intro ws
  induction ws with
  | nil => rintro ⟨w, hw, _⟩; cases hw
  | cons w0 rest ih =>
    rintro ⟨w, hw, hwm⟩
    by_cases hm : w0 % f = 0
    · rcases List.mem_cons.mp hw with rfl | hw1
      · exact absurd hm hwm
      · obtain ⟨pre, x, post, h, hx, hp⟩ := ih ⟨w, hw1, hwm⟩
        refine ⟨w0 :: pre, x, post, by rw [h]; rfl, hx, ?_⟩
        intro u hu
        rcases List.mem_cons.mp hu with rfl | hu
        · exact hm
        · exact hp u hu
    · exact ⟨[], w0, rest, rfl, hm, by simp⟩

theorem nwstat_addBuckets_spec {mul : Int} {b : CircBuf}
    (hb : NewCircBuf (wrap64 (mul + 1)) = some b) :
    ∀ (keys : List Key) (bb : Nwstat.BucketBufs), keys.Nodup →
      ∃ bb1, Nwstat.addBuckets mul keys bb = some bb1 ∧
        ∀ k, bb1 k = if k ∈ keys then bb k ++ [b] else bb k := by
  intro keys
  induction keys with
  | nil => intro bb _; exact ⟨bb, rfl, by simp⟩
  | cons key keys ih =>
    intro bb hnd
    obtain ⟨hnot, hnd1⟩ := List.nodup_cons.mp hnd
    obtain ⟨bb1, h1, h2⟩ := ih (fun k => if k = key then bb key ++ [b] else bb k) hnd1
    refine ⟨bb1, ?_, ?_⟩
    · simp only [Nwstat.addBuckets, hb]
      exact h1
    · intro k
      rw [h2 k]
      by_cases hk : k = key
      · subst hk
        simp [hnot]
      · by_cases hk2 : k ∈ keys
        · simp [hk, hk2]
        · simp [hk, hk2]

theorem nwstat_deltaKeys_nodup : Nwstat.deltaKeys.Nodup := by decide

/-- One turn of the bucket loop of `nwstat`. -/
theorem nwstat_bucketLoop_cons {f : Int} (hf : 0 < f) (w : Int) (rest : List Int)
    (bb : Nwstat.BucketBufs) (hw : 0 ≤ w) (hw2 : w < 2 ^ 63) :
    (w % f ≠ 0 →
      Nwstat.bucketLoop f (w :: rest) bb = Outcome.fatal (ConfigError.notMultiple w f)) ∧
    (w % f = 0 → maxAlloc < 8 * (w / f + 1) →
      Nwstat.bucketLoop f (w :: rest) bb = Outcome.panic) ∧
    (w % f = 0 → 8 * (w / f + 1) ≤ maxAlloc →
      ∃ bb1, Nwstat.bucketLoop f (w :: rest) bb = Nwstat.bucketLoop f rest bb1 ∧
        ∀ k, (bb1 k).map some
          = if k ∈ Nwstat.deltaKeys then (bb k).map some ++ [NewCircBuf (w / f + 1)]
            else (bb k).map some) := by
  have hf0 : f ≠ 0 := by omega
  have hmod := (tdiv_tmod_of_nonneg hw hf).1
  obtain ⟨hgood, hbad⟩ := newCircBuf_capacity hw hw2 hf
  refine ⟨?_, ?_, ?_⟩
  · intro hm
    have hm1 : Int.tmod w f ≠ 0 := by rw [hmod]; exact hm
    simp only [Nwstat.bucketLoop, hf0, if_false, hm1, ne_eq, not_false_eq_true, if_true]
  · intro hm hbig
    have hm1 : Int.tmod w f = 0 := by rw [hmod]; exact hm
    simp only [Nwstat.bucketLoop, hf0, if_false, hm1, ne_eq, not_true_eq_false,
      Nwstat.deltaKeys, Nwstat.addBuckets, hbad hbig]
  · intro hm hlen
    have hm1 : Int.tmod w f = 0 := by rw [hmod]; exact hm
    obtain ⟨e1, e2⟩ := hgood hlen
    obtain ⟨bb1, h1, h2⟩ :=
      nwstat_addBuckets_spec (e1.trans e2) Nwstat.deltaKeys bb nwstat_deltaKeys_nodup
    refine ⟨bb1, ?_, ?_⟩
    · simp only [Nwstat.bucketLoop, hf0, if_false, hm1, ne_eq, not_true_eq_false, h1]
    · intro k
      rw [h2 k, e2]
      by_cases hk : k ∈ Nwstat.deltaKeys
      · rw [if_pos hk, if_pos hk, List.map_append, List.map_cons, List.map_nil]
      · rw [if_neg hk, if_neg hk]

/-- How the bucket loop of `nwstat` ends. -/
theorem nwstat_bucketLoop_outcome {f : Int} (hf : 0 < f) (ws : List Int)
    (bb : Nwstat.BucketBufs) (hws : ∀ w ∈ ws, 0 ≤ w ∧ w < 2 ^ 63) :
    ((Nwstat.bucketLoop f ws bb).isOk = true ↔ ∀ w ∈ ws, Buildable f w) ∧
    ((Nwstat.bucketLoop f ws bb).isFatal = true ↔
      ∃ pre w post, ws = pre ++ w :: post ∧ w % f ≠ 0 ∧ ∀ u ∈ pre, Buildable f u) ∧
    ((Nwstat.bucketLoop f ws bb).isPanic = true ↔
      ∃ pre w post, ws = pre ++ w :: post ∧ w % f = 0 ∧ maxAlloc < 8 * (w / f + 1) ∧
        ∀ u ∈ pre, Buildable f u) := by
  refine loop_outcome (Nwstat.bucketLoop f) (fun _ => rfl) ?_ ws bb hws
  intro w rest s hw hw2
  obtain ⟨h1, h2, h3⟩ := nwstat_bucketLoop_cons hf w rest s hw hw2
  refine ⟨h1, h2, fun hm hlen => ?_⟩
  obtain ⟨bb1, h, _⟩ := h3 hm hlen
  exact ⟨bb1, h⟩

/-- Windows for which buffers can be built: the loop ends normally and every tracked counter
receives one fresh buffer per window, in order. -/
theorem nwstat_bucketLoop_ok {f : Int} (hf : 0 < f) :
    ∀ (ws : List Int) (bb : Nwstat.BucketBufs),
      (∀ w ∈ ws, 0 ≤ w ∧ w < 2 ^ 63 ∧ Buildable f w) →
      ∃ bb1, Nwstat.bucketLoop f ws bb = Outcome.ok bb1 ∧
        (∀ k ∈ Nwstat.deltaKeys,
          (bb1 k).map some = (bb k).map some ++ ws.map (fun w => NewCircBuf (w / f + 1))) ∧
        (∀ k, k ∉ Nwstat.deltaKeys → (bb1 k).map some = (bb k).map some) := by
  intro ws
  induction ws with
  | nil => intro bb _; exact ⟨bb, rfl, by simp, fun _ _ => rfl⟩
  | cons w ws ih =>
    intro bb hws
    obtain ⟨hw0, hw1, hwm, hwc⟩ := hws w (List.mem_cons_self _ _)
    obtain ⟨bb1, h1, h2⟩ := (nwstat_bucketLoop_cons hf w ws bb hw0 hw1).2.2 hwm hwc
    obtain ⟨bb2, h3, h4, h5⟩ := ih bb1 (fun x hx => hws x (List.mem_cons_of_mem _ hx))
    refine ⟨bb2, by rw [h1]; exact h3, ?_, ?_⟩
    · intro k hk
      rw [h4 k hk, h2 k, if_pos hk, List.map_cons, List.append_assoc, List.singleton_append]
    · intro k hk
      rw [h5 k hk, h2 k, if_neg hk]

/-- One turn of the bucket loop of `tcpstat`. -/
theorem tcpstat_bucketLoop_cons {f : Int} (hf : 0 < f) (w : Int) (rest : List Int)
    (bufs : List CircBuf × List CircBuf) (hw : 0 ≤ w) (hw2 : w < 2 ^ 63) :
    (w % f ≠ 0 →
      Tcpstat.bucketLoop f (w :: rest) bufs = Outcome.fatal (ConfigError.notMultiple w f)) ∧
    (w % f = 0 → maxAlloc < 8 * (w / f + 1) →
      Tcpstat.bucketLoop f (w :: rest) bufs = Outcome.panic) ∧
    (w % f = 0 → 8 * (w / f + 1) ≤ maxAlloc →
      ∃ bufs1, Tcpstat.bucketLoop f (w :: rest) bufs = Tcpstat.bucketLoop f rest bufs1 ∧
        bufs1.1.map some = bufs.1.map some ++ [NewCircBuf (w / f + 1)] ∧
        bufs1.2.map some = bufs.2.map some ++ [NewCircBuf (w / f + 1)]) := by
  have hf0 : f ≠ 0 := by omega
  have hmod := (tdiv_tmod_of_nonneg hw hf).1
  obtain ⟨hgood, hbad⟩ := newCircBuf_capacity hw hw2 hf
  refine ⟨?_, ?_, ?_⟩
  · intro hm
    have hm1 : Int.tmod w f ≠ 0 := by rw [hmod]; exact hm
    simp only [Tcpstat.bucketLoop, hf0, if_false, hm1, ne_eq, not_false_eq_true, if_true]
  · intro hm hbig
    have hm1 : Int.tmod w f = 0 := by rw [hmod]; exact hm
    simp only [Tcpstat.bucketLoop, hf0, if_false, hm1, ne_eq, not_true_eq_false, hbad hbig]
  · intro hm hlen
    have hm1 : Int.tmod w f = 0 := by rw [hmod]; exact hm
    obtain ⟨e1, e2⟩ := hgood hlen
    refine ⟨(bufs.1 ++ [{ buf := List.replicate (w / f + 1).toNat 0
                          size := w / f + 1, full := false, cur := 0 }],
             bufs.2 ++ [{ buf := List.replicate (w / f + 1).toNat 0
                          size := w / f + 1, full := false, cur := 0 }]), ?_, ?_, ?_⟩
    · simp only [Tcpstat.bucketLoop, hf0, if_false, hm1, ne_eq, not_true_eq_false,
        e1.trans e2]
    · simp only [e2, List.map_append, List.map_cons, List.map_nil]
    · simp only [e2, List.map_append, List.map_cons, List.map_nil]

/-- How the bucket loop of `tcpstat` ends. -/
theorem tcpstat_bucketLoop_outcome {f : Int} (hf : 0 < f) (ws : List Int)
    (bufs : List CircBuf × List CircBuf) (hws : ∀ w ∈ ws, 0 ≤ w ∧ w < 2 ^ 63) :
    ((Tcpstat.bucketLoop f ws bufs).isOk = true ↔ ∀ w ∈ ws, Buildable f w) ∧
    ((Tcpstat.bucketLoop f ws bufs).isFatal = true ↔
      ∃ pre w post, ws = pre ++ w :: post ∧ w % f ≠ 0 ∧ ∀ u ∈ pre, Buildable f u) ∧
    ((Tcpstat.bucketLoop f ws bufs).isPanic = true ↔
      ∃ pre w post, ws = pre ++ w :: post ∧ w % f = 0 ∧ maxAlloc < 8 * (w / f + 1) ∧
        ∀ u ∈ pre, Buildable f u) := by
  refine loop_outcome (Tcpstat.bucketLoop f) (fun _ => rfl) ?_ ws bufs hws
  intro w rest s hw hw2
  obtain ⟨h1, h2, h3⟩ := tcpstat_bucketLoop_cons hf w rest s hw hw2
  refine ⟨h1, h2, fun hm hlen => ?_⟩
  obtain ⟨bufs1, h, _⟩ := h3 hm hlen
  exact ⟨bufs1, h⟩

theorem tcpstat_bucketLoop_ok {f : Int} (hf : 0 < f) :
    ∀ (ws : List Int) (bufs : List CircBuf × List CircBuf),
      (∀ w ∈ ws, 0 ≤ w ∧ w < 2 ^ 63 ∧ Buildable f w) →
      ∃ a p, Tcpstat.bucketLoop f ws bufs = Outcome.ok (a, p) ∧
        a.map some = bufs.1.map some ++ ws.map (fun w => NewCircBuf (w / f + 1)) ∧
        p.map some = bufs.2.map some ++ ws.map (fun w => NewCircBuf (w / f + 1)) := by
  intro ws
  induction ws with
  | nil => intro bufs _; exact ⟨bufs.1, bufs.2, rfl, by simp, by simp⟩
  | cons w ws ih =>
    intro bufs hws
    obtain ⟨hw0, hw1, hwm, hwc⟩ := hws w (List.mem_cons_self _ _)
    obtain ⟨bufs1, h1, h2, h2p⟩ := (tcpstat_bucketLoop_cons hf w ws bufs hw0 hw1).2.2 hwm hwc
    obtain ⟨a, p, h3, h4, h5⟩ := ih bufs1 (fun x hx => hws x (List.mem_cons_of_mem _ hx))
    refine ⟨a, p, by rw [h1]; exact h3, ?_, ?_⟩
    · rw [h4, h2, List.map_cons, List.append_assoc, List.singleton_append]
    · rw [h5, h2p, List.map_cons, List.append_assoc, List.singleton_append]

/-- The sizes of buffers that `NewCircBuf` returned. -/
theorem sizes_of_fresh {g : Int → Int} :
    ∀ (ws : List Int) (l : List CircBuf),
      l.map some = ws.map (fun w => NewCircBuf (g w)) → l.map CircBuf.size = ws.map g := by
  intro ws
  induction ws with
  | nil =>
    intro l h
    cases l with
    | nil => rfl
    | cons b l => simp at h
  | cons w ws ih =>
    intro l h
    cases l with
    | nil => simp at h
    | cons b l =>
      simp only [List.map_cons, List.cons.injEq] at h ⊢
      obtain ⟨h1, h2⟩ := h
      obtain ⟨_, _, hb⟩ := newCircBuf_some_inv h1.symm
      exact ⟨by rw [hb], ih l h2⟩

/-- C6, the claim as written, fails where `make` rejects a capacity.  With a frequency of 2ns
and the windows `[72000000000000ns, 3ns]` the second window is not a multiple of the frequency,
yet construction does not end in a fatal configuration error: the capacity `36000000000001` of
the first window exceeds `2^45` and `NewCircBuf` panics before the second window is looked at.
With a frequency of 1ns and the single window of ten hours (non-negative, a multiple of the
frequency) construction neither reports a fatal configuration error nor builds any buffer. -/
theorem C6_counterexample :
    ((0 : Int) < 2 ∧ (∀ w ∈ [(72000000000000 : Int), 3], 0 ≤ w) ∧
      (∃ w ∈ [(72000000000000 : Int), 3], w % 2 ≠ 0) ∧
      (Nwstat.init 2 [72000000000000, 3]).isFatal = false ∧
      (Tcpstat.init 2 [72000000000000, 3]).isFatal = false) ∧
    ((0 : Int) < 1 ∧ (∀ w ∈ [(36000000000000 : Int)], 0 ≤ w ∧ w % 1 = 0) ∧
      (Nwstat.init 1 [36000000000000]).isFatal = false ∧
      (Nwstat.init 1 [36000000000000]).isOk = false ∧
      (Tcpstat.init 1 [36000000000000]).isFatal = false ∧
      (Tcpstat.init 1 [36000000000000]).isOk = false) := by
  refine ⟨⟨by decide, by decide, by decide, by decide, by decide⟩,
    ⟨by decide, by decide, by decide, by decide, by decide, by decide⟩⟩

/-- C6, amended. Bucket construction, over already-parsed durations: for every poll frequency
`f > 0` and every list of non-negative window durations `w_1..w_n`, the windows are handled in
order, and buffers are built for a window when it is an exact multiple of `f` and `make`
accepts its capacity `w_i/f + 1` (`8 * (w_i/f + 1) ≤ maxAlloc`, that is `w_i/f + 1 ≤ 2^45`).
Construction fails with a fatal configuration error iff the list is empty or some `w_i` is not
an exact multiple of `f` while buffers are built for every earlier window; when `make` accepts
every capacity this is: iff the list is empty or some `w_i` is not an exact multiple of `f`.
It panics iff `make` rejects the capacity of some multiple `w_i` while buffers are built for
every earlier window.  Otherwise, that is iff the list is not empty and buffers are built for
every window, every tracked counter gets exactly `n` buffers, in window order, the `i`-th being
`NewCircBuf(w_i/f + 1)`, of capacity `w_i/f + 1`.  This holds of `init` in `nwstat` and in
`tcpstat`. -/
theorem C6_bucket_construction (f : Int) (hf : 0 < f) (ws : List Int)
    (hws : ∀ w ∈ ws, 0 ≤ w ∧ w < 2 ^ 63) :
    (((Nwstat.init f ws).isFatal = true ↔
        (ws = [] ∨ ∃ pre w post, ws = pre ++ w :: post ∧ w % f ≠ 0 ∧
          ∀ u ∈ pre, Buildable f u)) ∧
      ((Tcpstat.init f ws).isFatal = true ↔
        (ws = [] ∨ ∃ pre w post, ws = pre ++ w :: post ∧ w % f ≠ 0 ∧
          ∀ u ∈ pre, Buildable f u))) ∧
    ((∀ w ∈ ws, 8 * (w / f + 1) ≤ maxAlloc) →
      ((Nwstat.init f ws).isFatal = true ↔ (ws = [] ∨ ∃ w ∈ ws, w % f ≠ 0)) ∧
      ((Tcpstat.init f ws).isFatal = true ↔ (ws = [] ∨ ∃ w ∈ ws, w % f ≠ 0))) ∧
    (((Nwstat.init f ws).isPanic = true ↔
        ∃ pre w post, ws = pre ++ w :: post ∧ w % f = 0 ∧ maxAlloc < 8 * (w / f + 1) ∧
          ∀ u ∈ pre, Buildable f u) ∧
      ((Tcpstat.init f ws).isPanic = true ↔
        ∃ pre w post, ws = pre ++ w :: post ∧ w % f = 0 ∧ maxAlloc < 8 * (w / f + 1) ∧
          ∀ u ∈ pre, Buildable f u)) ∧
    (((Nwstat.init f ws).isOk = true ↔ (ws ≠ [] ∧ ∀ w ∈ ws, Buildable f w)) ∧
      ((Tcpstat.init f ws).isOk = true ↔ (ws ≠ [] ∧ ∀ w ∈ ws, Buildable f w))) ∧
    (ws ≠ [] → (∀ w ∈ ws, Buildable f w) →
      (∃ bb, Nwstat.init f ws = Outcome.ok bb ∧ ∀ key ∈ Nwstat.deltaKeys,
        (bb key).map some = ws.map (fun w => NewCircBuf (w / f + 1)) ∧
        (bb key).map CircBuf.size = ws.map (fun w => w / f + 1)) ∧
      (∃ a p, Tcpstat.init f ws = Outcome.ok (a, p) ∧
        a.map some = ws.map (fun w => NewCircBuf (w / f + 1)) ∧
        a.map CircBuf.size = ws.map (fun w => w / f + 1) ∧
        p.map some = ws.map (fun w => NewCircBuf (w / f + 1)) ∧
        p.map CircBuf.size = ws.map (fun w => w / f + 1))) := by
  obtain ⟨n1, n2, n3⟩ := nwstat_bucketLoop_outcome hf ws (fun _ => []) hws
  obtain ⟨t1, t2, t3⟩ := tcpstat_bucketLoop_outcome hf ws ([], []) hws
  have hnil : ∀ (P : Int → Prop),
      ¬ ∃ pre w post, ([] : List Int) = pre ++ w :: post ∧ P w := by
    rintro P ⟨pre, w, post, h, _⟩
    simp at h
  have hN : ws ≠ [] → Nwstat.init f ws = Nwstat.bucketLoop f ws (fun _ => []) := by
    intro hne
    have hlen : ¬ (ws.length = 0) := fun h => hne (List.length_eq_zero.mp h)
    simp only [Nwstat.init, hlen, if_false]
  have hT : ws ≠ [] → Tcpstat.init f ws = Tcpstat.bucketLoop f ws ([], []) := by
    intro hne
    have hlen : ¬ (ws.length = 0) := fun h => hne (List.length_eq_zero.mp h)
    simp only [Tcpstat.init, hlen, if_false]
  have hfatN : (Nwstat.init f ws).isFatal = true ↔
      (ws = [] ∨ ∃ pre w post, ws = pre ++ w :: post ∧ w % f ≠ 0 ∧
        ∀ u ∈ pre, Buildable f u) := by
    by_cases hne : ws = []
    · subst hne
      simp [Nwstat.init, Outcome.isFatal]
    · rw [hN hne, n2]
      simp only [hne, false_or]
  have hfatT : (Tcpstat.init f ws).isFatal = true ↔
      (ws = [] ∨ ∃ pre w post, ws = pre ++ w :: post ∧ w % f ≠ 0 ∧
        ∀ u ∈ pre, Buildable f u) := by
    by_cases hne : ws = []
    · subst hne
      simp [Tcpstat.init, Outcome.isFatal]
    · rw [hT hne, t2]
      simp only [hne, false_or]
  have hshape : (∀ w ∈ ws, 8 * (w / f + 1) ≤ maxAlloc) →
      ((ws = [] ∨ ∃ pre w post, ws = pre ++ w :: post ∧ w % f ≠ 0 ∧
          ∀ u ∈ pre, Buildable f u) ↔ (ws = [] ∨ ∃ w ∈ ws, w % f ≠ 0)) := by
    intro hcap
    constructor
    · rintro (h | ⟨pre, w, post, h, hw, _⟩)
      · exact Or.inl h
      · exact Or.inr ⟨w, by rw [h]; simp, hw⟩
    · rintro (h | hex)
      · exact Or.inl h
      · obtain ⟨pre, w, post, h, hw, hp⟩ := first_non_multiple ws hex
        exact Or.inr ⟨pre, w, post, h, hw,
          fun u hu => ⟨hp u hu, hcap u (by rw [h]; simp [hu])⟩⟩
  refine ⟨⟨hfatN, hfatT⟩,
    fun hcap => ⟨hfatN.trans (hshape hcap), hfatT.trans (hshape hcap)⟩,
    ⟨?_, ?_⟩, ⟨?_, ?_⟩, ?_⟩
  · by_cases hne : ws = []
    · subst hne
      simp [Nwstat.init, Outcome.isPanic]
    · rw [hN hne, n3]
  · by_cases hne : ws = []
    · subst hne
      simp [Tcpstat.init, Outcome.isPanic]
    · rw [hT hne, t3]
  · by_cases hne : ws = []
    · subst hne
      simp [Nwstat.init, Outcome.isOk]
    · rw [hN hne, n1]
      simp only [ne_eq, hne, not_false_eq_true, true_and]
  · by_cases hne : ws = []
    · subst hne
      simp [Tcpstat.init, Outcome.isOk]
    · rw [hT hne, t1]
      simp only [ne_eq, hne, not_false_eq_true, true_and]
  · intro hne hall
    have hall1 : ∀ w ∈ ws, 0 ≤ w ∧ w < 2 ^ 63 ∧ Buildable f w :=
      fun w hw => ⟨(hws w hw).1, (hws w hw).2, hall w hw⟩
    constructor
    · obtain ⟨bb, h1, h2, _⟩ := nwstat_bucketLoop_ok hf ws (fun _ => []) hall1
      refine ⟨bb, by rw [hN hne]; exact h1, ?_⟩
      intro key hkey
      have h3 : (bb key).map some = ws.map (fun w => NewCircBuf (w / f + 1)) := by
        rw [h2 key hkey]; simp
      exact ⟨h3, sizes_of_fresh ws _ h3⟩
    · obtain ⟨a, p, h1, h2, h3⟩ := tcpstat_bucketLoop_ok hf ws ([], []) hall1
      refine ⟨a, p, by rw [hT hne]; exact h1, ?_⟩
      have h4 : a.map some = ws.map (fun w => NewCircBuf (w / f + 1)) := by
        rw [h2]; simp
      have h5 : p.map some = ws.map (fun w => NewCircBuf (w / f + 1)) := by
        rw [h3]; simp
      exact ⟨h4, sizes_of_fresh ws _ h4, h5, sizes_of_fresh ws _ h5⟩

theorem C6_bucket_construction_witness :
    ((Nwstat.init 2000000000 [3000000000]).isFatal = true ↔
      ([(3000000000 : Int)] = [] ∨ ∃ w ∈ [(3000000000 : Int)], w % 2000000000 ≠ 0)) ∧
    (∃ bb, Nwstat.init 1000000000 [2000000000, 10000000000] = Outcome.ok bb ∧
      ∀ key ∈ Nwstat.deltaKeys,
        (bb key).map some =
          [(2000000000 : Int), 10000000000].map (fun w => NewCircBuf (w / 1000000000 + 1)) ∧
        (bb key).map CircBuf.size =
          [(2000000000 : Int), 10000000000].map (fun w => w / 1000000000 + 1)) :=
  ⟨((C6_bucket_construction 2000000000 (by decide) [3000000000] (by decide)).2.1
      (by decide)).1,
   ((C6_bucket_construction 1000000000 (by decide) [2000000000, 10000000000]
      (by decide)).2.2.2.2 (by decide) (by decide)).1⟩

/-! ## Ticks -/

theorem ticks_nil (vs : List Int) : ticks [] vs = some [] := by
  induction vs with
  | nil => rfl
  | cons v vs ih => simp [ticks, recordAll, ih]

theorem ticks_cons (b : CircBuf) (bs : List CircBuf) (vs : List Int) :
    ticks (b :: bs) vs =
      match b.appends vs, ticks bs vs with
      | some b1, some bs1 => some (b1 :: bs1)
      | _, _ => none := by
  induction vs generalizing b bs with
  | nil => rfl
  | cons v vs ih =>
    simp only [ticks, recordAll, CircBuf.appends]
    cases hb : b.Append v with
    | none => simp
    | some b1 =>
      cases hr : recordAll bs v with
      | none =>
        simp only [Option.map_none', Option.none_bind, Option.some_bind]
        cases b1.appends vs <;> rfl
      | some bs1 =>
        simp only [Option.map_some', Option.some_bind]
        exact ih b1 bs1

/-- Buffers freshly built with capacities `m + 1` and then ticked with the values `vs`: the
ticks succeed and each buffer is in the ring layout of its capacity. -/
theorem ticks_fresh (vs : List Int) :
    ∀ (ms : List Int) (bufs0 : List CircBuf), (∀ m ∈ ms, 0 ≤ m) →
      bufs0.map some = ms.map (fun m => NewCircBuf (m + 1)) →
      ∃ bufs, ticks bufs0 vs = some bufs ∧
        List.Forall₂ (fun (m : Int) (b : CircBuf) =>
          (0 ≤ m ∧ m + 1 < 2 ^ 63) ∧ RingInv (m + 1).toNat vs b) ms bufs := by
  intro ms
  induction ms with
  | nil =>
    intro bufs0 _ h
    cases bufs0 with
    | nil => exact ⟨[], ticks_nil vs, List.Forall₂.nil⟩
    | cons b l => simp at h
  | cons m ms ih =>
    intro bufs0 hms h
    cases bufs0 with
    | nil => simp at h
    | cons b0 rest =>
      simp only [List.map_cons, List.cons.injEq] at h
      obtain ⟨h1, h2⟩ := h
      have hm0 := hms m (List.mem_cons_self _ _)
      obtain ⟨_, hlen, _⟩ := newCircBuf_some_inv h1.symm
      have hm1 : m + 1 < 2 ^ 63 := lt_of_le_maxAlloc hlen
      obtain ⟨bufs, h3, h4⟩ := ih rest (fun x hx => hms x (List.mem_cons_of_mem _ hx)) h2
      have hcast : (((m + 1).toNat : Nat) : Int) = m + 1 := Int.toNat_of_nonneg (by omega)
      obtain ⟨b, h5, h6⟩ := ringInv_appends (c := (m + 1).toNat) (by omega)
        (by rw [hcast]; exact hlen) vs
      rw [hcast] at h5
      have h7 : b0.appends vs = some b := by
        simpa [appendsNew, ← h1] using h5
      exact ⟨b :: bufs, by rw [ticks_cons, h7, h3], List.Forall₂.cons ⟨⟨hm0, hm1⟩, h6⟩ h4⟩

/-- In the ring layout `Delta` never panics, whether or not the buffer is full. -/
theorem ringInv_delta_total {c : Nat} (hc : 1 ≤ c) (hmax : (c : Int) < 2 ^ 63) {vs : List Int}
    {b : CircBuf} (h : RingInv c vs b) : ∃ d, b.Delta = some d := by
  obtain ⟨hsize, hlen, hcur, hfull, _, _⟩ := h
  have hlt : vs.length % c < c := Nat.mod_lt _ hc
  have hsz : b.size ≠ 0 := by rw [hsize]; exact_mod_cast (by omega : c ≠ 0)
  have hguard : ¬ (b.full = true ∧ b.size = 0) := fun hh => hsz hh.2
  have hidx : ∀ i : Int, 0 ≤ i → i < c → ∃ x, sliceIndex b.buf i = some x := by
    intro i h0 h1
    have : i.toNat < b.buf.length := by rw [hlen]; omega
    exact ⟨b.buf[i.toNat], by simp only [sliceIndex, h0, if_true]; exact List.getElem?_eq_getElem this⟩
  have hw1 : wrap64 (b.cur - 1) = b.cur - 1 := by
    apply wrap64_of_range <;> rw [hcur] <;> omega
  have hw2 : wrap64 (b.size - 1) = b.size - 1 := by
    apply wrap64_of_range <;> rw [hsize] <;> omega
  have hfirst : ∃ x, sliceIndex b.buf (if b.full = true then Int.tmod b.cur b.size else 0)
      = some x := by
    by_cases hf : b.full = true
    · rw [if_pos hf, Int.tmod_eq_emod (by rw [hcur]; omega) (by rw [hsize]; omega), hcur, hsize,
        ← Int.natCast_mod, Nat.mod_mod]
      exact hidx _ (by omega) (by exact_mod_cast hlt)
    · rw [if_neg hf]; exact hidx 0 (by omega) (by omega)
  have hlast : ∃ x, sliceIndex b.buf
      (if wrap64 (b.cur - 1) < 0 then wrap64 (b.size - 1) else wrap64 (b.cur - 1)) = some x := by
    rw [hw1, hw2]
    by_cases hneg : b.cur - 1 < 0
    · rw [if_pos hneg, hsize]; exact hidx _ (by omega) (by omega)
    · rw [if_neg hneg]; exact hidx _ (by omega) (by rw [hcur]; omega)
  obtain ⟨x, hx⟩ := hfirst
  obtain ⟨y, hy⟩ := hlast
  refine ⟨wrap64 (y - x), ?_⟩
  unfold CircBuf.Delta
  rw [if_neg hguard]
  simp only [hx, hy]

/-! ## End-to-end window semantics and start-up validation -/

/-- The windows `m * f`: buffers are built for them exactly when `make` accepts the capacities
`m + 1`, and these are the capacities the loop computes. -/
theorem windows_buildable {f : Int} (hf : 0 < f) (ms : List Int) :
    (∀ w ∈ ms.map (fun m => m * f), 0 ≤ w ∧ w < 2 ^ 63 ∧ Buildable f w) ↔
      ∀ m ∈ ms, 0 ≤ m * f ∧ m * f < 2 ^ 63 ∧ 8 * (m + 1) ≤ maxAlloc := by
  have hdiv : ∀ m : Int, m * f / f = m := fun m => Int.mul_ediv_cancel m (by omega)
  constructor
  · intro h m hm
    obtain ⟨h0, h1, _, h3⟩ := h (m * f) (List.mem_map.mpr ⟨m, hm, rfl⟩)
    rw [hdiv] at h3
    exact ⟨h0, h1, h3⟩
  · intro h w hw
    obtain ⟨m, hm, rfl⟩ := List.mem_map.mp hw
    obtain ⟨h0, h1, h2⟩ := h m hm
    refine ⟨h0, h1, Int.mul_emod_left m f, ?_⟩
    rw [hdiv]; exact h2

theorem windows_capacities {f : Int} (hf : 0 < f) (ms : List Int) :
    (ms.map (fun m => m * f)).map (fun w => NewCircBuf (w / f + 1))
      = ms.map (fun m => NewCircBuf (m + 1)) := by
  have hdiv : ∀ m : Int, m * f / f = m := fun m => Int.mul_ediv_cancel m (by omega)
  rw [List.map_map]
  apply List.map_congr_left
  intro m _
  simp only [Function.comp, hdiv]

/-- C3. End-to-end window semantics: for every poll frequency `f > 0`, every list of windows
`w = m * f` with `m ≥ 0` (each `w` a `time.Duration`) and every sequence `v_0, v_1, ...` of
per-tick values of a tracked counter, whenever `init` has built the buffers, the `k` ticks
succeed, and afterwards the buffer built for window `w` has capacity `m + 1`, is `Full` iff
`k ≥ m + 1`, and whenever it is `Full` its `Delta()` equals `v_{k-1} - v_{k-1-m}`, the change
over exactly `m` poll intervals.  The subtraction is the one `Delta` performs, on `int64`; it
is the exact difference whenever that difference is an `int64`.  The buffers are built exactly
when `make` accepts every capacity `m + 1`. -/
theorem C3_window_semantics (f : Int) (hf : 0 < f) (ms : List Int) (hne : ms ≠ [])
    (hms : ∀ m ∈ ms, 0 ≤ m ∧ m * f < 2 ^ 63)
    (key : Key) (hkey : key ∈ Nwstat.deltaKeys) (vs : List Int) :
    ((∃ bb, Nwstat.init f (ms.map (fun m => m * f)) = Outcome.ok bb) ↔
      ∀ m ∈ ms, 8 * (m + 1) ≤ maxAlloc) ∧
    ∀ bb, Nwstat.init f (ms.map (fun m => m * f)) = Outcome.ok bb →
      ∃ bufs, ticks (bb key) vs = some bufs ∧
        List.Forall₂ (fun (m : Int) (b : CircBuf) =>
          b.size = m + 1 ∧
          (b.Full = true ↔ m + 1 ≤ (vs.length : Int)) ∧
          (b.Full = true → ∃ newest oldest,
            vs[vs.length - 1]? = some newest ∧
            vs[vs.length - 1 - m.toNat]? = some oldest ∧
            b.Delta = some (wrap64 (newest - oldest)) ∧
            (-2 ^ 63 ≤ newest - oldest → newest - oldest < 2 ^ 63 →
              b.Delta = some (newest - oldest)))) ms bufs := by
  have hlenne : ¬ ((ms.map (fun m => m * f)).length = 0) := by
    rw [List.length_map]; exact fun h => hne (List.length_eq_zero.mp h)
  have hinit : Nwstat.init f (ms.map (fun m => m * f))
      = Nwstat.bucketLoop f (ms.map (fun m => m * f)) (fun _ => []) := by
    simp only [Nwstat.init, hlenne, if_false]
  have hws : ∀ w ∈ ms.map (fun m => m * f), 0 ≤ w ∧ w < 2 ^ 63 := by
    intro w hw
    obtain ⟨m, hm, rfl⟩ := List.mem_map.mp hw
    exact ⟨Int.mul_nonneg (hms m hm).1 (le_of_lt hf), (hms m hm).2⟩
  have hok := (nwstat_bucketLoop_outcome hf _ (fun _ => []) hws).1
  have hbuild : (∀ w ∈ ms.map (fun m => m * f), Buildable f w) ↔
      ∀ m ∈ ms, 8 * (m + 1) ≤ maxAlloc := by
    constructor
    · intro h m hm
      exact ((windows_buildable hf ms).mp
        (fun w hw => ⟨(hws w hw).1, (hws w hw).2, h w hw⟩) m hm).2.2
    · intro h w hw
      exact ((windows_buildable hf ms).mpr (fun m hm =>
        ⟨Int.mul_nonneg (hms m hm).1 (le_of_lt hf), (hms m hm).2, h m hm⟩) w hw).2.2
  have hiff : (∃ bb, Nwstat.init f (ms.map (fun m => m * f)) = Outcome.ok bb) ↔
      ∀ m ∈ ms, 8 * (m + 1) ≤ maxAlloc := by
    rw [hinit, ← hbuild, ← hok]
    constructor
    · rintro ⟨bb, h⟩
      rw [h]; rfl
    · intro h
      cases hb : Nwstat.bucketLoop f (ms.map (fun m => m * f)) (fun _ => []) with
      | ok bb => exact ⟨bb, rfl⟩
      | fatal e => rw [hb] at h; simp [Outcome.isOk] at h
      | panic => rw [hb] at h; simp [Outcome.isOk] at h
  refine ⟨hiff, ?_⟩
  intro bb hbb
  have hcap := hiff.mp ⟨bb, hbb⟩
  have hall : ∀ w ∈ ms.map (fun m => m * f), 0 ≤ w ∧ w < 2 ^ 63 ∧ Buildable f w :=
    fun w hw => ⟨(hws w hw).1, (hws w hw).2, hbuild.mpr hcap w hw⟩
  obtain ⟨bb1, h1, h2, _⟩ :=
    nwstat_bucketLoop_ok hf (ms.map (fun m => m * f)) (fun _ => []) hall
  rw [hinit, h1] at hbb
  cases hbb
  have h3 : (bb key).map some = ms.map (fun m => NewCircBuf (m + 1)) := by
    rw [h2 key hkey, windows_capacities hf]; simp
  obtain ⟨bufs, h4, h5⟩ := ticks_fresh vs ms (bb key) (fun m hm => (hms m hm).1) h3
  refine ⟨bufs, h4, ?_⟩
  refine List.Forall₂.imp ?_ h5
  rintro m b ⟨⟨hm0, hm1⟩, hinv⟩
  have hcast : (((m + 1).toNat : Nat) : Int) = m + 1 := Int.toNat_of_nonneg (by omega)
  have hc1 : 1 ≤ (m + 1).toNat := by omega
  have hfull : b.Full = true ↔ m + 1 ≤ (vs.length : Int) := by
    simp only [CircBuf.Full, hinv.full_eq, decide_eq_true_eq]
    omega
  refine ⟨by rw [hinv.size_eq, hcast], hfull, ?_⟩
  intro hf1
  have hle : (m + 1).toNat ≤ vs.length := by
    have := hfull.mp hf1
    omega
  obtain ⟨newest, oldest, g1, g2, g3⟩ :=
    ringInv_delta hc1 (by rw [hcast]; exact hm1) hinv hle
  refine ⟨newest, oldest, g1, ?_, g3, ?_⟩
  · have : vs.length - 1 - m.toNat = vs.length - (m + 1).toNat := by omega
    rw [this]; exact g2
  · intro hlo hhi
    rw [g3, wrap64_of_range hlo hhi]

theorem C3_window_semantics_witness :
    ∃ bb b, Nwstat.init 1000000000 [2000000000] = Outcome.ok bb ∧
      ticks (bb ("Tcp".toList, "ActiveOpens".toList)) [100, 105, 110] = some [b] ∧
      b.Full = true ∧ b.Delta = some 10 := by
  obtain ⟨hiff, hsem⟩ :=
    C3_window_semantics 1000000000 (by decide) [2] (by decide) (by decide)
      ("Tcp".toList, "ActiveOpens".toList) (by decide) [100, 105, 110]
  obtain ⟨bb, h1⟩ := hiff.mpr (by decide)
  obtain ⟨bufs, h2, h3⟩ := hsem bb h1
  obtain ⟨b, rest, ⟨_, hfull, hdelta⟩, hrest, rfl⟩ := List.forall₂_cons_left_iff.mp h3
  cases List.forall₂_nil_left_iff.mp hrest
  have hF : b.Full = true := hfull.mpr (by decide)
  obtain ⟨newest, oldest, g1, g2, g3, _⟩ := hdelta hF
  have e1 : newest = 110 := by
    have : ([100, 105, 110] : List Int)[([100, 105, 110] : List Int).length - 1]? = some 110 := by
      decide
    rw [this] at g1
    exact (Option.some.inj g1).symm
  have e2 : oldest = 100 := by
    have : ([100, 105, 110] : List Int)[([100, 105, 110] : List Int).length - 1 - (2 : Int).toNat]?
        = some 100 := by decide
    rw [this] at g2
    exact (Option.some.inj g2).symm
  subst e1 e2
  exact ⟨bb, b, h1, h2, hF, by rw [g3]; decide⟩

theorem forall₂_right_mem {α β : Type} {R : α → β → Prop} {l₁ : List α} {l₂ : List β}
    (h : List.Forall₂ R l₁ l₂) : ∀ b ∈ l₂, ∃ a ∈ l₁, R a b := by
  induction h with
  | nil => intro b hb; cases hb
  | cons hab _ ih =>
    intro b hb
    rcases List.mem_cons.mp hb with rfl | hb1
    · exact ⟨_, List.mem_cons_self _ _, hab⟩
    · obtain ⟨a, ha, hr⟩ := ih b hb1
      exact ⟨a, List.mem_cons_of_mem _ ha, hr⟩

/-- C7, the claim as written, fails: with a frequency of 1s the window list `[-1s]` is accepted
by `init` (`-1s % 1s == 0`), every tracked counter gets a buffer of capacity `-1 + 1 = 0`, and
the `Append` of the first tick panics; and a zero frequency is not rejected by a fatal
configuration error, `bucket % freq` panics instead. -/
theorem C7_counterexample :
    ∃ bb, Nwstat.init 1000000000 [-1000000000] = Outcome.ok bb ∧
      (bb ("Tcp".toList, "ActiveOpens".toList)).map CircBuf.size = [0] ∧
      ticks (bb ("Tcp".toList, "ActiveOpens".toList)) [5] = none ∧
      (Nwstat.init 0 [2000000000]).isFatal = false ∧
      (Nwstat.init 0 [2000000000]).isPanic = true :=
  ⟨_, rfl, by decide, by decide, by decide, by decide⟩

/-- C7, amended. For every poll frequency `f > 0` and every list of non-negative windows whose
capacities `w_i/f + 1` are `int`s, if `init` accepts the list (it reaches the end without a
fatal error) then every constructed `CircBuf` has size `w_i/f + 1 ≥ 1` and as many slots, so
no `Append` and no `Delta` performed by a later tick can fail at run time. -/
theorem C7_startup_validation (f : Int) (hf : 0 < f) (ws : List Int)
    (hws : ∀ w ∈ ws, 0 ≤ w ∧ w < 2 ^ 63 ∧ w / f + 1 < 2 ^ 63)
    (bb : Nwstat.BucketBufs) (hacc : Nwstat.init f ws = Outcome.ok bb) (key : Key) :
    (bb key).map CircBuf.size
        = (if key ∈ Nwstat.deltaKeys then ws.map (fun w => w / f + 1) else []) ∧
      (∀ b ∈ bb key, 1 ≤ b.size ∧ (b.buf.length : Int) = b.size) ∧
      ∀ vs : List Int, ∃ bufs, ticks (bb key) vs = some bufs ∧
        ∀ b ∈ bufs, ∃ d, b.Delta = some d := by
  have hne : ¬ (ws.length = 0) := by
    intro h
    simp [Nwstat.init, h] at hacc
  simp only [Nwstat.init, hne, if_false] at hacc
  have hws1 : ∀ w ∈ ws, 0 ≤ w ∧ w < 2 ^ 63 := fun w hw => ⟨(hws w hw).1, (hws w hw).2.1⟩
  have hbuild : ∀ w ∈ ws, Buildable f w :=
    (nwstat_bucketLoop_outcome hf ws (fun _ => []) hws1).1.mp (by rw [hacc]; rfl)
  have hall : ∀ w ∈ ws, 0 ≤ w ∧ w < 2 ^ 63 ∧ Buildable f w :=
    fun w hw => ⟨(hws w hw).1, (hws w hw).2.1, hbuild w hw⟩
  obtain ⟨bb1, h1, h2, h3⟩ := nwstat_bucketLoop_ok hf ws (fun _ => []) hall
  rw [h1] at hacc
  cases hacc
  have hq : ∀ w ∈ ws, 0 ≤ w / f := fun w hw => (quot_bounds (hws w hw).1 (hws w hw).2.1 hf).1
  by_cases hkey : key ∈ Nwstat.deltaKeys
  · have h4 : (bb key).map some = ws.map (fun w => NewCircBuf (w / f + 1)) := by
      rw [h2 key hkey]; simp
    have h5 : (bb key).map some
        = (ws.map (fun w => w / f)).map (fun m => NewCircBuf (m + 1)) := by
      rw [h4, List.map_map]; rfl
    have hms : ∀ m ∈ ws.map (fun w => w / f), 0 ≤ m := by
      intro m hm
      obtain ⟨w, hw, rfl⟩ := List.mem_map.mp hm
      exact hq w hw
    have hsizes := sizes_of_fresh (g := fun w => w / f + 1) ws (bb key) h4
    refine ⟨by rw [if_pos hkey]; exact hsizes, ?_, ?_⟩
    · intro b hb
      obtain ⟨bufs, _, hfa⟩ := ticks_fresh [] _ (bb key) hms h5
      have hnil : bufs = bb key := by
        have : ticks (bb key) [] = some bufs := by assumption
        simp only [ticks] at this
        exact (Option.some.inj this).symm
      subst hnil
      obtain ⟨m, _, ⟨hm0, _⟩, hinv⟩ := forall₂_right_mem hfa b hb
      have hcast : (((m + 1).toNat : Nat) : Int) = m + 1 := Int.toNat_of_nonneg (by omega)
      rw [hinv.size_eq, hinv.len_eq, hcast]
      exact ⟨by omega, rfl⟩
    · intro vs
      obtain ⟨bufs, ht, hfa⟩ := ticks_fresh vs _ (bb key) hms h5
      refine ⟨bufs, ht, ?_⟩
      intro b hb
      obtain ⟨m, _, ⟨hm0, hm1⟩, hinv⟩ := forall₂_right_mem hfa b hb
      have hcast : (((m + 1).toNat : Nat) : Int) = m + 1 := Int.toNat_of_nonneg (by omega)
      exact ringInv_delta_total (by omega) (by rw [hcast]; exact hm1) hinv
  · have hnil : bb key = [] := by
      have := h3 key hkey
      simpa using this
    rw [hnil, if_neg hkey]
    refine ⟨rfl, (fun b hb => by cases hb), ?_⟩
    intro vs
    exact ⟨[], ticks_nil vs, by intro b hb; cases hb⟩

theorem C7_startup_validation_witness :
    ∃ bb, Nwstat.init 1000000000 [2000000000, 10000000000] = Outcome.ok bb ∧
      (bb ("Udp".toList, "InDatagrams".toList)).map CircBuf.size
        = (if ("Udp".toList, "InDatagrams".toList) ∈ Nwstat.deltaKeys
            then [(2000000000 : Int), 10000000000].map (fun w => w / 1000000000 + 1) else []) ∧
      (∀ b ∈ bb ("Udp".toList, "InDatagrams".toList),
        1 ≤ b.size ∧ (b.buf.length : Int) = b.size) ∧
      ∀ vs : List Int, ∃ bufs, ticks (bb ("Udp".toList, "InDatagrams".toList)) vs = some bufs ∧
        ∀ b ∈ bufs, ∃ d, b.Delta = some d :=
  ⟨_, rfl, C7_startup_validation 1000000000 (by decide) [2000000000, 10000000000] (by decide)
    _ rfl ("Udp".toList, "InDatagrams".toList)⟩

/-! ## Maps -/

theorem mapGet_filter_ne {V : Type} (m : GoMap V) {k k1 : Str} (h : k1 ≠ k) :
    mapGet (m.filter (fun p => decide (p.1 ≠ k))) k1 = mapGet m k1 := by
  induction m with
  | nil => rfl
  | cons e m ih =>
    obtain ⟨a, v⟩ := e
    rw [List.filter_cons]
    by_cases ha : a = k
    · have hne : k1 ≠ a := by rw [ha]; exact h
      have hp : ¬ (decide ((a, v).1 ≠ k) = true) := by simp [ha]
      rw [if_neg hp, ih]
      simp only [mapGet, hne, if_false]
    · have hp : decide ((a, v).1 ≠ k) = true := by simp [ha]
      rw [if_pos hp]
      simp only [mapGet]
      rw [ih]

/-- Reading a map after an assignment. -/
theorem mapGet_mapSet {V : Type} (m : GoMap V) (k k1 : Str) (v : V) :
    mapGet (mapSet m k v) k1 = if k1 = k then some v else mapGet m k1 := by
  by_cases h : k1 = k
  · simp [mapSet, mapGet, h]
  · simp only [mapSet, mapGet, h, if_false]
    exact mapGet_filter_ne m h

/-- A sequence of assignments, in order. -/
theorem mapGet_foldl_not_mem {V : Type} (es : List (Str × V)) (m0 : GoMap V) (k : Str)
    (h : k ∉ es.map Prod.fst) :
    mapGet (es.foldl (fun m e => mapSet m e.1 e.2) m0) k = mapGet m0 k := by
  induction es generalizing m0 with
  | nil => rfl
  | cons e es ih =>
    simp only [List.map_cons, List.mem_cons, not_or] at h
    rw [List.foldl_cons, ih _ h.2, mapGet_mapSet, if_neg h.1]

/-- The last assignment to a key wins. -/
theorem mapGet_foldl_last {V : Type} (es es1 : List (Str × V)) (m0 : GoMap V) (k : Str) (v : V)
    (h : k ∉ es1.map Prod.fst) :
    mapGet ((es ++ (k, v) :: es1).foldl (fun m e => mapSet m e.1 e.2) m0) k = some v := by
  rw [List.foldl_append, List.foldl_cons, mapGet_foldl_not_mem es1 _ k h, mapGet_mapSet]
  simp

/-- With distinct keys every assignment of the sequence is read back. -/
theorem mapGet_foldl_mem {V : Type} (es : List (Str × V)) (m0 : GoMap V) (k : Str) (v : V)
    (hnd : (es.map Prod.fst).Nodup) (hmem : (k, v) ∈ es) :
    mapGet (es.foldl (fun m e => mapSet m e.1 e.2) m0) k = some v := by
  obtain ⟨l1, l2, rfl⟩ := List.append_of_mem hmem
  apply mapGet_foldl_last
  rw [List.map_append, List.map_cons] at hnd
  have h2 := (List.nodup_append.mp hnd).2.1
  exact (List.nodup_cons.mp h2).1

/-- A list of pairs with distinct keys, read as a map. -/
theorem mapGet_of_mem {V : Type} (es : List (Str × V)) (k : Str) (v : V)
    (hnd : (es.map Prod.fst).Nodup) (hmem : (k, v) ∈ es) : mapGet es k = some v := by
  induction es with
  | nil => cases hmem
  | cons e es ih =>
    obtain ⟨a, w⟩ := e
    rw [List.map_cons, List.nodup_cons] at hnd
    rcases List.mem_cons.mp hmem with heq | hin
    · cases heq
      simp [mapGet]
    · have hne : k ≠ a := by
        intro hka
        apply hnd.1
        rw [← hka]
        exact List.mem_map.mpr ⟨(k, v), hin, rfl⟩
      simp only [mapGet, hne, if_false]
      exact ih hnd.2 hin

theorem mapGet_of_not_mem {V : Type} (es : List (Str × V)) (k : Str)
    (h : k ∉ es.map Prod.fst) : mapGet es k = none := by
  induction es with
  | nil => rfl
  | cons e es ih =>
    obtain ⟨a, w⟩ := e
    simp only [List.map_cons, List.mem_cons, not_or] at h
    simp only [mapGet, h.1, if_false]
    exact ih h.2

/-! ## The read loop -/

theorem feed_append (a b : Str) (s : LoopState) :
    feed (a ++ b) s =
      match feed a s with
      | Except.error e => Except.error e
      | Except.ok s1 => feed b s1 := by
  induction a generalizing s with
  | nil => rfl
  | cons c a ih =>
    simp only [List.cons_append, feed]
    by_cases hc : c = '\n'
    · simp only [hc, if_true]
      cases processLine (s.line ++ ['\n']) s.keys s.result with
      | error e => rfl
      | ok kr => exact ih _
    · simp only [hc, if_false]
      exact ih _

/-- One newline-terminated line: the loop body runs once, on the whole line. -/
theorem feed_line (l : Str) (hl : '\n' ∉ l) (s : LoopState) :
    feed (l ++ ['\n']) s =
      match processLine (s.line ++ l ++ ['\n']) s.keys s.result with
      | Except.error e => Except.error e
      | Except.ok kr => Except.ok { line := [], keys := kr.1, result := kr.2 } := by
  induction l generalizing s with
  | nil =>
    simp only [List.nil_append, feed, if_true, List.append_nil]
    cases processLine (s.line ++ ['\n']) s.keys s.result <;> rfl
  | cons c l ih =>
    have hc : c ≠ '\n' := fun h => hl (by rw [h]; exact List.mem_cons_self _ _)
    have hl1 : '\n' ∉ l := fun h => hl (List.mem_cons_of_mem _ h)
    simp only [List.cons_append, feed, hc, if_false, List.append_eq]
    rw [ih hl1]
    simp only [List.append_assoc, List.singleton_append]

theorem fieldsFrom_append_space (s : Str) (cur : Str) (c : Char) (hc : IsSpace c = true) :
    fieldsFrom (s ++ [c]) cur = fieldsFrom s cur := by
  induction s generalizing cur with
  | nil =>
    simp only [List.nil_append, fieldsFrom, hc, if_true]
  | cons a s ih =>
    simp only [List.cons_append, fieldsFrom, List.append_eq]
    by_cases ha : IsSpace a = true
    · simp only [ha, if_true, ih]
    · simp only [ha, if_false]
      exact ih _

/-- The terminating newline of a line does not change its fields. -/
theorem fields_newline (l : Str) : Fields (l ++ ['\n']) = Fields l :=
  fieldsFrom_append_space l [] '\n' (by decide)

/-! ## Well-formed tables -/

theorem parseValues_ok :
    ∀ (names tokens : List Str) (vals : List Int) (m : GoMap Int),
      names.length = tokens.length → tokens.map ParseInt = vals.map some →
      parseValues names tokens m
        = Except.ok ((names.zip vals).foldl (fun m e => mapSet m e.1 e.2) m) := by
  intro names
  induction names with
  | nil =>
    intro tokens vals m hlen _
    cases tokens with
    | nil => simp [parseValues]
    | cons t ts => simp at hlen
  | cons n names ih =>
    intro tokens vals m hlen hp
    cases tokens with
    | nil => simp at hlen
    | cons t ts =>
      cases vals with
      | nil => simp at hp
      | cons v vs =>
        simp only [List.map_cons, List.cons.injEq] at hp
        simp only [List.length_cons, Nat.add_right_cancel_iff] at hlen
        simp only [parseValues, hp.1, List.zip_cons_cons, List.foldl_cons]
        exact ih ts vs _ hlen hp.2

/-- A well-formed pair read while the loop awaits a header: both lines are consumed, the group
is stored under the label, and the loop awaits a header again. -/
theorem feed_pair (p : TablePair) (hp : p.WellFormed) (r : Stats) :
    feed p.text { line := [], keys := [], result := r }
      = Except.ok { line := [], keys := [], result := mapSet r p.label p.lineMap } := by
  obtain ⟨h1, h2, h3, h4, h5, h6, _⟩ := hp
  unfold TablePair.text
  rw [feed_append, feed_line _ h1]
  simp only [List.nil_append, processLine, fields_newline, h3]
  rw [feed_line _ h2]
  simp only [List.nil_append, processLine, fields_newline, h4, h6, ne_eq, not_true_eq_false,
    if_false, HasSuffixColon, List.getLast?_concat, decide_True, or_self,
    parseValues_ok p.names p.tokens p.vals [] h6 h5, List.dropLast_concat]
  rfl

theorem feed_tableText (ps : List TablePair) (hwf : ∀ p ∈ ps, p.WellFormed) (r : Stats) :
    feed (tableText ps) { line := [], keys := [], result := r }
      = Except.ok { line := [], keys := [],
                    result := ps.foldl (fun r p => mapSet r p.label p.lineMap) r } := by
  induction ps generalizing r with
  | nil => rfl
  | cons p ps ih =>
    simp only [tableText, List.map_cons, List.flatten_cons, List.foldl_cons]
    rw [feed_append, feed_pair p (hwf p (List.mem_cons_self _ _))]
    exact ih (fun q hq => hwf q (List.mem_cons_of_mem _ hq)) _

/-- A sequence of assignments with distinct keys to the empty map reads like the sequence. -/
theorem mapGet_foldl_nodup {V : Type} (es : List (Str × V)) (hnd : (es.map Prod.fst).Nodup)
    (k : Str) : mapGet (es.foldl (fun m e => mapSet m e.1 e.2) []) k = mapGet es k := by
  by_cases hk : k ∈ es.map Prod.fst
  · obtain ⟨e, he, rfl⟩ := List.mem_map.mp hk
    rw [mapGet_foldl_mem es [] e.1 e.2 hnd he, mapGet_of_mem es e.1 e.2 hnd he]
  · rw [mapGet_foldl_not_mem es [] k hk, mapGet_of_not_mem es k hk]
    rfl

/-- The map of a well-formed pair sends the `i`-th field name to the `i`-th value, and has no
other field. -/
theorem lineMap_spec (p : TablePair) (hp : p.WellFormed) :
    (∀ (i : Nat) (name : Str), p.names[i]? = some name → mapGet p.lineMap name = p.vals[i]?) ∧
    (∀ name, name ∉ p.names → mapGet p.lineMap name = none) := by
  obtain ⟨_, _, _, _, h5, h6, h7⟩ := hp
  have hlen : p.names.length = p.vals.length := by
    have := congrArg List.length h5
    simp only [List.length_map] at this
    omega
  have hfst : (p.names.zip p.vals).map Prod.fst = p.names :=
    List.map_fst_zip _ _ (le_of_eq hlen)
  have hnd : ((p.names.zip p.vals).map Prod.fst).Nodup := by rw [hfst]; exact h7
  constructor
  · intro i name hi
    have hlt : i < p.names.length := by
      by_contra hge
      rw [List.getElem?_eq_none (by omega)] at hi
      cases hi
    have hv : p.vals[i]? = some p.vals[i] := List.getElem?_eq_getElem (by omega)
    have hz : (p.names.zip p.vals)[i]? = some (name, p.vals[i]) :=
      List.getElem?_zip_eq_some.mpr ⟨hi, hv⟩
    unfold TablePair.lineMap
    rw [mapGet_foldl_mem _ [] name p.vals[i] hnd (List.getElem?_mem hz), hv]
  · intro name hname
    unfold TablePair.lineMap
    exact mapGet_foldl_not_mem _ [] name (by rw [hfst]; exact hname)

/-- The groups of a table with distinct labels. -/
theorem groups_spec (ps : List TablePair) (hlabels : (ps.map TablePair.label).Nodup) :
    (∀ p ∈ ps, mapGet (ps.foldl (fun r p => mapSet r p.label p.lineMap) []) p.label
        = some p.lineMap) ∧
    (∀ label, label ∉ ps.map TablePair.label →
      mapGet (ps.foldl (fun r p => mapSet r p.label p.lineMap) []) label = none) := by
  have hfold : ∀ r : Stats, ps.foldl (fun r p => mapSet r p.label p.lineMap) r
      = (ps.map (fun p => (p.label, p.lineMap))).foldl (fun m e => mapSet m e.1 e.2) r := by
    intro r
    rw [List.foldl_map]
  have hkeys : (ps.map (fun p => (p.label, p.lineMap))).map Prod.fst = ps.map TablePair.label := by
    rw [List.map_map]; rfl
  constructor
  · intro p hp
    rw [hfold]
    exact mapGet_foldl_mem _ [] p.label p.lineMap (by rw [hkeys]; exact hlabels)
      (List.mem_map.mpr ⟨p, hp, rfl⟩)
  · intro label hl
    rw [hfold, mapGet_foldl_not_mem _ [] label (by rw [hkeys]; exact hl)]
    rfl

/-- A run of characters that are not spaces extends the field being read. -/
theorem fieldsFrom_token (tok rest cur : Str) (h : ∀ c ∈ tok, IsSpace c = false) :
    fieldsFrom (tok ++ rest) cur = fieldsFrom rest (cur ++ tok) := by
  induction tok generalizing cur with
  | nil => simp
  | cons c tok ih =>
    have hc : IsSpace c = false := h c (List.mem_cons_self _ _)
    simp only [List.cons_append, fieldsFrom, hc, Bool.false_eq_true, if_false, List.append_eq]
    rw [ih _ (fun x hx => h x (List.mem_cons_of_mem _ hx))]
    simp

/-- Tokens written with single blanks are read back by `strings.Fields`. -/
theorem fields_unwords (toks : List Str)
    (h : ∀ t ∈ toks, t ≠ [] ∧ ∀ c ∈ t, IsSpace c = false) : Fields (unwords toks) = toks := by
  unfold Fields
  induction toks with
  | nil => rfl
  | cons t ts ih =>
    obtain ⟨hne, hsp⟩ := h t (List.mem_cons_self _ _)
    have hts := ih (fun x hx => h x (List.mem_cons_of_mem _ hx))
    cases ts with
    | nil =>
      have := fieldsFrom_token t [] [] hsp
      simp only [List.append_nil, List.nil_append] at this
      simp only [unwords, this, fieldsFrom, hne, if_false]
    | cons t2 ts2 =>
      have hsp1 : IsSpace ' ' = true := by decide
      simp only [unwords] at hts ⊢
      rw [fieldsFrom_token t _ [] hsp]
      simp only [List.nil_append, fieldsFrom, hsp1, if_true, hne, if_false, hts]

theorem newline_not_mem_unwords (toks : List Str)
    (h : ∀ t ∈ toks, ∀ c ∈ t, IsSpace c = false) : '\n' ∉ unwords toks := by
  induction toks with
  | nil => simp [unwords]
  | cons t ts ih =>
    have ht : '\n' ∉ t := fun hm => by
      have := h t (List.mem_cons_self _ _) '\n' hm
      revert this
      decide
    have hts := ih (fun x hx => h x (List.mem_cons_of_mem _ hx))
    cases ts with
    | nil => simpa [unwords] using ht
    | cons t2 ts2 =>
      simp only [unwords, List.mem_append, List.mem_cons, not_or] at hts ⊢
      exact ⟨ht, by decide, hts⟩

/-- Every table written from space-free tokens with single blanks is well formed: a label
without spaces, distinct non-empty field names without spaces, and as many tokens that
`strconv.ParseInt` accepts. -/
theorem wellFormed_render (label : Str) (names tokens : List Str) (vals : List Int)
    (hlabel : ∀ c ∈ label, IsSpace c = false)
    (hnames : ∀ t ∈ names, t ≠ [] ∧ ∀ c ∈ t, IsSpace c = false)
    (htokens : ∀ t ∈ tokens, t ≠ [] ∧ ∀ c ∈ t, IsSpace c = false)
    (hvals : tokens.map ParseInt = vals.map some)
    (hlen : names.length = tokens.length) (hnd : names.Nodup) :
    (TablePair.render label names tokens vals).WellFormed := by
  have hl : label ++ [':'] ≠ [] ∧ ∀ c ∈ label ++ [':'], IsSpace c = false := by
    refine ⟨by simp, ?_⟩
    intro c hc
    rcases List.mem_append.mp hc with h | h
    · exact hlabel c h
    · rw [List.mem_singleton.mp h]; decide
  have h1 : ∀ t ∈ (label ++ [':']) :: names, t ≠ [] ∧ ∀ c ∈ t, IsSpace c = false := by
    intro t ht
    rcases List.mem_cons.mp ht with rfl | h
    · exact hl
    · exact hnames t h
  have h2 : ∀ t ∈ (label ++ [':']) :: tokens, t ≠ [] ∧ ∀ c ∈ t, IsSpace c = false := by
    intro t ht
    rcases List.mem_cons.mp ht with rfl | h
    · exact hl
    · exact htokens t h
  exact ⟨newline_not_mem_unwords _ (fun t ht => (h1 t ht).2),
    newline_not_mem_unwords _ (fun t ht => (h2 t ht).2),
    fields_unwords _ h1, fields_unwords _ h2, hvals, hlen, hnd⟩

/-- C9. Parsing a well-formed table: for every text consisting of `k ≥ 1` newline-terminated
(header line, value line) pairs, where the header of a pair is the token `L:` followed by
distinct field names, its value line is the same token followed by the same number of base-10
`int64` tokens, and the labels are pairwise distinct, the per-file parse of `NetStats` succeeds
and returns exactly the map sending each label `L` to the map sending its `i`-th field name to
its `i`-th value, with no other groups and no other fields; `NetStats` returns this map when
the text is the one file it can open. -/
theorem C9_parse_well_formed (ps : List TablePair) (hk : ps ≠ [])
    (hwf : ∀ p ∈ ps, p.WellFormed) (hlabels : (ps.map TablePair.label).Nodup) :
    ∃ r, parseFile (tableText ps) [] = Except.ok r ∧
      (∀ p ∈ ps, ∃ lineMap, mapGet r p.label = some lineMap ∧
        (∀ (i : Nat) (name : Str), p.names[i]? = some name → mapGet lineMap name = p.vals[i]?) ∧
        (∀ name, name ∉ p.names → mapGet lineMap name = none)) ∧
      (∀ label, label ∉ ps.map TablePair.label → mapGet r label = none) ∧
      (∀ fsys : Str → Option Str, fsys "/proc/net/netstat".toList = some (tableText ps) →
        fsys "/proc/net/snmp".toList = none → NetStats fsys = (some r, none)) := by
  have hfile : parseFile (tableText ps) []
      = Except.ok (ps.foldl (fun r p => mapSet r p.label p.lineMap) []) := by
    simp only [parseFile, feed_tableText ps hwf []]
    rfl
  obtain ⟨hg1, hg2⟩ := groups_spec ps hlabels
  refine ⟨_, hfile, ?_, hg2, ?_⟩
  · intro p hp
    obtain ⟨hl1, hl2⟩ := lineMap_spec p (hwf p hp)
    exact ⟨p.lineMap, hg1 p hp, hl1, hl2⟩
  · intro fsys h1 h2
    have hne : ¬ ((ps.foldl (fun r p => mapSet r p.label p.lineMap) []).length = 0) := by
      intro hlen
      obtain ⟨p, hp⟩ := List.exists_mem_of_ne_nil ps hk
      have := hg1 p hp
      rw [List.length_eq_zero.mp hlen] at this
      cases this
    have e1 : "/proc/net/".toList ++ "netstat".toList = "/proc/net/netstat".toList := by decide
    have e2 : "/proc/net/".toList ++ "snmp".toList = "/proc/net/snmp".toList := by decide
    simp only [NetStats, procNetFiles, parseFiles, e1, e2, h1, h2, hfile, hne, if_false]

theorem C9_parse_well_formed_witness :
    parseFile "Tcp: Field1 Field2\nTcp: 10 20\n".toList []
        = Except.ok [("Tcp".toList, [("Field2".toList, 20), ("Field1".toList, 10)])] ∧
    ∃ r, parseFile "Tcp: Field1 Field2\nTcp: 10 20\n".toList [] = Except.ok r ∧
      (∃ lineMap, mapGet r "Tcp".toList = some lineMap ∧
        mapGet lineMap "Field1".toList = some 10 ∧ mapGet lineMap "Field2".toList = some 20 ∧
        (∀ name, name ∉ ["Field1".toList, "Field2".toList] → mapGet lineMap name = none)) ∧
      (∀ label, label ∉ ["Tcp".toList] → mapGet r label = none) := by
  refine ⟨by decide, ?_⟩
  obtain ⟨r, h1, h2, h3, _⟩ := C9_parse_well_formed
    [{ header := "Tcp: Field1 Field2".toList, values := "Tcp: 10 20".toList,
       label := "Tcp".toList, names := ["Field1".toList, "Field2".toList],
       tokens := ["10".toList, "20".toList], vals := [10, 20] }]
    (by decide) (by decide) (by decide)
  obtain ⟨lineMap, g1, g2, g3⟩ := h2 _ (List.mem_singleton.mpr rfl)
  exact ⟨r, h1, ⟨lineMap, g1, g2 0 _ rfl, g2 1 _ rfl, g3⟩, h3⟩

/-! ## Rejection of malformed pairs -/

theorem parseValues_error :
    ∀ (keys values : List Str) (m : GoMap Int), keys.length = values.length →
      (∃ tok ∈ values, ParseInt tok = none) →
      parseValues keys values m = Except.error NetError.badValue := by
  intro keys
  induction keys with
  | nil =>
    intro values m hlen hex
    cases values with
    | nil => obtain ⟨tok, ht, _⟩ := hex; cases ht
    | cons v vs => simp at hlen
  | cons k keys ih =>
    intro values m hlen hex
    cases values with
    | nil => simp at hlen
    | cons v vs =>
      simp only [List.length_cons, Nat.add_right_cancel_iff] at hlen
      cases hv : ParseInt v with
      | none => simp only [parseValues, hv]
      | some x =>
        simp only [parseValues, hv]
        apply ih vs _ hlen
        obtain ⟨tok, ht, hn⟩ := hex
        rcases List.mem_cons.mp ht with rfl | ht1
        · rw [hv] at hn; cases hn
        · exact ⟨tok, ht1, hn⟩

/-- A value line that does not fit its pending header is rejected by the loop body. -/
theorem processLine_bad (line : Str) (key0 : Str) (keys1 : List Str) (r : Stats)
    (hbad : (Fields line).length ≠ (key0 :: keys1).length ∨
      (Fields line).head? ≠ some key0 ∨ HasSuffixColon key0 = false ∨
      ∃ tok ∈ (Fields line).tail, ParseInt tok = none) :
    ∃ e, processLine line (key0 :: keys1) r = Except.error e := by
  unfold processLine
  cases hf : Fields line with
  | nil => exact ⟨_, rfl⟩
  | cons value0 values1 =>
    rw [hf] at hbad
    simp only [List.length_cons, List.head?_cons, List.tail_cons, ne_eq, Option.some.injEq,
      Nat.add_right_cancel_iff] at hbad
    by_cases hlen : values1.length = keys1.length
    · by_cases hlab : key0 ≠ value0 ∨ HasSuffixColon key0 = false
      · simp only [hlen, ne_eq, not_true_eq_false, if_false, hlab, if_true]
        exact ⟨_, rfl⟩
      · have hex : ∃ tok ∈ values1, ParseInt tok = none := by
          rcases hbad with h | h | h | h
          · exact absurd hlen h
          · exact absurd (fun e => h e.symm) (fun hk => hlab (Or.inl hk))
          · exact absurd (Or.inr h) hlab
          · exact h
        simp only [hlen, ne_eq, not_true_eq_false, if_false, hlab,
          parseValues_error keys1 values1 [] hlen.symm hex]
        exact ⟨_, rfl⟩
    · simp only [hlen, ne_eq, not_false_eq_true, if_true]
      exact ⟨_, rfl⟩

/-- A header line followed by a value line that does not fit it: the read loop fails,
whatever follows. -/
theorem feed_bad_pair (hdr val suf : Str) (r : Stats) (hh : '\n' ∉ hdr) (hv : '\n' ∉ val)
    (hhdr : Fields hdr ≠ [])
    (hbad : (Fields val).length ≠ (Fields hdr).length ∨
      (Fields val).head? ≠ (Fields hdr).head? ∨
      (∃ key0, (Fields hdr).head? = some key0 ∧ HasSuffixColon key0 = false) ∨
      ∃ tok ∈ (Fields val).tail, ParseInt tok = none) :
    ∃ e, feed ((hdr ++ ['\n']) ++ (val ++ ['\n']) ++ suf) { line := [], keys := [], result := r }
      = Except.error e := by
  cases hk : Fields hdr with
  | nil => exact absurd hk hhdr
  | cons key0 keys1 =>
    rw [hk] at hbad
    have hbad1 : (Fields (val ++ ['\n'])).length ≠ (key0 :: keys1).length ∨
        (Fields (val ++ ['\n'])).head? ≠ some key0 ∨ HasSuffixColon key0 = false ∨
        ∃ tok ∈ (Fields (val ++ ['\n'])).tail, ParseInt tok = none := by
      rw [fields_newline]
      rcases hbad with h | h | ⟨k, h1, h2⟩ | h
      · exact Or.inl h
      · exact Or.inr (Or.inl h)
      · simp only [List.head?_cons, Option.some.injEq] at h1
        rw [h1]
        exact Or.inr (Or.inr (Or.inl h2))
      · exact Or.inr (Or.inr (Or.inr h))
    obtain ⟨e, he⟩ := processLine_bad (val ++ ['\n']) key0 keys1 r hbad1
    refine ⟨e, ?_⟩
    rw [feed_append, feed_append, feed_line _ hh]
    simp only [List.nil_append, processLine, fields_newline, hk]
    rw [feed_line _ hv]
    simp only [List.nil_append, he]

/-- A file whose parse fails makes `NetStats` return the nil map and an error, whatever the
other file holds. -/
theorem netStats_error (fsys : Str → Option Str) (filename text : Str)
    (hfile : filename ∈ procNetFiles)
    (hopen : fsys ("/proc/net/".toList ++ filename) = some text)
    (herr : ∀ r0, ∃ e, parseFile text r0 = Except.error e) :
    ∃ e, NetStats fsys = (none, some e) := by
  have hloop : ∀ (files : List Str) (r0 : Stats), filename ∈ files →
      ∃ e, parseFiles fsys files r0 = Except.error e := by
    intro files
    induction files with
    | nil => intro r0 h; cases h
    | cons f rest ih =>
      intro r0 hmem
      by_cases hf : f = filename
      · subst hf
        obtain ⟨e, he⟩ := herr r0
        exact ⟨e, by simp only [parseFiles, hopen, he]⟩
      · have hrest : filename ∈ rest := by
          rcases List.mem_cons.mp hmem with h | h
          · exact absurd h.symm hf
          · exact h
        cases ho : fsys ("/proc/net/".toList ++ f) with
        | none =>
          simp only [parseFiles, ho]
          exact ih r0 hrest
        | some t =>
          cases hp : parseFile t r0 with
          | error e => exact ⟨e, by simp only [parseFiles, ho, hp]⟩
          | ok r1 =>
            simp only [parseFiles, ho, hp]
            exact ih r1 hrest
  obtain ⟨e, he⟩ := hloop procNetFiles [] hfile
  exact ⟨e, by simp only [NetStats, he]⟩

/-- C10. Rejection without partial result: for every input in which a file that `NetStats`
opens holds a newline-terminated header line (a line with at least one token, read while the
parser awaits a header) followed by a newline-terminated value line that (a) has a different
number of tokens, or (b) has a different first token, or (c) follows a header whose first
token does not end with `':'`, or (d) contains a non-first token that is not a base-10 integer
in `int64` range, `NetStats` returns an error together with a nil map, whatever precedes the
pair in the file, whatever follows it, and whatever the other file holds. -/
theorem C10_rejection (fsys : Str → Option Str) (filename : Str) (hfile : filename ∈ procNetFiles)
    (pre hdr val suf : Str)
    (hopen : fsys ("/proc/net/".toList ++ filename)
      = some (pre ++ ((hdr ++ ['\n']) ++ (val ++ ['\n']) ++ suf)))
    (hpre : ∀ r0 s, feed pre { line := [], keys := [], result := r0 } = Except.ok s →
      s.line = [] ∧ s.keys = [])
    (hh : '\n' ∉ hdr) (hv : '\n' ∉ val) (hhdr : Fields hdr ≠ [])
    (hbad : (Fields val).length ≠ (Fields hdr).length ∨
      (Fields val).head? ≠ (Fields hdr).head? ∨
      (∃ key0, (Fields hdr).head? = some key0 ∧ HasSuffixColon key0 = false) ∨
      ∃ tok ∈ (Fields val).tail, ParseInt tok = none) :
    ∃ e, NetStats fsys = (none, some e) := by
  apply netStats_error fsys filename _ hfile hopen
  intro r0
  unfold parseFile
  rw [feed_append]
  cases hp : feed pre { line := [], keys := [], result := r0 } with
  | error e => exact ⟨e, rfl⟩
  | ok s =>
    obtain ⟨h1, h2⟩ := hpre r0 s hp
    obtain ⟨line, keys, r⟩ := s
    simp only at h1 h2
    subst h1 h2
    obtain ⟨e, he⟩ := feed_bad_pair hdr val suf r hh hv hhdr hbad
    exact ⟨e, by simp only [he]⟩

theorem C10_rejection_witness :
    NetStats (fun path =>
        if path = "/proc/net/netstat".toList then some "Ip: A\nIp: 1\n".toList
        else if path = "/proc/net/snmp".toList then
          some "Tcp: A B\nTcp: 1 2\nUdp: X Y\nUdp: 5 z\nrest".toList
        else none) = (none, some NetError.badValue) ∧
    ∃ e, NetStats (fun path =>
        if path = "/proc/net/netstat".toList then some "Ip: A\nIp: 1\n".toList
        else if path = "/proc/net/snmp".toList then
          some "Tcp: A B\nTcp: 1 2\nUdp: X Y\nUdp: 5 z\nrest".toList
        else none) = (none, some e) := by
  refine ⟨rfl, ?_⟩
  have hwf : ∀ p : TablePair, p ∈ [TablePair.mk "Tcp: A B".toList "Tcp: 1 2".toList
      "Tcp".toList ["A".toList, "B".toList] ["1".toList, "2".toList] [1, 2]] →
      p.WellFormed := by
    decide
  exact C10_rejection _ "snmp".toList (by decide)
    (tableText [TablePair.mk "Tcp: A B".toList "Tcp: 1 2".toList
      "Tcp".toList ["A".toList, "B".toList] ["1".toList, "2".toList] [1, 2]])
    "Udp: X Y".toList "Udp: 5 z".toList "rest".toList (by decide)
    (fun r0 s hs => by
      rw [feed_tableText _ hwf r0] at hs
      cases hs
      exact ⟨rfl, rfl⟩)
    (by decide) (by decide) (by decide)
    (Or.inr (Or.inr (Or.inr ⟨"z".toList, by decide, by decide⟩)))

/-! ## Layout, index safety and the delta of a buffer that is not full -/

/-- What one `Append` changes: the slot at the old cursor, the cursor and possibly the `full`
flag; `size`, the number of slots and every other slot are kept. -/
theorem append_frame {b b1 : CircBuf} {v : Int} (h : b.Append v = some b1) :
    b1.size = b.size ∧ b1.buf.length = b.buf.length ∧ sliceIndex b1.buf b.cur = some v ∧
      (∀ j : Nat, (j : Int) ≠ b.cur → b1.buf[j]? = b.buf[j]?) ∧
      b1.cur = Int.tmod (wrap64 (b.cur + 1)) b.size ∧ (b.full = true → b1.full = true) := by
  unfold CircBuf.Append at h
  split at h
  · rename_i hcur
    split at h
    · cases h
    · cases h
      have hlt : b.cur.toNat < b.buf.length := by omega
      refine ⟨rfl, by simp, ?_, ?_, rfl, ?_⟩
      · simp only [sliceIndex, hcur.1, if_true, List.getElem?_set, hlt]
      · intro j hj
        have hne : b.cur.toNat ≠ j := by omega
        simp only [List.getElem?_set, hne, if_false]
      · intro hf
        simp [hf]
  · cases h

/-- C16. Ring layout invariant: for every capacity `c ≥ 1` (a length `make` accepts,
`8 * c ≤ maxAlloc`) and every sequence of `n ≥ c` appended values `v_0..v_{n-1}`, the buffer holds exactly the `c` most recent samples
in time order starting at the cursor: `cur = n mod c` and, for every `i` with `0 ≤ i < c`,
`buf[(cur + i) mod c] = v_{n-c+i}` (oldest at `cur`, newest at `cur-1 mod c`); each `Append`
changes only the slot at the old cursor, the cursor and possibly the `full` flag, never
`size` or any other slot. -/
theorem C16_ring_layout (c : Int) (hc : 1 ≤ c) (hlen : 8 * c ≤ maxAlloc) (vs : List Int)
    (hn : c ≤ vs.length) :
    ∃ b, appendsNew c vs = some b ∧ b.size = c ∧ (b.buf.length : Int) = c ∧
      b.cur = (vs.length : Int) % c ∧
      (∀ i : Nat, (i : Int) < c →
        vs.length - c.toNat + i < vs.length ∧
        sliceIndex b.buf ((b.cur + i) % c) = vs[vs.length - c.toNat + i]?) ∧
      (∀ (b0 b1 : CircBuf) (v : Int), b0.Append v = some b1 →
        b1.size = b0.size ∧ b1.buf.length = b0.buf.length ∧
        sliceIndex b1.buf b0.cur = some v ∧
        (∀ j : Nat, (j : Int) ≠ b0.cur → b1.buf[j]? = b0.buf[j]?) ∧
        b1.cur = Int.tmod (wrap64 (b0.cur + 1)) b0.size ∧
        (b0.full = true → b1.full = true)) := by
  lift c to ℕ using (by omega) with k
  have hint : (k : Int) < 2 ^ 63 := lt_of_le_maxAlloc hlen
  have hk : 1 ≤ k := by exact_mod_cast hc
  have hnk : k ≤ vs.length := by exact_mod_cast hn
  obtain ⟨b, hb, hinv⟩ := ringInv_appends hk hlen vs
  refine ⟨b, hb, hinv.size_eq, by rw [hinv.len_eq], ?_, ?_, fun b0 b1 v h => append_frame h⟩
  · rw [hinv.cur_eq, Int.natCast_mod]
  · intro i hi
    have hik : i < k := by exact_mod_cast hi
    simp only [Int.toNat_natCast]
    refine ⟨by omega, ?_⟩
    have hidx : ((b.cur + (i : Int)) % (k : Int)) = (((vs.length - k + i) % k : Nat) : Int) := by
      rw [hinv.cur_eq]
      have h1 : (vs.length - k + i) % k = (vs.length % k + i) % k := by
        have h2 : vs.length - k + i + k = vs.length + i := by omega
        rw [← Nat.add_mod_right (vs.length - k + i) k, h2, Nat.mod_add_mod]
      rw [h1]
      push_cast
      rfl
    rw [hidx]
    simp only [sliceIndex, Int.natCast_nonneg, if_true, Int.toNat_natCast]
    exact hinv.recent (vs.length - k + i) (by omega) (by omega)

theorem C16_ring_layout_witness :
    ∃ b, appendsNew 3 [1, 2, 3, 4, 5] = some b ∧ b.size = 3 ∧ (b.buf.length : Int) = 3 ∧
      b.cur = (([1, 2, 3, 4, 5] : List Int).length : Int) % 3 ∧
      (∀ i : Nat, (i : Int) < 3 →
        ([1, 2, 3, 4, 5] : List Int).length - (3 : Int).toNat + i
          < ([1, 2, 3, 4, 5] : List Int).length ∧
        sliceIndex b.buf ((b.cur + i) % 3)
          = ([1, 2, 3, 4, 5] : List Int)[([1, 2, 3, 4, 5] : List Int).length - (3 : Int).toNat + i]?) ∧
      (∀ (b0 b1 : CircBuf) (v : Int), b0.Append v = some b1 →
        b1.size = b0.size ∧ b1.buf.length = b0.buf.length ∧
        sliceIndex b1.buf b0.cur = some v ∧
        (∀ j : Nat, (j : Int) ≠ b0.cur → b1.buf[j]? = b0.buf[j]?) ∧
        b1.cur = Int.tmod (wrap64 (b0.cur + 1)) b0.size ∧
        (b0.full = true → b1.full = true)) :=
  C16_ring_layout 3 (by decide) (by decide) [1, 2, 3, 4, 5] (by decide)

/-- C17. Index safety: for every capacity `c ≥ 1` (a length `make` accepts,
`8 * c ≤ maxAlloc`), every state reachable from `NewCircBuf(c)` by `Append`s satisfies `size = len(buf) = c` and `0 ≤ cur < c`; hence the slot
written by `Append` and both slots read by `Delta` (`first` and `last`) are within bounds and
neither operation fails, whether or not the buffer is `Full`. -/
theorem C17_index_safety (c : Int) (hc : 1 ≤ c) (hlen : 8 * c ≤ maxAlloc) (vs : List Int) :
    ∃ b, appendsNew c vs = some b ∧ b.size = c ∧ (b.buf.length : Int) = c ∧
      0 ≤ b.cur ∧ b.cur < c ∧
      (0 ≤ (if b.full then Int.tmod b.cur b.size else 0) ∧
        (if b.full then Int.tmod b.cur b.size else 0) < b.buf.length) ∧
      (0 ≤ (if wrap64 (b.cur - 1) < 0 then wrap64 (b.size - 1) else wrap64 (b.cur - 1)) ∧
        (if wrap64 (b.cur - 1) < 0 then wrap64 (b.size - 1) else wrap64 (b.cur - 1))
          < b.buf.length) ∧
      (∀ v, ∃ b1, b.Append v = some b1) ∧ (∃ d, b.Delta = some d) := by
  lift c to ℕ using (by omega) with k
  have hint : (k : Int) < 2 ^ 63 := lt_of_le_maxAlloc hlen
  have hk : 1 ≤ k := by exact_mod_cast hc
  obtain ⟨b, hb, hinv⟩ := ringInv_appends hk hlen vs
  have hlt : vs.length % k < k := Nat.mod_lt _ hk
  have hcur0 : 0 ≤ b.cur := by rw [hinv.cur_eq]; exact Int.natCast_nonneg _
  have hcur1 : b.cur < (k : Int) := by rw [hinv.cur_eq]; exact_mod_cast hlt
  have hw1 : wrap64 (b.cur - 1) = b.cur - 1 := by
    apply wrap64_of_range <;> omega
  have hw2 : wrap64 (b.size - 1) = b.size - 1 := by
    apply wrap64_of_range <;> rw [hinv.size_eq] <;> omega
  refine ⟨b, hb, hinv.size_eq, by rw [hinv.len_eq], hcur0, hcur1, ?_, ?_, ?_,
    ringInv_delta_total hk hint hinv⟩
  · rw [hinv.len_eq]
    by_cases hf : b.full = true
    · rw [if_pos hf, Int.tmod_eq_emod hcur0 (by rw [hinv.size_eq]; omega), hinv.size_eq,
        Int.emod_eq_of_lt hcur0 hcur1]
      exact ⟨hcur0, hcur1⟩
    · rw [if_neg hf]
      exact ⟨le_refl 0, by exact_mod_cast hk⟩
  · rw [hw1, hw2, hinv.len_eq, hinv.size_eq]
    by_cases hneg : b.cur - 1 < 0
    · rw [if_pos hneg]; omega
    · rw [if_neg hneg]; omega
  · intro v
    obtain ⟨b1, hb1, _⟩ := ringInv_append hk hint hinv v
    exact ⟨b1, hb1⟩

theorem C17_index_safety_witness :
    ∃ b, appendsNew 3 [7, 8] = some b ∧ b.size = 3 ∧ (b.buf.length : Int) = 3 ∧
      0 ≤ b.cur ∧ b.cur < 3 ∧
      (0 ≤ (if b.full then Int.tmod b.cur b.size else 0) ∧
        (if b.full then Int.tmod b.cur b.size else 0) < b.buf.length) ∧
      (0 ≤ (if wrap64 (b.cur - 1) < 0 then wrap64 (b.size - 1) else wrap64 (b.cur - 1)) ∧
        (if wrap64 (b.cur - 1) < 0 then wrap64 (b.size - 1) else wrap64 (b.cur - 1))
          < b.buf.length) ∧
      (∀ v, ∃ b1, b.Append v = some b1) ∧ (∃ d, b.Delta = some d) :=
  C17_index_safety 3 (by decide) (by decide) [7, 8]

/-- C18. The delta of a buffer that is not full is well defined: for every capacity `c ≥ 2`
(a length `make` accepts, `8 * c ≤ maxAlloc`), on a freshly created buffer with no appends
`Delta() = 0`, and after `k` appended values `v_0..v_{k-1}` with `1 ≤ k < c` the buffer is not `Full` and
`Delta() = v_{k-1} - v_0` (`int64` subtraction), the newest value minus the first value ever
appended. -/
theorem C18_delta_before_full (c : Int) (hc : 2 ≤ c) (hlen : 8 * c ≤ maxAlloc) :
    (∃ b, NewCircBuf c = some b ∧ b.Delta = some 0) ∧
    ∀ vs : List Int, 1 ≤ vs.length → (vs.length : Int) < c →
      ∃ b newest first, appendsNew c vs = some b ∧ b.Full = false ∧
        vs[vs.length - 1]? = some newest ∧ vs[0]? = some first ∧
        b.Delta = some (wrap64 (newest - first)) := by
  lift c to ℕ using (by omega) with k
  have hint : (k : Int) < 2 ^ 63 := lt_of_le_maxAlloc hlen
  have hk : 1 ≤ k := by omega
  have hk2 : 2 ≤ k := by exact_mod_cast hc
  have hdelta : ∀ (vs : List Int) (b : CircBuf), RingInv k vs b → vs.length < k →
      b.Delta = match sliceIndex b.buf
          (if (vs.length : Int) - 1 < 0 then (k : Int) - 1 else (vs.length : Int) - 1),
          sliceIndex b.buf 0 with
        | some l, some f => some (wrap64 (l - f))
        | _, _ => none := by
    intro vs b hinv hlt
    have hfull : b.full = false := by rw [hinv.full_eq]; simp; omega
    have hcur : b.cur = (vs.length : Int) := by rw [hinv.cur_eq, Nat.mod_eq_of_lt hlt]
    have hw1 : wrap64 ((vs.length : Int) - 1) = (vs.length : Int) - 1 := by
      apply wrap64_of_range <;> omega
    have hw2 : wrap64 ((k : Int) - 1) = (k : Int) - 1 := by
      apply wrap64_of_range <;> omega
    unfold CircBuf.Delta
    simp only [hfull, Bool.false_eq_true, false_and, if_false, hw1, hw2, hcur, hinv.size_eq]
  constructor
  · obtain ⟨b, hb, hinv⟩ := ringInv_new hk hlen
    refine ⟨b, hb, ?_⟩
    rw [hdelta [] b hinv (by simp; omega)]
    have h0 : b.buf[0]? = some 0 := hinv.untouched 0 (by simp) (by omega)
    have h1 : b.buf[k - 1]? = some 0 := hinv.untouched (k - 1) (by simp) (by omega)
    have e1 : ((k : Int) - 1).toNat = k - 1 := by omega
    have hneg : ((([] : List Int).length : Int) - 1 < 0) := by decide
    have hk0 : (0 : Int) ≤ (k : Int) - 1 := by omega
    simp only [hneg, if_true, sliceIndex, hk0, e1, h1, le_refl, Int.toNat_zero, h0]
    rfl
  · intro vs h1 h2
    have hlt : vs.length < k := by exact_mod_cast h2
    obtain ⟨b, hb, hinv⟩ := ringInv_appends hk hlen vs
    have hi1 : vs.length - 1 < vs.length := by omega
    have hi0 : 0 < vs.length := by omega
    refine ⟨b, vs[vs.length - 1], vs[0], hb, ?_, List.getElem?_eq_getElem hi1,
      List.getElem?_eq_getElem hi0, ?_⟩
    · simp only [CircBuf.Full, hinv.full_eq, decide_eq_false_iff_not]
      omega
    · rw [hdelta vs b hinv hlt]
      have g0 : b.buf[0]? = some vs[0] := by
        have := hinv.recent 0 hi0 (by omega)
        rw [Nat.zero_mod] at this
        rw [this]; exact List.getElem?_eq_getElem hi0
      have g1 : b.buf[vs.length - 1]? = some vs[vs.length - 1] := by
        have := hinv.recent (vs.length - 1) hi1 (by omega)
        rw [Nat.mod_eq_of_lt (by omega)] at this
        rw [this]; exact List.getElem?_eq_getElem hi1
      have hneg : ¬ ((vs.length : Int) - 1 < 0) := by omega
      have hge : (0 : Int) ≤ (vs.length : Int) - 1 := by omega
      have e1 : ((vs.length : Int) - 1).toNat = vs.length - 1 := by omega
      simp only [hneg, if_false, sliceIndex, hge, if_true, e1, g1, le_refl, Int.toNat_zero, g0]

theorem C18_delta_before_full_witness :
    (∃ b, NewCircBuf 3 = some b ∧ b.Delta = some 0) ∧
    ∀ vs : List Int, 1 ≤ vs.length → (vs.length : Int) < 3 →
      ∃ b newest first, appendsNew 3 vs = some b ∧ b.Full = false ∧
        vs[vs.length - 1]? = some newest ∧ vs[0]? = some first ∧
        b.Delta = some (wrap64 (newest - first)) :=
  C18_delta_before_full 3 (by decide) (by decide)

/-! ## The lookup of a tracked counter -/

/-- C14. A missing tracked counter is fatal: for every snapshot `m` and key `(group, field)`,
`get(m, key)` returns `m[group][field]` when the group is present and the field is present in
it, and otherwise terminates with the fatal error `Cannot find key group.field`; it never
returns a default value for an absent group or field.  This holds of `get` in `nwstat` and in
`tcpstat`. -/
theorem C14_get_or_fatal (m : Stats) (group field : Str) :
    (∀ m1 v, mapGet m group = some m1 → mapGet m1 field = some v →
      Nwstat.get m (group, field) = GetResult.value v ∧
      Tcpstat.get m (group, field) = GetResult.value v) ∧
    ((mapGet m group = none ∨ ∃ m1, mapGet m group = some m1 ∧ mapGet m1 field = none) →
      Nwstat.get m (group, field)
        = GetResult.fatal ("Cannot find key ".toList ++ group ++ ".".toList ++ field) ∧
      Tcpstat.get m (group, field)
        = GetResult.fatal ("Cannot find key ".toList ++ group ++ ".".toList ++ field)) ∧
    (∀ v, (Nwstat.get m (group, field) = GetResult.value v ∨
        Tcpstat.get m (group, field) = GetResult.value v) →
      ∃ m1, mapGet m group = some m1 ∧ mapGet m1 field = some v) := by
  refine ⟨?_, ?_, ?_⟩
  · intro m1 v h1 h2
    simp only [Nwstat.get, Tcpstat.get, h1, h2, and_self]
  · intro h
    rcases h with h | ⟨m1, h1, h2⟩
    · simp only [Nwstat.get, Tcpstat.get, Nwstat.name, Tcpstat.name, h, List.append_assoc,
        and_self]
    · simp only [Nwstat.get, Tcpstat.get, Nwstat.name, Tcpstat.name, h1, h2, List.append_assoc,
        and_self]
  · intro v h
    cases h1 : mapGet m group with
    | none => simp [Nwstat.get, Tcpstat.get, h1] at h
    | some m1 =>
      cases h2 : mapGet m1 field with
      | none => simp [Nwstat.get, Tcpstat.get, h1, h2] at h
      | some w =>
        simp only [Nwstat.get, Tcpstat.get, h1, h2, GetResult.value.injEq, or_self] at h
        exact ⟨m1, rfl, by rw [h2, h]⟩

theorem C14_get_or_fatal_witness :
    Nwstat.get [("Tcp".toList, [("CurrEstab".toList, 7)])] ("Tcp".toList, "CurrEstab".toList)
      = GetResult.value 7 ∧
    Nwstat.get [("Tcp".toList, [("CurrEstab".toList, 7)])] ("Tcp".toList, "InErrs".toList)
      = GetResult.fatal "Cannot find key Tcp.InErrs".toList ∧
    Tcpstat.get [("Tcp".toList, [("CurrEstab".toList, 7)])] ("Udp".toList, "InErrs".toList)
      = GetResult.fatal "Cannot find key Udp.InErrs".toList :=
  ⟨((C14_get_or_fatal [("Tcp".toList, [("CurrEstab".toList, 7)])] "Tcp".toList
      "CurrEstab".toList).1 [("CurrEstab".toList, 7)] 7 (by decide) (by decide)).1,
   ((C14_get_or_fatal [("Tcp".toList, [("CurrEstab".toList, 7)])] "Tcp".toList
      "InErrs".toList).2.1 (Or.inr ⟨[("CurrEstab".toList, 7)], by decide, by decide⟩)).1,
   ((C14_get_or_fatal [("Tcp".toList, [("CurrEstab".toList, 7)])] "Udp".toList
      "InErrs".toList).2.1 (Or.inl (by decide))).2⟩

/-! ## Lines without a newline, blank lines and headers at the end of the input -/

/-- Characters without a newline only extend the line being read. -/
theorem feed_no_newline (s : Str) (hs : '\n' ∉ s) (st : LoopState) :
    feed s st = Except.ok { line := st.line ++ s, keys := st.keys, result := st.result } := by
  induction s generalizing st with
  | nil => simp [feed]
  | cons c s ih =>
    have hc : c ≠ '\n' := fun h => hs (by rw [h]; exact List.mem_cons_self _ _)
    have hs1 : '\n' ∉ s := fun h => hs (List.mem_cons_of_mem _ h)
    simp only [feed, hc, if_false]
    rw [ih hs1]
    simp

/-- The end of the input does not look at the line being read. -/
theorem atEOF_line (s : LoopState) (l : Str) :
    atEOF { line := l, keys := s.keys, result := s.result } = atEOF s := rfl

/-- After a text that is empty or ends with a newline no line is being read. -/
theorem feed_boundary (a : Str) (ha : a = [] ∨ a.getLast? = some '\n') (st s : LoopState)
    (h0 : st.line = []) (h : feed a st = Except.ok s) : s.line = [] := by
  rcases ha with rfl | ha
  · simp only [feed] at h
    cases h
    exact h0
  · obtain ⟨ys, rfl⟩ := List.getLast?_eq_some_iff.mp ha
    rw [feed_append] at h
    cases h1 : feed ys st with
    | error e => rw [h1] at h; cases h
    | ok s1 =>
      rw [h1] at h
      simp only [feed, if_true] at h
      cases h2 : processLine (s1.line ++ ['\n']) s1.keys s1.result with
      | error e => rw [h2] at h; cases h
      | ok kr =>
        rw [h2] at h
        cases h
        rfl

/-- A line of spaces has no field. -/
theorem fieldsFrom_spaces (ws : Str) (hws : ∀ c ∈ ws, IsSpace c = true) :
    fieldsFrom ws [] = [] := by
  induction ws with
  | nil => rfl
  | cons c ws ih =>
    simp only [fieldsFrom, hws c (List.mem_cons_self _ _), if_true]
    exact ih (fun x hx => hws x (List.mem_cons_of_mem _ hx))

/-- The characters after the last newline do not change the outcome of the parse. -/
theorem parseFile_unterminated (t s : Str) (hs : '\n' ∉ s) (r0 : Stats) :
    parseFile (t ++ s) r0 = parseFile t r0 := by
  unfold parseFile
  rw [feed_append]
  cases feed t { line := [], keys := [], result := r0 } with
  | error e => rfl
  | ok st =>
    simp only [feed_no_newline s hs st]
    exact atEOF_line st _

/-- C19. Only newline-terminated lines are parsed: for every source text `t` (in particular
one that is empty or ends with a newline) and every string `s` containing no newline, the
per-file parse of `t ++ s` has the same outcome, error or groups, as the parse of `t`: the
characters after the last newline are never examined.  Consequently a table whose final value
line lacks the terminating newline is rejected as a header without a following data line. -/
theorem C19_unterminated_tail (t s : Str) (hs : '\n' ∉ s) (r0 : Stats) :
    parseFile (t ++ s) r0 = parseFile t r0 ∧
    ∀ (ps : List TablePair) (hdr : Str), (∀ p ∈ ps, p.WellFormed) → '\n' ∉ hdr →
      Fields hdr ≠ [] →
      parseFile (tableText ps ++ (hdr ++ ['\n']) ++ s) r0
        = Except.error NetError.headerWithoutData := by
  have hfirst : ∀ t : Str, parseFile (t ++ s) r0 = parseFile t r0 :=
    fun t => parseFile_unterminated t s hs r0
  refine ⟨hfirst t, ?_⟩
  intro ps hdr hwf hh hne
  rw [hfirst]
  unfold parseFile
  rw [feed_append, feed_tableText ps hwf r0]
  simp only [feed_line hdr hh, List.nil_append, processLine, fields_newline, atEOF]
  cases hf : Fields hdr with
  | nil => exact absurd hf hne
  | cons k ks => simp

theorem C19_unterminated_tail_witness :
    (parseFile ("Tcp: a b\nTcp: 1 2\n".toList ++ "Udp: x".toList) []
        = parseFile "Tcp: a b\nTcp: 1 2\n".toList [] ∧
      ∀ (ps : List TablePair) (hdr : Str), (∀ p ∈ ps, p.WellFormed) → '\n' ∉ hdr →
        Fields hdr ≠ [] →
        parseFile (tableText ps ++ (hdr ++ ['\n']) ++ "Udp: x".toList) []
          = Except.error NetError.headerWithoutData) ∧
    parseFile "Tcp: a b\nTcp: 1 2".toList [] = Except.error NetError.headerWithoutData :=
  ⟨C19_unterminated_tail "Tcp: a b\nTcp: 1 2\n".toList "Udp: x".toList (by decide) [],
   (C19_unterminated_tail [] "Tcp: 1 2".toList (by decide) []).2 [] "Tcp: a b".toList
     (by decide) (by decide) (by decide)⟩

/-- C20. Blank lines: for every text `a` that is empty or ends with a newline and leaves the
parser awaiting a header, every whitespace-only string `ws` without a newline, and every text
`b`, the per-file parse of `a ++ ws ++ "\n" ++ b` has the same outcome as the parse of
`a ++ b`: a blank line in header position is skipped.  A whitespace-only line in value
position, directly after a header line, makes the parse fail, with the length-mismatch error
whenever the parser reaches it. -/
theorem C20_blank_lines (a ws : Str) (ha : a = [] ∨ a.getLast? = some '\n')
    (hkeys : ∀ r0 s, feed a { line := [], keys := [], result := r0 } = Except.ok s → s.keys = [])
    (hws : ∀ c ∈ ws, IsSpace c = true) (hnl : '\n' ∉ ws) (b : Str) (r0 : Stats) :
    parseFile (a ++ (ws ++ ['\n']) ++ b) r0 = parseFile (a ++ b) r0 ∧
    ∀ hdr : Str, '\n' ∉ hdr → Fields hdr ≠ [] →
      (∃ e, parseFile (a ++ (hdr ++ ['\n']) ++ (ws ++ ['\n']) ++ b) r0 = Except.error e) ∧
      ((∃ s, feed a { line := [], keys := [], result := r0 } = Except.ok s) →
        parseFile (a ++ (hdr ++ ['\n']) ++ (ws ++ ['\n']) ++ b) r0
          = Except.error NetError.lengthMismatch) := by
  have hblank : Fields (ws ++ ['\n']) = [] := by
    rw [fields_newline]; exact fieldsFrom_spaces ws hws
  constructor
  · unfold parseFile
    rw [List.append_assoc, feed_append, feed_append a b]
    cases h : feed a { line := [], keys := [], result := r0 } with
    | error e => rfl
    | ok s =>
      have h1 := feed_boundary a ha _ s rfl h
      have h2 := hkeys r0 s h
      obtain ⟨line, keys, r⟩ := s
      simp only at h1 h2
      subst h1 h2
      simp only [feed_append, feed_line ws hnl, List.nil_append, processLine, hblank]
  · intro hdr hh hne
    have hcase : ∀ s, feed a { line := [], keys := [], result := r0 } = Except.ok s →
        parseFile (a ++ (hdr ++ ['\n']) ++ (ws ++ ['\n']) ++ b) r0
          = Except.error NetError.lengthMismatch := by
      intro s h
      have h1 := feed_boundary a ha _ s rfl h
      have h2 := hkeys r0 s h
      obtain ⟨line, keys, r⟩ := s
      simp only at h1 h2
      subst h1 h2
      unfold parseFile
      rw [List.append_assoc, List.append_assoc, feed_append, h]
      cases hf : Fields hdr with
      | nil => exact absurd hf hne
      | cons k ks =>
        simp only [feed_append, feed_line hdr hh, feed_line ws hnl, List.nil_append, processLine,
          fields_newline, hf, hblank]
    constructor
    · cases h : feed a { line := [], keys := [], result := r0 } with
      | error e =>
        refine ⟨e, ?_⟩
        unfold parseFile
        rw [List.append_assoc, List.append_assoc, feed_append, h]
      | ok s => exact ⟨_, hcase s h⟩
    · rintro ⟨s, h⟩
      exact hcase s h

theorem C20_blank_lines_witness :
    parseFile ("Ip: a\nIp: 1\n".toList ++ (" \t".toList ++ ['\n']) ++ "Tcp: b\nTcp: 2\n".toList) []
        = parseFile ("Ip: a\nIp: 1\n".toList ++ "Tcp: b\nTcp: 2\n".toList) [] ∧
    parseFile ("Ip: a\nIp: 1\n".toList ++ ("Udp: x".toList ++ ['\n']) ++ (" \t".toList ++ ['\n'])
        ++ "Tcp: b\nTcp: 2\n".toList) [] = Except.error NetError.lengthMismatch := by
  have hwf : ∀ p : TablePair, p ∈ [TablePair.mk "Ip: a".toList "Ip: 1".toList
      "Ip".toList ["a".toList] ["1".toList] [1]] → p.WellFormed := by
    decide
  have h := C20_blank_lines (tableText [TablePair.mk "Ip: a".toList "Ip: 1".toList
      "Ip".toList ["a".toList] ["1".toList] [1]]) " \t".toList (Or.inr (by decide))
    (fun r0 s hs => by
      rw [feed_tableText _ hwf r0] at hs
      cases hs
      rfl)
    (by decide) (by decide) "Tcp: b\nTcp: 2\n".toList []
  exact ⟨h.1, (h.2 "Udp: x".toList (by decide) (by decide)).2
    ⟨_, feed_tableText _ hwf []⟩⟩

/-- C11, the claim as written, fails for a last line that is not newline-terminated: the file
`"Ip: a\nIp: 1\nTcp: x y"` ends with the header line `Tcp: x y`, in header position and with
no value line after it, and `NetStats` succeeds, with the group `Ip` alone: `ReadString`
returns the unterminated line together with `io.EOF`, and the loop ends without looking at
it. -/
theorem C11_counterexample :
    NetStats (fun path =>
        if path = "/proc/net/netstat".toList then some "Ip: a\nIp: 1\nTcp: x y".toList
        else none) = (some [("Ip".toList, [("a".toList, 1)])], none) ∧
      Fields "Tcp: x y".toList ≠ [] := by
  constructor
  · rfl
  · decide

/-- C11, amended. A header line with no following value line is a parse failure: for every
source text whose last newline-terminated line is a header line (a line with at least one
token, read while the parser is awaiting a header), after which the end of the input is
reached with at most an unterminated remainder, `NetStats` fails; the per-file parse fails
with the error of a header without a data line whenever the parser reaches that line. -/
theorem C11_header_without_value (fsys : Str → Option Str) (filename : Str)
    (hfile : filename ∈ procNetFiles) (pre hdr rest : Str)
    (hopen : fsys ("/proc/net/".toList ++ filename) = some (pre ++ (hdr ++ ['\n']) ++ rest))
    (hpre : pre = [] ∨ pre.getLast? = some '\n')
    (hkeys : ∀ r0 s, feed pre { line := [], keys := [], result := r0 } = Except.ok s →
      s.keys = [])
    (hh : '\n' ∉ hdr) (hhdr : Fields hdr ≠ []) (hrest : '\n' ∉ rest) :
    (∃ e, NetStats fsys = (none, some e)) ∧
    ∀ r0, (∃ s, feed pre { line := [], keys := [], result := r0 } = Except.ok s) →
      parseFile (pre ++ (hdr ++ ['\n']) ++ rest) r0
        = Except.error NetError.headerWithoutData := by
  have hcase : ∀ r0 s, feed pre { line := [], keys := [], result := r0 } = Except.ok s →
      parseFile (pre ++ (hdr ++ ['\n']) ++ rest) r0
        = Except.error NetError.headerWithoutData := by
    intro r0 s h
    have h1 := feed_boundary pre hpre _ s rfl h
    have h2 := hkeys r0 s h
    obtain ⟨line, keys, r⟩ := s
    simp only at h1 h2
    subst h1 h2
    rw [(parseFile_unterminated (pre ++ (hdr ++ ['\n'])) rest hrest r0)]
    unfold parseFile
    rw [feed_append, h]
    cases hf : Fields hdr with
    | nil => exact absurd hf hhdr
    | cons k ks =>
      simp only [feed_line hdr hh, List.nil_append, processLine, fields_newline, hf, atEOF,
        List.length_cons, gt_iff_lt, Nat.zero_lt_succ, if_true]
  refine ⟨?_, fun r0 ⟨s, h⟩ => hcase r0 s h⟩
  apply netStats_error fsys filename _ hfile hopen
  intro r0
  cases h : feed pre { line := [], keys := [], result := r0 } with
  | error e =>
    refine ⟨e, ?_⟩
    unfold parseFile
    rw [List.append_assoc, feed_append, h]
  | ok s => exact ⟨_, hcase r0 s h⟩

theorem C11_header_without_value_witness :
    (∃ e, NetStats (fun path =>
        if path = "/proc/net/netstat".toList then some "Ip: a\nIp: 1\nTcp: x y\nab".toList
        else none) = (none, some e)) ∧
    NetStats (fun path =>
        if path = "/proc/net/netstat".toList then some "Ip: a\nIp: 1\nTcp: x y\nab".toList
        else none) = (none, some NetError.headerWithoutData) := by
  have hwf : ∀ p : TablePair, p ∈ [TablePair.mk "Ip: a".toList "Ip: 1".toList
      "Ip".toList ["a".toList] ["1".toList] [1]] → p.WellFormed := by
    decide
  exact ⟨(C11_header_without_value _ "netstat".toList (by decide)
    (tableText [TablePair.mk "Ip: a".toList "Ip: 1".toList
      "Ip".toList ["a".toList] ["1".toList] [1]]) "Tcp: x y".toList "ab".toList (by decide)
    (Or.inr (by decide))
    (fun r0 s hs => by
      rw [feed_tableText _ hwf r0] at hs
      cases hs
      rfl)
    (by decide) (by decide) (by decide)).1, rfl⟩

/-! ## Several sources -/

theorem mapGet_all_none {V : Type} (r : GoMap V) : (∀ k, mapGet r k = none) ↔ r = [] := by
  constructor
  · intro h
    cases r with
    | nil => rfl
    | cons e r =>
      obtain ⟨a, v⟩ := e
      have := h a
      simp [mapGet] at this
  · intro h k
    rw [h]; rfl

/-- The loop body treats two maps that agree over a common base alike. -/
theorem processLine_over (line : Str) (keys : List Str) (ra rb base : Stats)
    (h : ∀ k, mapGet ra k = (mapGet rb k).or (mapGet base k)) :
    match processLine line keys ra, processLine line keys rb with
    | Except.error e1, Except.error e2 => e1 = e2
    | Except.ok p1, Except.ok p2 =>
      p1.1 = p2.1 ∧ ∀ k, mapGet p1.2 k = (mapGet p2.2 k).or (mapGet base k)
    | _, _ => False := by
  unfold processLine
  cases keys with
  | nil => exact ⟨rfl, h⟩
  | cons key0 keys1 =>
    cases Fields line with
    | nil => simp
    | cons value0 values1 =>
      simp only
      split_ifs
      · rfl
      · rfl
      · cases parseValues keys1 values1 [] with
        | error e => simp
        | ok lineMap =>
          refine ⟨rfl, ?_⟩
          intro k
          simp only [mapGet_mapSet]
          by_cases hk : k = key0.dropLast
          · simp [hk]
          · simp only [hk, if_false]
            exact h k

/-- The read loop treats two maps that agree over a common base alike. -/
theorem feed_over (text : Str) (base : Stats) :
    ∀ (line : Str) (keys : List Str) (ra rb : Stats),
      (∀ k, mapGet ra k = (mapGet rb k).or (mapGet base k)) →
      match feed text { line := line, keys := keys, result := ra },
        feed text { line := line, keys := keys, result := rb } with
      | Except.error e1, Except.error e2 => e1 = e2
      | Except.ok s1, Except.ok s2 =>
        s1.line = s2.line ∧ s1.keys = s2.keys ∧
          ∀ k, mapGet s1.result k = (mapGet s2.result k).or (mapGet base k)
      | _, _ => False := by
  induction text with
  | nil => intro line keys ra rb h; exact ⟨rfl, rfl, h⟩
  | cons c text ih =>
    intro line keys ra rb h
    simp only [feed]
    by_cases hc : c = '\n'
    · simp only [hc, if_true]
      have hp := processLine_over (line ++ ['\n']) keys ra rb base h
      cases h1 : processLine (line ++ ['\n']) keys ra with
      | error e1 =>
        cases h2 : processLine (line ++ ['\n']) keys rb with
        | error e2 => rw [h1, h2] at hp; exact hp
        | ok p2 => rw [h1, h2] at hp; exact hp.elim
      | ok p1 =>
        cases h2 : processLine (line ++ ['\n']) keys rb with
        | error e2 => rw [h1, h2] at hp; exact hp.elim
        | ok p2 =>
          rw [h1, h2] at hp
          obtain ⟨hk, hr⟩ := hp
          simp only
          rw [hk]
          exact ih [] p2.1 p1.2 p2.2 hr
    · simp only [hc, if_false]
      exact ih (line ++ [c]) keys ra rb h

/-- The per-file parse from a map `base`, against the parse of the same text from the empty
map: the same error, or the groups of the text laid over `base`. -/
theorem parseFile_over (text : Str) (base : Stats) :
    match parseFile text base, parseFile text [] with
    | Except.error e1, Except.error e2 => e1 = e2
    | Except.ok r, Except.ok g => ∀ k, mapGet r k = (mapGet g k).or (mapGet base k)
    | _, _ => False := by
  have hf := feed_over text base [] [] base [] (fun k => by simp [mapGet])
  unfold parseFile
  cases h1 : feed text { line := [], keys := [], result := base } with
  | error e1 =>
    cases h2 : feed text { line := [], keys := [], result := [] } with
    | error e2 => rw [h1, h2] at hf; exact hf
    | ok s2 => rw [h1, h2] at hf; exact hf.elim
  | ok s1 =>
    cases h2 : feed text { line := [], keys := [], result := [] } with
    | error e2 => rw [h1, h2] at hf; exact hf.elim
    | ok s2 =>
      rw [h1, h2] at hf
      obtain ⟨_, hk, hr⟩ := hf
      simp only [atEOF, hk]
      split_ifs
      · rfl
      · exact hr

/-- The outcome of `NetStats` from the groups of its two sources, each parsed on its own. -/
theorem netStats_groups (fsys : Str → Option Str) :
    (∀ e, sourceGroups fsys "netstat".toList = Except.error e →
      NetStats fsys = (none, some e)) ∧
    (∀ g1 e, sourceGroups fsys "netstat".toList = Except.ok g1 →
      sourceGroups fsys "snmp".toList = Except.error e → NetStats fsys = (none, some e)) ∧
    (∀ g1 g2, sourceGroups fsys "netstat".toList = Except.ok g1 →
      sourceGroups fsys "snmp".toList = Except.ok g2 →
      ∃ r, (∀ k, mapGet r k = (mapGet g2 k).or (mapGet g1 k)) ∧
        NetStats fsys = (if r.length = 0 then (none, some NetError.noFiles) else (some r, none))) := by
  refine ⟨?_, ?_, ?_⟩
  · intro e h
    unfold sourceGroups at h
    cases h1 : fsys ("/proc/net/".toList ++ "netstat".toList) with
    | none => rw [h1] at h; cases h
    | some t1 =>
      rw [h1] at h
      simp only at h
      simp only [NetStats, procNetFiles, parseFiles, h1, h]
  · intro g1 e h hs
    unfold sourceGroups at h hs
    cases h2 : fsys ("/proc/net/".toList ++ "snmp".toList) with
    | none => rw [h2] at hs; cases hs
    | some t2 =>
      rw [h2] at hs
      simp only at hs
      have hover := parseFile_over t2 g1
      rw [hs] at hover
      cases h3 : parseFile t2 g1 with
      | ok r => rw [h3] at hover; exact hover.elim
      | error e1 =>
        rw [h3] at hover
        simp only at hover
        subst hover
        cases h1 : fsys ("/proc/net/".toList ++ "netstat".toList) with
        | none =>
          rw [h1] at h
          cases h
          simp only [NetStats, procNetFiles, parseFiles, h1, h2, h3]
        | some t1 =>
          rw [h1] at h
          simp only at h
          simp only [NetStats, procNetFiles, parseFiles, h1, h2, h, h3]
  · intro g1 g2 h hs
    unfold sourceGroups at h hs
    have hstep : ∃ r, (∀ k, mapGet r k = (mapGet g2 k).or (mapGet g1 k)) ∧
        (match fsys ("/proc/net/".toList ++ "snmp".toList) with
          | none => Except.ok g1
          | some text =>
            match parseFile text g1 with
            | Except.error e => Except.error e
            | Except.ok result1 => Except.ok result1) = Except.ok r := by
      cases h2 : fsys ("/proc/net/".toList ++ "snmp".toList) with
      | none =>
        rw [h2] at hs
        cases hs
        exact ⟨g1, fun k => by simp [mapGet], rfl⟩
      | some t2 =>
        rw [h2] at hs
        simp only at hs
        have hover := parseFile_over t2 g1
        rw [hs] at hover
        cases h3 : parseFile t2 g1 with
        | error e1 => rw [h3] at hover; exact hover.elim
        | ok r =>
          rw [h3] at hover
          exact ⟨r, hover, by simp only [h3]⟩
    obtain ⟨r, hr1, hr2⟩ := hstep
    refine ⟨r, hr1, ?_⟩
    cases h1 : fsys ("/proc/net/".toList ++ "netstat".toList) with
    | none =>
      rw [h1] at h
      cases h
      cases h2 : fsys ("/proc/net/".toList ++ "snmp".toList) with
      | none =>
        rw [h2] at hr2
        cases hr2
        simp only [NetStats, procNetFiles, parseFiles, h1, h2]
      | some t2 =>
        rw [h2] at hr2
        simp only at hr2
        cases h3 : parseFile t2 [] with
        | error e1 => rw [h3] at hr2; cases hr2
        | ok r1 =>
          rw [h3] at hr2
          cases hr2
          simp only [NetStats, procNetFiles, parseFiles, h1, h2, h3]
    | some t1 =>
      rw [h1] at h
      simp only at h
      cases h2 : fsys ("/proc/net/".toList ++ "snmp".toList) with
      | none =>
        rw [h2] at hr2
        cases hr2
        simp only [NetStats, procNetFiles, parseFiles, h1, h2, h]
      | some t2 =>
        rw [h2] at hr2
        simp only at hr2
        cases h3 : parseFile t2 g1 with
        | error e1 => rw [h3] at hr2; cases hr2
        | ok r1 =>
          rw [h3] at hr2
          cases hr2
          simp only [NetStats, procNetFiles, parseFiles, h1, h2, h, h3]

/-- Groups laid over groups: the result is empty exactly when both are. -/
theorem merged_empty {g1 g2 r : Stats}
    (hr : ∀ k, mapGet r k = (mapGet g2 k).or (mapGet g1 k)) :
    r = [] ↔ g1 = [] ∧ g2 = [] := by
  constructor
  · intro h
    have hnone : ∀ k, (mapGet g2 k).or (mapGet g1 k) = none := by
      intro k
      rw [← hr k, h]; rfl
    constructor
    · apply (mapGet_all_none g1).mp
      intro k
      have := hnone k
      cases h2 : mapGet g2 k with
      | none => rw [h2] at this; simpa using this
      | some v => rw [h2] at this; simp at this
    · apply (mapGet_all_none g2).mp
      intro k
      have := hnone k
      cases h2 : mapGet g2 k with
      | none => rfl
      | some v => rw [h2] at this; simp at this
  · rintro ⟨h1, h2⟩
    apply (mapGet_all_none r).mp
    intro k
    rw [hr k, h1, h2]
    rfl

/-- C13. Snapshot over several sources, each either unopenable or a text: `NetStats` succeeds
iff every openable source parses without a structural failure and at least one group was
parsed in total; an unopenable source is skipped and contributes no group; the successful
result is the merge of the groups of the sources (`snmp`, read second, over `netstat`); when
it does not succeed it returns the nil map and an error, and if no group at all was parsed
(all sources unopenable or without a group) the call fails. -/
theorem C13_snapshot (fsys : Str → Option Str) :
    ((∃ r, NetStats fsys = (some r, none)) ↔
      (∀ f ∈ procNetFiles, ∃ g, sourceGroups fsys f = Except.ok g) ∧
      (∃ f ∈ procNetFiles, ∃ g, sourceGroups fsys f = Except.ok g ∧ g ≠ [])) ∧
    (∀ r, NetStats fsys = (some r, none) →
      ∃ g1 g2, sourceGroups fsys "netstat".toList = Except.ok g1 ∧
        sourceGroups fsys "snmp".toList = Except.ok g2 ∧
        ∀ k, mapGet r k = (mapGet g2 k).or (mapGet g1 k)) ∧
    ((¬ ∃ r, NetStats fsys = (some r, none)) → ∃ e, NetStats fsys = (none, some e)) ∧
    ((∀ f ∈ procNetFiles, sourceGroups fsys f = Except.ok []) →
      NetStats fsys = (none, some NetError.noFiles)) ∧
    (∀ f ∈ procNetFiles, fsys ("/proc/net/".toList ++ f) = none →
      sourceGroups fsys f = Except.ok []) := by
  obtain ⟨hA, hB, hC⟩ := netStats_groups fsys
  have hmem : ∀ P : Str → Prop, (∀ f ∈ procNetFiles, P f) ↔ P "netstat".toList ∧ P "snmp".toList := by
    intro P
    simp [procNetFiles]
  have hex : ∀ P : Str → Prop, (∃ f ∈ procNetFiles, P f) ↔ P "netstat".toList ∨ P "snmp".toList := by
    intro P
    simp [procNetFiles]
  have hlast : ∀ f ∈ procNetFiles, fsys ("/proc/net/".toList ++ f) = none →
      sourceGroups fsys f = Except.ok [] := by
    intro f _ h
    simp only [sourceGroups, h]
  cases h1 : sourceGroups fsys "netstat".toList with
  | error e1 =>
    have hN := hA e1 h1
    refine ⟨?_, ?_, ?_, ?_, hlast⟩
    · constructor
      · rintro ⟨r, hr⟩
        rw [hN] at hr
        cases hr
      · rintro ⟨hall, _⟩
        obtain ⟨g, hg⟩ := ((hmem _).mp hall).1
        rw [h1] at hg
        cases hg
    · intro r hr
      rw [hN] at hr
      cases hr
    · intro _
      exact ⟨e1, hN⟩
    · intro hall
      have := ((hmem _).mp hall).1
      rw [h1] at this
      cases this
  | ok g1 =>
    cases h2 : sourceGroups fsys "snmp".toList with
    | error e2 =>
      have hN := hB g1 e2 h1 h2
      refine ⟨?_, ?_, ?_, ?_, hlast⟩
      · constructor
        · rintro ⟨r, hr⟩
          rw [hN] at hr
          cases hr
        · rintro ⟨hall, _⟩
          obtain ⟨g, hg⟩ := ((hmem _).mp hall).2
          rw [h2] at hg
          cases hg
      · intro r hr
        rw [hN] at hr
        cases hr
      · intro _
        exact ⟨e2, hN⟩
      · intro hall
        have := ((hmem _).mp hall).2
        rw [h2] at this
        cases this
    | ok g2 =>
      obtain ⟨r, hr, hN⟩ := hC g1 g2 h1 h2
      have hempty := merged_empty hr
      by_cases hz : r.length = 0
      · have hr0 : r = [] := List.length_eq_zero.mp hz
        obtain ⟨hg1, hg2⟩ := hempty.mp hr0
        rw [if_pos hz] at hN
        refine ⟨?_, ?_, ?_, ?_, hlast⟩
        · constructor
          · rintro ⟨r1, hr1⟩
            rw [hN] at hr1
            cases hr1
          · rintro ⟨_, hsome⟩
            rcases (hex _).mp hsome with ⟨g, hg, hne⟩ | ⟨g, hg, hne⟩
            · rw [h1] at hg
              cases hg
              exact absurd hg1 hne
            · rw [h2] at hg
              cases hg
              exact absurd hg2 hne
        · intro r1 hr1
          rw [hN] at hr1
          cases hr1
        · intro _
          exact ⟨_, hN⟩
        · intro _
          exact hN
      · rw [if_neg hz] at hN
        have hr0 : r ≠ [] := fun h => hz (by rw [h]; rfl)
        refine ⟨?_, ?_, ?_, ?_, hlast⟩
        · constructor
          · intro _
            refine ⟨(hmem _).mpr ⟨⟨g1, h1⟩, ⟨g2, h2⟩⟩, (hex _).mpr ?_⟩
            by_cases hg1 : g1 = []
            · right
              refine ⟨g2, h2, ?_⟩
              intro hg2
              exact hr0 (hempty.mpr ⟨hg1, hg2⟩)
            · left
              exact ⟨g1, h1, hg1⟩
          · intro _
            exact ⟨r, hN⟩
        · intro r1 hr1
          rw [hN] at hr1
          cases hr1
          exact ⟨g1, g2, rfl, rfl, hr⟩
        · intro hno
          exact absurd ⟨r, hN⟩ hno
        · intro hall
          obtain ⟨e1, e2⟩ := (hmem _).mp hall
          rw [h1] at e1
          rw [h2] at e2
          cases e1
          cases e2
          exact absurd (hempty.mpr ⟨rfl, rfl⟩) hr0

/-! ## Repeated labels -/

theorem wellFormed_accepted (p : TablePair) (h : p.WellFormed) : p.Accepted :=
  ⟨h.1, h.2.1, h.2.2.1, h.2.2.2.1, h.2.2.2.2.1, h.2.2.2.2.2.1⟩

/-- A pair that parses, read while the loop awaits a header. -/
theorem feed_pair_accepted (p : TablePair) (hp : p.Accepted) (r : Stats) :
    feed p.text { line := [], keys := [], result := r }
      = Except.ok { line := [], keys := [], result := mapSet r p.label p.lineMap } := by
  obtain ⟨h1, h2, h3, h4, h5, h6⟩ := hp
  unfold TablePair.text
  rw [feed_append, feed_line _ h1]
  simp only [List.nil_append, processLine, fields_newline, h3]
  rw [feed_line _ h2]
  simp only [List.nil_append, processLine, fields_newline, h4, h6, ne_eq, not_true_eq_false,
    if_false, HasSuffixColon, List.getLast?_concat, decide_True, or_self,
    parseValues_ok p.names p.tokens p.vals [] h6 h5, List.dropLast_concat]
  rfl

/-- A table of pairs that parse: the per-file parse stores the groups in order. -/
theorem parseFile_table (ps : List TablePair) (hacc : ∀ p ∈ ps, p.Accepted) (r : Stats) :
    parseFile (tableText ps) r
      = Except.ok (ps.foldl (fun r p => mapSet r p.label p.lineMap) r) := by
  have hfeed : ∀ (ps : List TablePair) (r : Stats), (∀ p ∈ ps, p.Accepted) →
      feed (tableText ps) { line := [], keys := [], result := r }
        = Except.ok { line := [], keys := [],
                      result := ps.foldl (fun r p => mapSet r p.label p.lineMap) r } := by
    intro ps
    induction ps with
    | nil => intro r _; rfl
    | cons p ps ih =>
      intro r h
      simp only [tableText, List.map_cons, List.flatten_cons, List.foldl_cons]
      rw [feed_append, feed_pair_accepted p (h p (List.mem_cons_self _ _))]
      exact ih _ (fun q hq => h q (List.mem_cons_of_mem _ hq))
  simp only [parseFile, hfeed ps r hacc]
  rfl

/-- The value line assigns the fields in order: the last occurrence of a field name wins. -/
theorem lineMap_last :
    ∀ (names : List Str) (vals : List Int) (m0 : GoMap Int) (i : Nat) (name : Str),
      names.length = vals.length → names[i]? = some name → name ∉ names.drop (i + 1) →
      mapGet ((names.zip vals).foldl (fun m e => mapSet m e.1 e.2) m0) name = vals[i]? := by
  intro names
  induction names with
  | nil => intro vals m0 i name _ h; simp at h
  | cons n ns ih =>
    intro vals m0 i name hlen hi hnot
    cases vals with
    | nil => simp at hlen
    | cons v vs =>
      simp only [List.length_cons, Nat.add_right_cancel_iff] at hlen
      simp only [List.zip_cons_cons, List.foldl_cons]
      cases i with
      | zero =>
        simp only [List.getElem?_cons_zero, Option.some.injEq] at hi
        subst hi
        simp only [Nat.zero_add, List.drop_succ_cons, List.drop_zero] at hnot
        rw [mapGet_foldl_not_mem _ _ n
          (by rw [List.map_fst_zip _ _ (le_of_eq hlen)]; exact hnot), mapGet_mapSet]
        simp
      | succ j =>
        simp only [List.getElem?_cons_succ] at hi ⊢
        simp only [List.drop_succ_cons] at hnot
        exact ih vs _ j name hlen hi hnot

/-- The fields of the map of a pair that parses. -/
theorem lineMap_accepted (p : TablePair) (hp : p.Accepted) :
    (∀ name, name ∉ p.names → mapGet p.lineMap name = none) ∧
    (∀ (i : Nat) (name : Str), p.names[i]? = some name → name ∉ p.names.drop (i + 1) →
      mapGet p.lineMap name = p.vals[i]?) := by
  obtain ⟨_, _, _, _, h5, h6⟩ := hp
  have hlen : p.names.length = p.vals.length := by
    have := congrArg List.length h5
    simp only [List.length_map] at this
    omega
  constructor
  · intro name hname
    unfold TablePair.lineMap
    exact mapGet_foldl_not_mem _ [] name
      (by rw [List.map_fst_zip _ _ (le_of_eq hlen)]; exact hname)
  · intro i name hi hnot
    exact lineMap_last p.names p.vals [] i name hlen hi hnot

/-- Every text is the text of its lines. -/
theorem exists_unlines (text : Str) :
    ∃ ls rest, text = unlines ls rest ∧ (∀ l ∈ ls, '\n' ∉ l) ∧ '\n' ∉ rest := by
  induction text with
  | nil => exact ⟨[], [], rfl, by simp, by simp⟩
  | cons c t ih =>
    obtain ⟨ls, rest, ht, hls, hrest⟩ := ih
    by_cases hc : c = '\n'
    · refine ⟨[] :: ls, rest, ?_, ?_, hrest⟩
      · rw [ht, hc]; simp [unlines]
      · intro l hl
        rcases List.mem_cons.mp hl with rfl | h
        · simp
        · exact hls l h
    · cases ls with
      | nil =>
        refine ⟨[], c :: rest, ?_, by simp, ?_⟩
        · rw [ht]; simp [unlines]
        · intro h
          rcases List.mem_cons.mp h with h | h
          · exact hc h.symm
          · exact hrest h
      | cons l ls =>
        refine ⟨(c :: l) :: ls, rest, ?_, ?_, hrest⟩
        · rw [ht]; simp [unlines]
        · intro x hx
          rcases List.mem_cons.mp hx with rfl | h
          · intro h
            rcases List.mem_cons.mp h with h | h
            · exact hc h.symm
            · exact hls l (List.mem_cons_self _ _) h
          · exact hls x (List.mem_cons_of_mem _ h)

/-- An item that parses, read while the loop awaits a header. -/
theorem feed_items (items : List TableItem) (hacc : ∀ i ∈ items, i.Accepted) (r : Stats) :
    feed (items.map TableItem.text).flatten { line := [], keys := [], result := r }
      = Except.ok { line := [], keys := [],
                    result := (itemPairs items).foldl
                      (fun r p => mapSet r p.label p.lineMap) r } := by
  induction items generalizing r with
  | nil => rfl
  | cons i items ih =>
    have hi := hacc i (List.mem_cons_self _ _)
    have hrest : ∀ j ∈ items, j.Accepted := fun j hj => hacc j (List.mem_cons_of_mem _ hj)
    simp only [List.map_cons, List.flatten_cons]
    rw [feed_append]
    cases i with
    | blank ws =>
      obtain ⟨hnl, hf⟩ := hi
      simp only [TableItem.text, feed_line ws hnl, List.nil_append, processLine, fields_newline,
        hf, itemPairs]
      exact ih hrest r
    | pair p =>
      simp only [TableItem.text, feed_pair_accepted p hi, itemPairs, List.foldl_cons]
      exact ih hrest _

/-- A source that parses: the per-file parse stores the groups of its pairs in order. -/
theorem parseFile_source (s : Source) (hs : s.Accepted) (r : Stats) :
    parseFile s.text r
      = Except.ok ((itemPairs s.items).foldl (fun r p => mapSet r p.label p.lineMap) r) := by
  unfold Source.text
  rw [parseFile_unterminated _ _ hs.2]
  simp only [parseFile, feed_items s.items hs.1 r]
  rfl

/-- The values of a value line that parses. -/
theorem parseValues_ok_inv :
    ∀ (keys values : List Str) (m lineMap : GoMap Int), keys.length = values.length →
      parseValues keys values m = Except.ok lineMap →
      ∃ vals : List Int, values.map ParseInt = vals.map some := by
  intro keys
  induction keys with
  | nil =>
    intro values m lineMap hlen _
    cases values with
    | nil => exact ⟨[], rfl⟩
    | cons v vs => simp at hlen
  | cons k ks ih =>
    intro values m lineMap hlen h
    cases values with
    | nil => simp at hlen
    | cons v vs =>
      simp only [List.length_cons, Nat.add_right_cancel_iff] at hlen
      cases hv : ParseInt v with
      | none => simp only [parseValues, hv] at h; cases h
      | some x =>
        simp only [parseValues, hv] at h
        obtain ⟨vals, hvals⟩ := ih vs _ _ hlen h
        exact ⟨x :: vals, by simp only [List.map_cons, hv, hvals]⟩

/-- A value line that the loop accepts after the header fields `key0 :: keys1`. -/
theorem processLine_ok_inv (line key0 : Str) (keys1 : List Str) (r : Stats)
    (kr : List Str × Stats) (h : processLine line (key0 :: keys1) r = Except.ok kr) :
    kr.1 = [] ∧ HasSuffixColon key0 = true ∧
      ∃ (values1 : List Str) (vals : List Int), Fields line = key0 :: values1 ∧
        keys1.length = values1.length ∧ values1.map ParseInt = vals.map some := by
  unfold processLine at h
  cases hf : Fields line with
  | nil => simp only [hf] at h; cases h
  | cons value0 values1 =>
    simp only [hf] at h
    by_cases hlen : values1.length ≠ keys1.length
    · rw [if_pos hlen] at h; cases h
    · rw [if_neg hlen] at h
      by_cases hk : key0 ≠ value0 ∨ HasSuffixColon key0 = false
      · rw [if_pos hk] at h; cases h
      · rw [if_neg hk] at h
        have hlen1 : keys1.length = values1.length := by
          by_contra hc; exact hlen (fun he => hc he.symm)
        have hk0 : key0 = value0 := by
          by_contra hc; exact hk (Or.inl hc)
        have hs : HasSuffixColon key0 = true := by
          cases hh : HasSuffixColon key0 with
          | true => rfl
          | false => exact absurd (Or.inr hh) hk
        cases hp : parseValues keys1 values1 [] with
        | error e => simp only [hp] at h; cases h
        | ok lineMap =>
          simp only [hp] at h
          obtain ⟨vals, hvals⟩ := parseValues_ok_inv keys1 values1 [] lineMap hlen1 hp
          refine ⟨?_, hs, values1, vals, by rw [hk0], hlen1, hvals⟩
          cases h
          rfl

/-- The lines of a text that parses are items that parse. -/
theorem parseFile_lines_items :
    ∀ (n : Nat) (ls : List Str), ls.length ≤ n → (∀ l ∈ ls, '\n' ∉ l) →
      ∀ (rest : Str) (r0 r : Stats), '\n' ∉ rest →
      parseFile (unlines ls rest) r0 = Except.ok r →
      ∃ items : List TableItem, (∀ i ∈ items, i.Accepted) ∧
        (ls.map (fun l => l ++ ['\n'])).flatten = (items.map TableItem.text).flatten := by
  intro n
  induction n with
  | zero =>
    intro ls hn _ rest r0 r _ _
    have hnil : ls = [] := List.length_eq_zero.mp (Nat.le_zero.mp hn)
    subst hnil
    exact ⟨[], by simp, rfl⟩
  | succ n ih =>
    intro ls hn hls rest r0 r hrest h
    cases ls with
    | nil => exact ⟨[], by simp, rfl⟩
    | cons l ls1 =>
      have hl : '\n' ∉ l := hls l (List.mem_cons_self _ _)
      have hls1 : ∀ x ∈ ls1, '\n' ∉ x := fun x hx => hls x (List.mem_cons_of_mem _ hx)
      have hn1 : ls1.length ≤ n := by simp only [List.length_cons] at hn; omega
      have hu : unlines (l :: ls1) rest = (l ++ ['\n']) ++ unlines ls1 rest := by
        simp [unlines]
      rw [hu] at h
      unfold parseFile at h
      rw [feed_append, feed_line l hl] at h
      simp only [List.nil_append, processLine, fields_newline] at h
      cases hf : Fields l with
      | nil =>
        rw [hf] at h
        obtain ⟨items, hacc, htext⟩ := ih ls1 hn1 hls1 rest r0 r hrest h
        refine ⟨TableItem.blank l :: items, ?_, ?_⟩
        · intro i hi
          rcases List.mem_cons.mp hi with rfl | hi
          · exact ⟨hl, hf⟩
          · exact hacc i hi
        · simp only [List.map_cons, List.flatten_cons, TableItem.text, htext]
      | cons key0 keys1 =>
        rw [hf] at h
        cases ls1 with
        | nil =>
          have hu0 : unlines [] rest = rest := by simp [unlines]
          rw [hu0, feed_no_newline rest hrest] at h
          simp [atEOF] at h
        | cons l2 ls2 =>
          have hl2 : '\n' ∉ l2 := hls1 l2 (List.mem_cons_self _ _)
          have hls2 : ∀ x ∈ ls2, '\n' ∉ x := fun x hx => hls1 x (List.mem_cons_of_mem _ hx)
          have hn2 : ls2.length ≤ n := by simp only [List.length_cons] at hn1; omega
          have hu2 : unlines (l2 :: ls2) rest = (l2 ++ ['\n']) ++ unlines ls2 rest := by
            simp [unlines]
          rw [hu2, feed_append, feed_line l2 hl2] at h
          simp only [List.nil_append] at h
          cases hp : processLine (l2 ++ ['\n']) (key0 :: keys1) r0 with
          | error e => rw [hp] at h; cases h
          | ok kr =>
            rw [hp] at h
            obtain ⟨hk, hs, values1, vals, hv, hlen, hvals⟩ :=
              processLine_ok_inv _ key0 keys1 r0 kr hp
            obtain ⟨keys, result⟩ := kr
            simp only at hk
            subst hk
            obtain ⟨items, hacc, htext⟩ := ih ls2 hn2 hls2 rest result r hrest h
            have hkey : key0.dropLast ++ [':'] = key0 :=
              List.dropLast_append_getLast? ':' (by
                simp only [HasSuffixColon, decide_eq_true_eq] at hs
                rw [hs]; rfl)
            refine ⟨TableItem.pair (TablePair.mk l l2 key0.dropLast keys1 values1 vals) :: items,
              ?_, ?_⟩
            · intro i hi
              rcases List.mem_cons.mp hi with rfl | hi
              · refine ⟨hl, hl2, ?_, ?_, hvals, hlen⟩
                · rw [hkey]; exact hf
                · rw [hkey, ← fields_newline]; exact hv
              · exact hacc i hi
            · simp only [List.map_cons, List.flatten_cons, TableItem.text, TablePair.text, htext,
                List.append_assoc]

/-- A text that parses is the text of a source that parses. -/
theorem parseFile_ok_source (text : Str) (r0 r : Stats) (h : parseFile text r0 = Except.ok r) :
    ∃ s : Source, s.Accepted ∧ text = s.text := by
  obtain ⟨ls, rest, ht, hls, hrest⟩ := exists_unlines text
  rw [ht] at h
  obtain ⟨items, hacc, htext⟩ :=
    parseFile_lines_items ls.length ls (le_refl _) hls rest r0 r hrest h
  refine ⟨Source.mk items rest, ⟨hacc, hrest⟩, ?_⟩
  rw [ht]
  simp only [unlines, Source.text, htext]

/-- A file of a call that succeeds is missing or holds a source that parses. -/
theorem sourceGroups_ok_source (fsys : Str → Option Str) (filename : Str) (g : Stats)
    (h : sourceGroups fsys filename = Except.ok g) :
    ∃ o : Option Source, fsys ("/proc/net/".toList ++ filename) = o.map Source.text ∧
      ∀ s ∈ o, s.Accepted := by
  unfold sourceGroups at h
  cases hf : fsys ("/proc/net/".toList ++ filename) with
  | none => exact ⟨none, rfl, by simp⟩
  | some text =>
    rw [hf] at h
    obtain ⟨s, hs, ht⟩ := parseFile_ok_source text [] g h
    refine ⟨some s, by rw [ht]; rfl, ?_⟩
    intro x hx
    cases hx
    exact hs

/-- The files of a call that succeeds hold sources that parse. -/
theorem netStats_ok_filesHold (fsys : Str → Option Str) (r : Stats)
    (h : NetStats fsys = (some r, none)) : ∃ s1 s2, FilesHold fsys s1 s2 := by
  obtain ⟨g1, g2, _⟩ := netStats_groups fsys
  have e1 : "/proc/net/".toList ++ "netstat".toList = "/proc/net/netstat".toList := by decide
  have e2 : "/proc/net/".toList ++ "snmp".toList = "/proc/net/snmp".toList := by decide
  cases h1 : sourceGroups fsys "netstat".toList with
  | error e => rw [g1 e h1] at h; cases h
  | ok a =>
    cases h2 : sourceGroups fsys "snmp".toList with
    | error e => rw [g2 a e h1 h2] at h; cases h
    | ok b =>
      obtain ⟨s1, hs1, ha1⟩ := sourceGroups_ok_source fsys _ a h1
      obtain ⟨s2, hs2, ha2⟩ := sourceGroups_ok_source fsys _ b h2
      rw [e1] at hs1
      rw [e2] at hs2
      exact ⟨s1, s2, hs1, hs2, ha1, ha2⟩

/-- C12. Last write wins for a repeated group label.  Every input that parses successfully
consists of sources that parse: `netstat` then `snmp`, each missing or a sequence of blank
lines and (header, value) pairs followed by an unterminated rest.  For every such input the
call succeeds, and for every pair `p` after which no pair with the same label follows (within
its source or in the later source), the result's mapping for that label is exactly the field
mapping of `p`: fields that appear only in an earlier pair of that label are absent, and each
field of `p` has the value of its last occurrence in `p`. -/
theorem C12_last_write_wins (fsys : Str → Option Str) :
    (∀ r, NetStats fsys = (some r, none) → ∃ s1 s2, FilesHold fsys s1 s2) ∧
    (∀ s1 s2, FilesHold fsys s1 s2 →
      ∀ (before after : List TablePair) (p : TablePair),
        sourcePairs s1 ++ sourcePairs s2 = before ++ p :: after →
        p.label ∉ after.map TablePair.label →
        ∃ r, NetStats fsys = (some r, none) ∧ mapGet r p.label = some p.lineMap ∧
          (∀ name, name ∉ p.names → mapGet p.lineMap name = none) ∧
          (∀ (i : Nat) (name : Str), p.names[i]? = some name →
            name ∉ p.names.drop (i + 1) → mapGet p.lineMap name = p.vals[i]?)) := by
  refine ⟨netStats_ok_filesHold fsys, ?_⟩
  intro s1 s2 hold before after p hsplit hlast
  obtain ⟨h1, h2, ha1, ha2⟩ := hold
  have e1 : "/proc/net/".toList ++ "netstat".toList = "/proc/net/netstat".toList := by decide
  have e2 : "/proc/net/".toList ++ "snmp".toList = "/proc/net/snmp".toList := by decide
  have hstep : ∀ (o : Option Source) (path : Str) (r0 : Stats),
      fsys path = o.map Source.text → (∀ s ∈ o, s.Accepted) →
      (match fsys path with
        | none => Except.ok r0
        | some text => parseFile text r0)
        = Except.ok ((sourcePairs o).foldl (fun r q => mapSet r q.label q.lineMap) r0) := by
    intro o path r0 hp ha
    cases o with
    | none => simp only [Option.map_none'] at hp; simp only [hp, sourcePairs, List.foldl_nil]
    | some s =>
      simp only [Option.map_some'] at hp
      simp only [hp, sourcePairs]
      exact parseFile_source s (ha s rfl) r0
  have hfiles : parseFiles fsys procNetFiles []
      = Except.ok ((sourcePairs s1 ++ sourcePairs s2).foldl
          (fun r q => mapSet r q.label q.lineMap) []) := by
    have t1 := hstep s1 _ [] h1 ha1
    have t2 := hstep s2 _ ((sourcePairs s1).foldl (fun r q => mapSet r q.label q.lineMap) [])
      h2 ha2
    rw [List.foldl_append]
    simp only [procNetFiles, parseFiles, e1, e2]
    cases hf1 : fsys "/proc/net/netstat".toList with
    | none =>
      rw [hf1] at t1
      simp only [Except.ok.injEq] at t1
      rw [← t1] at t2 ⊢
      cases hf2 : fsys "/proc/net/snmp".toList with
      | none => rw [hf2] at t2; exact t2
      | some t => rw [hf2] at t2; simp only at t2 ⊢; rw [t2]
    | some t =>
      rw [hf1] at t1
      simp only at t1 ⊢
      rw [t1]
      cases hf2 : fsys "/proc/net/snmp".toList with
      | none => rw [hf2] at t2; exact t2
      | some t => rw [hf2] at t2; simp only at t2 ⊢; rw [t2]
  have hget : mapGet ((sourcePairs s1 ++ sourcePairs s2).foldl
      (fun r q => mapSet r q.label q.lineMap) []) p.label = some p.lineMap := by
    rw [hsplit]
    have hfold : ∀ (l : List TablePair) (r : Stats),
        l.foldl (fun r q => mapSet r q.label q.lineMap) r
          = (l.map (fun q => (q.label, q.lineMap))).foldl (fun m e => mapSet m e.1 e.2) r := by
      intro l r
      rw [List.foldl_map]
    rw [hfold, List.map_append, List.map_cons]
    apply mapGet_foldl_last
    rw [List.map_map]
    exact hlast
  have hpairs : ∀ (items : List TableItem), (∀ i ∈ items, i.Accepted) →
      ∀ q ∈ itemPairs items, q.Accepted := by
    intro items
    induction items with
    | nil => intro _ q hq; simp [itemPairs] at hq
    | cons i items ih =>
      intro hacc q hq
      have hrest : ∀ j ∈ items, j.Accepted := fun j hj => hacc j (List.mem_cons_of_mem _ hj)
      cases i with
      | blank ws => exact ih hrest q hq
      | pair p0 =>
        rcases List.mem_cons.mp hq with rfl | hq
        · exact hacc _ (List.mem_cons_self _ _)
        · exact ih hrest q hq
  have hsp : ∀ (o : Option Source), (∀ s ∈ o, s.Accepted) →
      ∀ q ∈ sourcePairs o, q.Accepted := by
    intro o ha q hq
    cases o with
    | none => simp [sourcePairs] at hq
    | some s => exact hpairs s.items (ha s rfl).1 q hq
  have hp : p.Accepted := by
    have hmem : p ∈ sourcePairs s1 ++ sourcePairs s2 := by rw [hsplit]; simp
    rcases List.mem_append.mp hmem with hm | hm
    · exact hsp s1 ha1 p hm
    · exact hsp s2 ha2 p hm
  obtain ⟨g1, g2⟩ := lineMap_accepted p hp
  refine ⟨_, ?_, hget, g1, g2⟩
  have hne : ¬ (((sourcePairs s1 ++ sourcePairs s2).foldl
      (fun r q => mapSet r q.label q.lineMap) []).length = 0) := by
    intro hz
    rw [List.length_eq_zero.mp hz] at hget
    cases hget
  simp only [NetStats, hfiles, hne, if_false]

theorem C12_last_write_wins_witness :
    ∃ r, NetStats (fun path =>
        if path = "/proc/net/netstat".toList then some "Tcp: a b\nTcp: 1 2\n\n".toList
        else if path = "/proc/net/snmp".toList then some " \nTcp: b c\nTcp: 5 6\nIp: x".toList
        else none) = (some r, none) ∧
      ∃ m, mapGet r "Tcp".toList = some m ∧ mapGet m "a".toList = none ∧
        mapGet m "b".toList = some 5 ∧ mapGet m "c".toList = some 6 := by
  obtain ⟨r, hr, hget, hnone, hval⟩ := (C12_last_write_wins
    (fun path =>
        if path = "/proc/net/netstat".toList then some "Tcp: a b\nTcp: 1 2\n\n".toList
        else if path = "/proc/net/snmp".toList then some " \nTcp: b c\nTcp: 5 6\nIp: x".toList
        else none)).2
    (some (Source.mk [TableItem.pair (TablePair.mk "Tcp: a b".toList "Tcp: 1 2".toList
      "Tcp".toList ["a".toList, "b".toList] ["1".toList, "2".toList] [1, 2]),
      TableItem.blank []] []))
    (some (Source.mk [TableItem.blank " ".toList,
      TableItem.pair (TablePair.mk "Tcp: b c".toList "Tcp: 5 6".toList
      "Tcp".toList ["b".toList, "c".toList] ["5".toList, "6".toList] [5, 6])] "Ip: x".toList))
    ⟨by decide, by decide, by decide, by decide⟩
    [TablePair.mk "Tcp: a b".toList "Tcp: 1 2".toList "Tcp".toList
      ["a".toList, "b".toList] ["1".toList, "2".toList] [1, 2]]
    []
    (TablePair.mk "Tcp: b c".toList "Tcp: 5 6".toList "Tcp".toList
      ["b".toList, "c".toList] ["5".toList, "6".toList] [5, 6])
    (by decide) (by decide)
  exact ⟨r, hr, _, hget, hnone "a".toList (by decide), hval 0 "b".toList (by decide) (by decide),
    hval 1 "c".toList (by decide) (by decide)⟩

theorem C13_snapshot_witness :
    NetStats (fun _ => none) = (none, some NetError.noFiles) ∧
    ((∃ r, NetStats (fun path =>
        if path = "/proc/net/snmp".toList then some "Tcp: b c\nTcp: 5 6\n".toList
        else none) = (some r, none)) ↔
      (∀ f ∈ procNetFiles, ∃ g, sourceGroups (fun path =>
        if path = "/proc/net/snmp".toList then some "Tcp: b c\nTcp: 5 6\n".toList
        else none) f = Except.ok g) ∧
      (∃ f ∈ procNetFiles, ∃ g, sourceGroups (fun path =>
        if path = "/proc/net/snmp".toList then some "Tcp: b c\nTcp: 5 6\n".toList
        else none) f = Except.ok g ∧ g ≠ [])) ∧
    NetStats (fun path =>
        if path = "/proc/net/snmp".toList then some "Tcp: b c\nTcp: 5 6\n".toList
        else none) = (some [("Tcp".toList, [("c".toList, 6), ("b".toList, 5)])], none) :=
  ⟨(C13_snapshot (fun _ => none)).2.2.2.1 (by decide),
   (C13_snapshot (fun path =>
        if path = "/proc/net/snmp".toList then some "Tcp: b c\nTcp: 5 6\n".toList
        else none)).1, rfl⟩

/-! ## `Mounts` -/

theorem byteLen_append (a b : Str) : byteLen (a ++ b) = byteLen a + byteLen b := by
  simp [byteLen]

theorem fields_dropCR (l : Str) : Fields (dropCR l) = Fields l := by
  unfold dropCR
  by_cases h : l.getLast? = some '\r'
  · rw [if_pos h]
    obtain ⟨ys, rfl⟩ := List.getLast?_eq_some_iff.mp h
    rw [List.dropLast_concat]
    exact (fieldsFrom_append_space ys [] '\r' (by decide)).symm
  · rw [if_neg h]

theorem mountLine_dropCR (l : Str) : mountLine (dropCR l) = mountLine l := by
  unfold mountLine
  rw [fields_dropCR]

/-- The trailing carriage return counts for the length check: it is in the buffer. -/
theorem scanLoop_line (l : Str) (hl : '\n' ∉ l) (rest cur : Str) (results : List FSTabEntry) :
    scanLoop (l ++ '\n' :: rest) cur results =
      if MaxScanTokenSize ≤ byteLen (cur ++ l) then Except.error MountsError.tooLong
      else
        match mountLine (cur ++ l) with
        | Except.error e => Except.error e
        | Except.ok entry => scanLoop rest [] (results ++ [entry]) := by
  induction l generalizing cur with
  | nil =>
    simp only [List.nil_append, scanLoop, if_true, List.append_nil, mountLine_dropCR]
  | cons c l ih =>
    have hc : c ≠ '\n' := fun h => hl (by rw [h]; exact List.mem_cons_self _ _)
    have hl1 : '\n' ∉ l := fun h => hl (List.mem_cons_of_mem _ h)
    simp only [List.cons_append, scanLoop, hc, if_false, List.append_eq]
    rw [ih hl1]
    simp only [List.append_assoc, List.singleton_append]

theorem scanLoop_rest (t : Str) (ht : '\n' ∉ t) (cur : Str) (results : List FSTabEntry) :
    scanLoop t cur results =
      if cur ++ t = [] then Except.ok results
      else if MaxScanTokenSize ≤ byteLen (cur ++ t) then Except.error MountsError.tooLong
      else
        match mountLine (cur ++ t) with
        | Except.error e => Except.error e
        | Except.ok entry => Except.ok (results ++ [entry]) := by
  induction t generalizing cur with
  | nil =>
    simp only [scanLoop, List.append_nil, mountLine_dropCR]
  | cons c t ih =>
    have hc : c ≠ '\n' := fun h => ht (by rw [h]; exact List.mem_cons_self _ _)
    have ht1 : '\n' ∉ t := fun h => ht (List.mem_cons_of_mem _ h)
    simp only [scanLoop, hc, if_false]
    rw [ih ht1]
    simp only [List.append_assoc, List.singleton_append]

/-- The scan loop on a text is the scan of its lines. -/
theorem scanLoop_unlines (ls : List Str) (rest : Str) (hls : ∀ l ∈ ls, '\n' ∉ l)
    (hrest : '\n' ∉ rest) (results : List FSTabEntry) :
    scanLoop (unlines ls rest) [] results = scanAll (scannedLines ls rest) results := by
  induction ls generalizing results with
  | nil =>
    simp only [unlines, List.map_nil, List.flatten_nil, List.nil_append, scannedLines]
    rw [scanLoop_rest rest hrest]
    by_cases h : rest = []
    · simp [h, scanAll]
    · simp only [List.nil_append, h, if_false, scanAll, scanStep]
      split_ifs
      · rfl
      · cases mountLine rest <;> rfl
  | cons l ls ih =>
    have h1 : unlines (l :: ls) rest = l ++ '\n' :: unlines ls rest := by
      simp [unlines]
    have h2 : scannedLines (l :: ls) rest = l :: scannedLines ls rest := by
      simp [scannedLines]
    rw [h1, h2, scanLoop_line l (hls l (List.mem_cons_self _ _))]
    simp only [List.nil_append, scanAll, scanStep]
    split_ifs
    · rfl
    · cases mountLine l with
      | error e => rfl
      | ok entry => exact ih (fun x hx => hls x (List.mem_cons_of_mem _ hx)) _

/-- The body of the loop accepts a line exactly when the line stands for the entry. -/
theorem mountLine_ok_iff (l : Str) (e : FSTabEntry) :
    mountLine l = Except.ok e ↔ LineEntry l e := by
  unfold mountLine LineEntry
  constructor
  · intro h
    split at h
    · rename_i f0 f1 f2 f3 f4 f5 hf
      cases h4 : Atoi f4 with
      | none => rw [h4] at h; cases h
      | some freq =>
        rw [h4] at h
        cases h5 : Atoi f5 with
        | none => rw [h5] at h; cases h
        | some passno =>
          rw [h5] at h
          cases h
          exact ⟨f3, f4, f5, hf, rfl, h4, h5⟩
    · cases h
  · rintro ⟨f3, f4, f5, hf, hm, h4, h5⟩
    rw [hf]
    simp only [h4, h5]
    rw [← hm]

theorem mountLine_cannotParse (l : Str) (h : (Fields l).length ≠ 6) :
    mountLine l = Except.error MountsError.cannotParse := by
  unfold mountLine
  split
  · rename_i hf
    rw [hf] at h
    simp at h
  · rfl

theorem mountLine_atoi (l : Str) (h : (Fields l).length = 6) (hno : ¬ ∃ e, LineEntry l e) :
    ∃ f, mountLine l = Except.error (MountsError.atoi f) := by
  cases hm : mountLine l with
  | ok e => exact absurd ⟨e, (mountLine_ok_iff l e).mp hm⟩ hno
  | error err =>
    unfold mountLine at hm
    split at hm
    · rename_i f0 f1 f2 f3 f4 f5 hf
      cases h4 : Atoi f4 with
      | none => rw [h4] at hm; cases hm; exact ⟨f4, rfl⟩
      | some freq =>
        rw [h4] at hm
        cases h5 : Atoi f5 with
        | none => rw [h5] at hm; cases hm; exact ⟨f5, rfl⟩
        | some passno => rw [h5] at hm; cases hm
    · rename_i hne
      exfalso
      match hf : Fields l, h with
      | [f0, f1, f2, f3, f4, f5], _ => exact hne f0 f1 f2 f3 f4 f5 hf

theorem scanAll_ok :
    ∀ (lines : List Str) (results : List FSTabEntry),
      (∀ l ∈ lines, byteLen l < MaxScanTokenSize ∧ ∃ e, LineEntry l e) →
      ∃ es, scanAll lines results = Except.ok (results ++ es) ∧
        List.Forall₂ LineEntry lines es := by
  intro lines
  induction lines with
  | nil => intro results _; exact ⟨[], by simp [scanAll], List.Forall₂.nil⟩
  | cons l lines ih =>
    intro results h
    obtain ⟨hlen, e, he⟩ := h l (List.mem_cons_self _ _)
    obtain ⟨es, h1, h2⟩ := ih (results ++ [e]) (fun x hx => h x (List.mem_cons_of_mem _ hx))
    refine ⟨e :: es, ?_, List.Forall₂.cons he h2⟩
    have hnot : ¬ (MaxScanTokenSize ≤ byteLen l) := by omega
    simp only [scanAll, scanStep, hnot, if_false, (mountLine_ok_iff l e).mpr he, h1,
      List.append_assoc, List.singleton_append]

theorem scanAll_ok_inv :
    ∀ (lines : List Str) (results rs : List FSTabEntry),
      scanAll lines results = Except.ok rs →
      ∃ es, rs = results ++ es ∧ List.Forall₂ LineEntry lines es ∧
        ∀ l ∈ lines, byteLen l < MaxScanTokenSize := by
  intro lines
  induction lines with
  | nil =>
    intro results rs h
    simp only [scanAll, Except.ok.injEq] at h
    exact ⟨[], by simp [h], List.Forall₂.nil, by simp⟩
  | cons l lines ih =>
    intro results rs h
    simp only [scanAll, scanStep] at h
    by_cases hlen : MaxScanTokenSize ≤ byteLen l
    · simp only [hlen, if_true] at h
      cases h
    · simp only [hlen, if_false] at h
      cases hm : mountLine l with
      | error e => rw [hm] at h; cases h
      | ok e =>
        rw [hm] at h
        obtain ⟨es, h1, h2, h3⟩ := ih _ _ h
        refine ⟨e :: es, by simp [h1], List.Forall₂.cons ((mountLine_ok_iff l e).mp hm) h2, ?_⟩
        intro x hx
        rcases List.mem_cons.mp hx with rfl | hx1
        · omega
        · exact h3 x hx1

/-- The first line that is not accepted decides the error. -/
theorem scanAll_first_bad :
    ∀ (pre : List Str) (l : Str) (post : List Str) (results : List FSTabEntry)
      (err : MountsError),
      (∀ x ∈ pre, byteLen x < MaxScanTokenSize ∧ ∃ e, LineEntry x e) →
      scanStep l = Except.error err →
      scanAll (pre ++ l :: post) results = Except.error err := by
  intro pre
  induction pre with
  | nil =>
    intro l post results err _ h
    simp only [List.nil_append, scanAll, h]
  | cons x pre ih =>
    intro l post results err hpre h
    obtain ⟨hlen, e, he⟩ := hpre x (List.mem_cons_self _ _)
    have hnot : ¬ (MaxScanTokenSize ≤ byteLen x) := by omega
    simp only [List.cons_append, scanAll, scanStep, hnot, if_false,
      (mountLine_ok_iff x e).mpr he]
    exact ih l post _ err (fun y hy => hpre y (List.mem_cons_of_mem _ hy)) h

theorem lineEntry_fields {l : Str} {e : FSTabEntry} (h : LineEntry l e) :
    (Fields l).length = 6 := by
  obtain ⟨f3, f4, f5, hf, _⟩ := h
  rw [hf]; rfl

theorem byteLen_replicate_a (n : Nat) : byteLen (List.replicate n 'a') = n := by
  induction n with
  | zero => rfl
  | succ k ih =>
    have h1 : Char.utf8Size 'a' = 1 := by decide
    rw [List.replicate_succ]
    simp only [byteLen, List.map_cons, List.sum_cons, h1] at ih ⊢
    omega

theorem fieldsFrom_space_cons (c : Char) (hc : IsSpace c = true) (xs cur : Str)
    (hcur : cur ≠ []) : fieldsFrom (c :: xs) cur = cur :: fieldsFrom xs [] := by
  simp only [fieldsFrom, hc, if_true, hcur, if_false]

/-- A line of six fields whose first field is `n` letters long. -/
theorem long_line (n : Nat) (hn : 1 ≤ n) :
    LineEntry (List.replicate n 'a' ++ " b c d 0 0".toList)
      { Spec := List.replicate n 'a', File := "b".toList, Vfstype := "c".toList,
        Mntops := ["d".toList], Freq := 0, Passno := 0 } ∧
    '\n' ∉ List.replicate n 'a' ++ " b c d 0 0".toList ∧
    n ≤ byteLen (List.replicate n 'a' ++ " b c d 0 0".toList) := by
  have hsp : ∀ c ∈ List.replicate n 'a', IsSpace c = false := by
    intro c hc
    rw [(List.mem_replicate.mp hc).2]
    decide
  have hne : List.replicate n 'a' ≠ [] := by
    intro h
    have := congrArg List.length h
    simp only [List.length_replicate, List.length_nil] at this
    omega
  refine ⟨⟨"d".toList, "0".toList, "0".toList, ?_, rfl, rfl, rfl⟩, ?_, ?_⟩
  · unfold Fields
    rw [fieldsFrom_token _ _ [] hsp, List.nil_append]
    have hrest : ∀ cur : Str, cur ≠ [] →
        fieldsFrom " b c d 0 0".toList cur
          = cur :: ["b".toList, "c".toList, "d".toList, "0".toList, "0".toList] := by
      intro cur hcur
      have h0 : " b c d 0 0".toList = ' ' :: "b c d 0 0".toList := by decide
      have h1 : IsSpace ' ' = true := by decide
      have h2 : fieldsFrom "b c d 0 0".toList []
          = ["b".toList, "c".toList, "d".toList, "0".toList, "0".toList] := by decide
      rw [h0, fieldsFrom_space_cons ' ' h1 _ cur hcur, h2]
    exact hrest _ hne
  · intro h
    rcases List.mem_append.mp h with h | h
    · have := (List.mem_replicate.mp h).2
      revert this
      decide
    · revert h
      decide
  · rw [byteLen_append, byteLen_replicate_a]
    omega

/-- A text of one line of six fields that is too long for the scanner. -/
theorem mounts_long_line (n : Nat) (hn : MaxScanTokenSize ≤ n) :
    (∀ l ∈ scannedLines [List.replicate n 'a' ++ " b c d 0 0".toList] [],
      ∃ e, LineEntry l e) ∧
    Mounts (some (unlines [List.replicate n 'a' ++ " b c d 0 0".toList] []))
      = (none, some MountsError.tooLong) := by
  have hpos : 1 ≤ n := by
    have : 1 ≤ MaxScanTokenSize := by decide
    omega
  obtain ⟨h1, h2, h3⟩ := long_line n hpos
  have hlines : scannedLines [List.replicate n 'a' ++ " b c d 0 0".toList] []
      = [List.replicate n 'a' ++ " b c d 0 0".toList] := rfl
  constructor
  · intro l hl
    rw [hlines] at hl
    rw [List.mem_singleton.mp hl]
    exact ⟨_, h1⟩
  · have hs : scanLoop (unlines [List.replicate n 'a' ++ " b c d 0 0".toList] []) [] []
        = Except.error MountsError.tooLong := by
      rw [scanLoop_unlines _ _ (fun l hl => by rw [List.mem_singleton.mp hl]; exact h2)
        (by simp), hlines]
      have hbig : MaxScanTokenSize ≤ byteLen (List.replicate n 'a' ++ " b c d 0 0".toList) := by
        omega
      simp only [scanAll, scanStep, hbig, if_true]
    simp only [Mounts, hs]

/-- C15, the claim as written, fails for a long line: the text of the single line of
`65536` letters `a` followed by ` b c d 0 0` has exactly six fields, the fifth and sixth of
which are decimal integers, and `Mounts` fails: the scanner stops with `bufio.ErrTooLong`, its
buffer of `bufio.MaxScanTokenSize` bytes being full without a newline. -/
theorem C15_counterexample :
    (∀ l ∈ scannedLines [List.replicate 65536 'a' ++ " b c d 0 0".toList] [],
      ∃ e, LineEntry l e) ∧
    Mounts (some (unlines [List.replicate 65536 'a' ++ " b c d 0 0".toList] []))
      = (none, some MountsError.tooLong) :=
  mounts_long_line 65536 (by decide)

/-- C15, amended. `Mounts` over the text of `/proc/mounts`, seen as its lines (the
newline-terminated lines and a non-empty unterminated last one): it succeeds iff every line is
shorter than `bufio.MaxScanTokenSize` (64 KiB), has exactly 6 whitespace-separated fields and
its 5th and 6th fields parse as decimal integers; on success it returns exactly one
`FSTabEntry` per line, in input order, with `Spec`, `File`, `Vfstype` equal to fields 1 to 3,
`Mntops` equal to field 4 split on `','`, and `Freq`, `Passno` equal to the integer values of
fields 5 and 6.  The first line that is not accepted decides the error: the scanner's error
for a line of 64 KiB or more, otherwise `Cannot parse /proc/mounts` for a line with any other
field count (a blank line included), otherwise the error of `strconv.Atoi`. -/
theorem C15_mounts (ls : List Str) (rest : Str) (hls : ∀ l ∈ ls, '\n' ∉ l)
    (hrest : '\n' ∉ rest) :
    ((∃ rs, Mounts (some (unlines ls rest)) = (some rs, none)) ↔
      ∀ l ∈ scannedLines ls rest, byteLen l < MaxScanTokenSize ∧ ∃ e, LineEntry l e) ∧
    (∀ rs, Mounts (some (unlines ls rest)) = (some rs, none) →
      List.Forall₂ LineEntry (scannedLines ls rest) rs) ∧
    (∀ pre l post, scannedLines ls rest = pre ++ l :: post →
      (∀ x ∈ pre, byteLen x < MaxScanTokenSize ∧ ∃ e, LineEntry x e) →
      (MaxScanTokenSize ≤ byteLen l →
        Mounts (some (unlines ls rest)) = (none, some MountsError.tooLong)) ∧
      (byteLen l < MaxScanTokenSize → (Fields l).length ≠ 6 →
        Mounts (some (unlines ls rest)) = (none, some MountsError.cannotParse)) ∧
      (byteLen l < MaxScanTokenSize → (Fields l).length = 6 → (¬ ∃ e, LineEntry l e) →
        ∃ f, Mounts (some (unlines ls rest)) = (none, some (MountsError.atoi f)))) := by
  have hscan := scanLoop_unlines ls rest hls hrest []
  have hM : Mounts (some (unlines ls rest))
      = match scanAll (scannedLines ls rest) [] with
        | Except.error e => (none, some e)
        | Except.ok results => (some results, none) := by
    simp only [Mounts, hscan]
  refine ⟨?_, ?_, ?_⟩
  · constructor
    · rintro ⟨rs, hrs⟩
      rw [hM] at hrs
      cases hs : scanAll (scannedLines ls rest) [] with
      | error e => rw [hs] at hrs; cases hrs
      | ok rs1 =>
        obtain ⟨es, _, h2, h3⟩ := scanAll_ok_inv _ _ _ hs
        intro l hl
        refine ⟨h3 l hl, ?_⟩
        obtain ⟨i, hi, rfl⟩ := List.getElem_of_mem hl
        have hlen := h2.length_eq
        exact ⟨es[i], (List.forall₂_iff_get.mp h2).2 i hi (by omega)⟩
    · intro hall
      obtain ⟨es, h1, _⟩ := scanAll_ok (scannedLines ls rest) [] hall
      exact ⟨[] ++ es, by rw [hM, h1]⟩
  · intro rs hrs
    rw [hM] at hrs
    cases hs : scanAll (scannedLines ls rest) [] with
    | error e => rw [hs] at hrs; cases hrs
    | ok rs1 =>
      rw [hs] at hrs
      cases hrs
      obtain ⟨es, h1, h2, _⟩ := scanAll_ok_inv _ _ _ hs
      rw [h1]
      exact h2
  · intro pre l post hsplit hpre
    refine ⟨?_, ?_, ?_⟩
    · intro hlong
      have hstep : scanStep l = Except.error MountsError.tooLong := by
        simp only [scanStep, hlong, if_true]
      rw [hM, hsplit, scanAll_first_bad pre l post [] _ hpre hstep]
    · intro hshort hcount
      have hnot : ¬ (MaxScanTokenSize ≤ byteLen l) := by omega
      have hstep : scanStep l = Except.error MountsError.cannotParse := by
        simp only [scanStep, hnot, if_false, mountLine_cannotParse l hcount]
      rw [hM, hsplit, scanAll_first_bad pre l post [] _ hpre hstep]
    · intro hshort hcount hno
      have hnot : ¬ (MaxScanTokenSize ≤ byteLen l) := by omega
      obtain ⟨f, hf⟩ := mountLine_atoi l hcount hno
      have hstep : scanStep l = Except.error (MountsError.atoi f) := by
        simp only [scanStep, hnot, if_false, hf]
      exact ⟨f, by rw [hM, hsplit, scanAll_first_bad pre l post [] _ hpre hstep]⟩

theorem C15_mounts_witness :
    Mounts (some "/dev/sda1 / ext4 rw,relatime 0 1\nproc /proc proc rw 0 0\n".toList)
      = (some [{ Spec := "/dev/sda1".toList, File := "/".toList, Vfstype := "ext4".toList,
                 Mntops := ["rw".toList, "relatime".toList], Freq := 0, Passno := 1 },
               { Spec := "proc".toList, File := "/proc".toList, Vfstype := "proc".toList,
                 Mntops := ["rw".toList], Freq := 0, Passno := 0 }], none) ∧
    (∀ rs, Mounts (some (unlines ["/dev/sda1 / ext4 rw,relatime 0 1".toList,
        "proc /proc proc rw 0 0".toList] [])) = (some rs, none) →
      List.Forall₂ LineEntry (scannedLines ["/dev/sda1 / ext4 rw,relatime 0 1".toList,
        "proc /proc proc rw 0 0".toList] []) rs) ∧
    Mounts (some (unlines ["proc /proc proc rw 0 0".toList, "a b c".toList] []))
      = (none, some MountsError.cannotParse) :=
  ⟨rfl,
   (C15_mounts ["/dev/sda1 / ext4 rw,relatime 0 1".toList, "proc /proc proc rw 0 0".toList] []
      (by decide) (by decide)).2.1,
   ((C15_mounts ["proc /proc proc rw 0 0".toList, "a b c".toList] [] (by decide)
      (by decide)).2.2 ["proc /proc proc rw 0 0".toList] "a b c".toList [] rfl
      (fun x hx => by
        rw [List.mem_singleton.mp hx]
        exact ⟨by decide, FSTabEntry.mk "proc".toList "/proc".toList "proc".toList
          ["rw".toList] 0 0, "rw".toList, "0".toList, "0".toList, rfl, rfl, rfl, rfl⟩)).2.1
      (by decide) (by decide)⟩
